import Mathlib

/-!
# Verification of the bodyguard streaming body decoder

A shallow embedding of the core of the `@auth70/bodyguard` repository
(`src/lib.ts`, `src/parser.ts`): the value caster, the nested-key
assembler, the byte-stream counter, and the three streaming parsers
(JSON, URL-encoded, multipart).

Modelling conventions:
* JavaScript strings are Lean `String`s (lists of characters).  `length`
  is the character count; all inputs exercised here are ASCII, where this
  coincides with JS UTF-16 code-unit length.
* JavaScript numbers are modelled exactly (no IEEE-754 rounding) by the
  inductive `JSNum`: a normalized decimal mantissa/exponent pair or an
  infinity; `NaN` is represented by `Option.none` at the use sites.
* Byte streams are lists of chunks, each chunk a list of byte values.
* Promise semantics (`resolve`/`reject`): the first settlement wins;
  later settlements are no-ops.  A parse that never settles is `none`.
* Assignments to a `__proto__` property go through the JS
  `Object.prototype.__proto__` setter and therefore never create an own
  property; the model makes such writes no-ops and reads of `__proto__`
  yield an opaque empty prototype object.  Prototype mutation itself
  (observable in JS only through inheritance, never as an own property)
  is outside the model.
* External collaborators (`@streamparser/json`, the multipart splitter,
  `decodeURIComponent`) are modelled at their documented interfaces; the
  repository's own handler code around them is translated faithfully.
-/

namespace Bodyguard

/-! ## Character and string helpers -/

/-- JS whitespace recognised by `String.prototype.trim` and by
`Number()` (space, tab, LF, CR, vertical tab, form feed; the more exotic
Unicode spaces do not occur in any input considered here). -/
def isJsSpace (c : Char) : Bool :=
  c = ' ' || c = '\t' || c = '\n' || c = '\r' || c = '\x0b' || c = '\x0c'

/-- ASCII decimal digit. -/
def isDigitChar (c : Char) : Bool :=
  '0' ≤ c && c ≤ '9'

/-- Numeric value of a digit character. -/
def digitVal (c : Char) : Nat :=
  c.toNat - '0'.toNat

/-- Character for a digit value. -/
def digitChar48 (d : Nat) : Char :=
  Char.ofNat (48 + d)

/-- Big-endian accumulation of decimal digit characters. -/
def natFromChars (cs : List Char) : Nat :=
  cs.foldl (fun a c => a * 10 + digitVal c) 0

/-- Decimal digit characters of `n`, most significant first
(empty for `0`). -/
def natDigitChars (n : Nat) : List Char :=
  ((Nat.digits 10 n).reverse).map digitChar48

/-- Trim JS whitespace from both ends of a character list. -/
def jsTrimChars (cs : List Char) : List Char :=
  ((cs.dropWhile isJsSpace).reverse.dropWhile isJsSpace).reverse

/-- JS `String.prototype.trim`. -/
def jsTrim (s : String) : String :=
  ⟨jsTrimChars s.data⟩

/-- The regex replacement `value.replace(/[\r\n]+$/, '')` from
`possibleCast`: strip one trailing run of CR/LF characters. -/
def stripTrailingCRLF (s : String) : String :=
  ⟨(s.data.reverse.dropWhile (fun c => c = '\r' || c = '\n')).reverse⟩

/-- The regex replacement `value.replace(/\+/g, ' ')` from
`possibleCast`. -/
def plusToSpace (s : String) : String :=
  ⟨s.data.map (fun c => if c = '+' then ' ' else c)⟩

/-! ## JS numbers

An exact model of JavaScript number values produced by `Number(string)`:
a sign-carrying decimal mantissa `m` and decimal exponent `e` denoting
`m * 10 ^ e`, kept in normal form (`m` not divisible by 10 unless the
value is zero, in which case `m = 0, e = 0`), or an infinity.  `NaN` is
`Option.none` at the call sites.  IEEE-754 rounding is not modelled; all
claims verified here are insensitive to it. -/

inductive JSNum where
  | finite (m : Int) (e : Int)
  | inf
  | negInf
deriving DecidableEq, Repr

/-- Strip factors of 10 from a positive mantissa, shifting them into the
exponent.  `fuel` bounds the recursion; any `fuel ≥ n` computes the
fixpoint. -/
def stripTensN : Nat → Nat → Int → Nat × Int
  | 0, n, e => (n, e)
  | fuel + 1, n, e =>
      if n % 10 = 0 then stripTensN fuel (n / 10) (e + 1) else (n, e)

/-- Normalize a mantissa/exponent pair into a `JSNum`. -/
def normFin (m : Int) (e : Int) : JSNum :=
  if m = 0 then .finite 0 0
  else
    let p := stripTensN m.natAbs m.natAbs e
    .finite (if m < 0 then -(p.1 : Int) else (p.1 : Int)) p.2

/-- Normal form invariant maintained by `normFin`. -/
def Normalized : JSNum → Prop
  | .finite m e => (m = 0 → e = 0) ∧ (m ≠ 0 → ¬ ((10 : Int) ∣ m))
  | .inf => True
  | .negInf => True

/-! ### Parsing: the `Number(string)` string-to-number conversion -/

/-- Hex digit predicate. -/
def isHexChar (c : Char) : Bool :=
  isDigitChar c || ('a' ≤ c && c ≤ 'f') || ('A' ≤ c && c ≤ 'F')

/-- Hex digit value. -/
def hexVal (c : Char) : Nat :=
  if isDigitChar c then digitVal c
  else if 'a' ≤ c && c ≤ 'f' then c.toNat - 'a'.toNat + 10
  else c.toNat - 'A'.toNat + 10

/-- Accumulate digits in base `b` using `val`. -/
def natFromBase (b : Nat) (val : Char → Nat) (cs : List Char) : Nat :=
  cs.foldl (fun a c => a * b + val c) 0

/-- Parse an optional decimal exponent suffix (`e`/`E`, optional sign,
digits); the empty list denotes exponent `0`; anything else fails. -/
def parseExp (cs : List Char) : Option Int :=
  match cs with
  | [] => some 0
  | c :: rest =>
    if c = 'e' || c = 'E' then
      let (neg, ds) :=
        match rest with
        | '+' :: r => (false, r)
        | '-' :: r => (true, r)
        | r => (false, r)
      if ds ≠ [] && ds.all isDigitChar then
        some (if neg then -(natFromChars ds : Int) else (natFromChars ds : Int))
      else none
    else none

/-- Parse an unsigned decimal literal (`StrUnsignedDecimalLiteral`
without `Infinity`): digits, optional point and fraction digits,
optional exponent; the whole list must be consumed.  Returns the
mantissa (all digits, as written) and the decimal exponent. -/
def parseDec (cs : List Char) : Option (Nat × Int) :=
  let intDigs := cs.takeWhile isDigitChar
  let rest := cs.drop intDigs.length
  match rest with
  | [] => if intDigs = [] then none else some (natFromChars intDigs, 0)
  | '.' :: rest2 =>
    let fracDigs := rest2.takeWhile isDigitChar
    let rest3 := rest2.drop fracDigs.length
    if intDigs = [] && fracDigs = [] then none
    else
      match parseExp rest3 with
      | some ex => some (natFromChars (intDigs ++ fracDigs), ex - fracDigs.length)
      | none => none
  | _ =>
    match parseExp rest with
    | some ex => if intDigs = [] then none else some (natFromChars intDigs, ex)
    | none => none

/-- Build a finite `JSNum` from sign, mantissa and exponent. -/
def mkFin (neg : Bool) (mant : Nat) (e : Int) : JSNum :=
  normFin (if neg then -(mant : Int) else (mant : Int)) e

/-- Parse a non-decimal integer literal (`0x`/`0o`/`0b`). -/
def parseRadix (b : Nat) (valid : Char → Bool) (val : Char → Nat)
    (ds : List Char) : Option JSNum :=
  if ds ≠ [] && ds.all valid then some (normFin (natFromBase b val ds) 0)
  else none

/-- A signed decimal literal or `Infinity`. -/
def parseSigned (neg : Bool) (body : List Char) : Option JSNum :=
  if body = "Infinity".data then some (if neg then .negInf else .inf)
  else (parseDec body).map (fun p => mkFin neg p.1 p.2)

/-- Model of the JS `Number(string)` conversion (`StringToNumber`):
trim whitespace, empty means `0`, then a signed decimal literal
(including `Infinity`) or an unsigned hex/octal/binary literal.
`none` is `NaN`.  Exact arithmetic, no rounding to binary64. -/
def jsStrToNumber (s : String) : Option JSNum :=
  match jsTrimChars s.data with
  | [] => some (.finite 0 0)
  | '0' :: c :: rest =>
    if c = 'x' || c = 'X' then parseRadix 16 isHexChar hexVal rest
    else if c = 'o' || c = 'O' then
      parseRadix 8 (fun d => '0' ≤ d && d ≤ '7') digitVal rest
    else if c = 'b' || c = 'B' then
      parseRadix 2 (fun d => d = '0' || d = '1') digitVal rest
    else parseSigned false ('0' :: c :: rest)
  | '+' :: body => parseSigned false body
  | '-' :: body => parseSigned true body
  | cs => parseSigned false cs

/-! ### Printing: the `String(number)` conversion

Value-faithful model of JS number-to-string: it always prints the exact
plain decimal expansion (JS switches to exponential notation for very
large/small magnitudes, but the printed string converts back to the same
numeric value in both cases, which is all the verified claims use). -/

/-- Decimal rendering of an unsigned mantissa/exponent pair. -/
def finReprChars (n : Nat) (e : Int) : List Char :=
  if 0 ≤ e then natDigitChars n ++ List.replicate e.toNat '0'
  else if (-e).toNat < (natDigitChars n).length then
    (natDigitChars n).take ((natDigitChars n).length - (-e).toNat) ++
      '.' :: (natDigitChars n).drop ((natDigitChars n).length - (-e).toNat)
  else
    '0' :: '.' ::
      (List.replicate ((-e).toNat - (natDigitChars n).length) '0' ++ natDigitChars n)

/-- Model of JS `String(number)`. -/
def jsNumRepr : JSNum → String
  | .inf => "Infinity"
  | .negInf => "-Infinity"
  | .finite m e =>
    if m = 0 then "0"
    else if m < 0 then ⟨'-' :: finReprChars m.natAbs e⟩
    else ⟨finReprChars m.natAbs e⟩

/-! ## Scalars and the value caster (`lib.ts` `possibleCast`) -/

/-- A scalar value produced by the caster: string, number or boolean. -/
inductive Scalar where
  | str (s : String)
  | num (n : JSNum)
  | bool (b : Bool)
deriving DecidableEq, Repr

/-- The parser configuration (`BodyguardConfig` merged with the
form-only fields of `BodyguardFormConfig`; for the plain configuration
used by the JSON parser, `convertPluses` is absent in JS, i.e. falsy,
modelled as `false`). -/
structure Config where
  maxKeys : Nat
  maxDepth : Nat
  maxSize : Nat
  maxKeyLength : Nat
  castNumbers : Bool
  castBooleans : Bool
  convertPluses : Bool
  maxFiles : Nat
  maxFilenameLength : Nat
  allowedContentTypes : Option (List String)

/-- `possibleCast` from `lib.ts`, line by line:
strip a trailing CR/LF run; if the result trims to empty return it
unchanged; if `Number(value)` is not `NaN` and `castNumbers` is set
return the number; if the value is exactly `"true"`/`"false"` and
`castBooleans` is set return the boolean; if `convertPluses` is set
replace `+` with spaces; otherwise return the string. -/
def possibleCast (value : String) (cfg : Config) : Scalar :=
  if jsTrim (stripTrailingCRLF value) = "" then .str (stripTrailingCRLF value)
  else
    match jsStrToNumber (stripTrailingCRLF value), cfg.castNumbers with
    | some n, true => .num n
    | _, _ =>
      if stripTrailingCRLF value = "true" && cfg.castBooleans then .bool true
      else if stripTrailingCRLF value = "false" && cfg.castBooleans then .bool false
      else if cfg.convertPluses then .str (plusToSpace (stripTrailingCRLF value))
      else .str (stripTrailingCRLF value)

/-- Is a `JSNum` finite? -/
def JSNum.isFinite : JSNum → Bool
  | .finite _ _ => true
  | _ => false

/-- Steps 4–6 of the specified algorithm (booleans, plus conversion,
identity), shared by `possibleCastSpec` and its amended form. -/
def possibleCastSpecTail (value : String) (cfg : Config) : Scalar :=
  if cfg.castBooleans && value = "true" then .bool true
  else if cfg.castBooleans && value = "false" then .bool false
  else if cfg.convertPluses then .str (plusToSpace value)
  else .str value

/-- The caster as the specification sentence states it (for comparison
with `possibleCast`): step 2 returns *an empty string* when the value
trims to empty, and step 3 applies only when the value parses as a
*finite* number. -/
def possibleCastSpec (value : String) (cfg : Config) : Scalar :=
  if jsTrim (stripTrailingCRLF value) = "" then .str ""
  else
    match jsStrToNumber (stripTrailingCRLF value) with
    | some n =>
      if n.isFinite && cfg.castNumbers then .num n
      else possibleCastSpecTail (stripTrailingCRLF value) cfg
    | none => possibleCastSpecTail (stripTrailingCRLF value) cfg

/-- The amended specification of the caster: step 2 returns the
CR/LF-stripped value itself (which may be non-empty whitespace), and
step 3 applies whenever `Number(value)` is not `NaN` — including the
infinities. -/
def possibleCastSpecAmended (value : String) (cfg : Config) : Scalar :=
  if jsTrim (stripTrailingCRLF value) = "" then .str (stripTrailingCRLF value)
  else
    match jsStrToNumber (stripTrailingCRLF value) with
    | some n =>
      if cfg.castNumbers then .num n
      else possibleCastSpecTail (stripTrailingCRLF value) cfg
    | none => possibleCastSpecTail (stripTrailingCRLF value) cfg

/-- JS `String(scalar)`: the string re-representation of a cast
result. -/
def scalarRepr : Scalar → String
  | .str s => s
  | .num n => jsNumRepr n
  | .bool true => "true"
  | .bool false => "false"

/-! ## Errors

The closed error taxonomy; the source throws `Error` objects whose
message is the corresponding `ERRORS` constant, and for an invalid path
segment a composed diagnostic message carrying the segment and the
dot-joined path.  `typeError` models the strict-mode `TypeError` raised
by a property write on a primitive (the source files are ES modules,
hence strict), and `uriError` the `URIError` of `decodeURIComponent`. -/

inductive Err where
  | maxSizeExceeded
  | tooManyKeys
  | tooDeep
  | keyTooLong
  | invalidInput
  | tooManyFiles
  | filenameTooLong
  | invalidContentType
  | invalidSegment (segment : String) (path : String)
  | typeError
  | uriError
deriving DecidableEq, Repr

/-! ## The parse-result value model

`JSONLike` values as built by the parsers.  Sequences are sparse (holes
are `none`); JS arrays and `File` objects are ordinary objects and can
carry additional named properties, recorded in `props`.  Object fields
keep insertion order, as JS objects do. -/

inductive JValue where
  | str (s : String)
  | num (n : JSNum)
  | bool (b : Bool)
  | obj (fields : List (String × JValue))
  | arr (elems : List (Option JValue)) (props : List (String × JValue))
  | file (filename : String) (contentType : String) (content : String)
      (props : List (String × JValue))
deriving Repr

/-- Embed a cast scalar. -/
def Scalar.toJValue : Scalar → JValue
  | .str s => .str s
  | .num n => .num n
  | .bool b => .bool b

/-- JS truthiness of a read property (`undefined`, `""`, `0` and
`false` are falsy; every object is truthy). -/
def isTruthy : Option JValue → Bool
  | none => false
  | some (.str s) => s ≠ ""
  | some (.num n) => n ≠ .finite 0 0
  | some (.bool b) => b
  | some _ => true

/-- `typeof x === 'object'`: objects, arrays and `File`s. -/
def typeofObject : JValue → Bool
  | .obj _ => true
  | .arr _ _ => true
  | .file _ _ _ _ => true
  | _ => false

/-- `Array.isArray`. -/
def isArrayV : Option JValue → Bool
  | some (.arr _ _) => true
  | _ => false

/-- Order-preserving association update: overwrite the first occurrence
in place, else append (JS object key semantics). -/
def assocSet : List (String × JValue) → String → JValue → List (String × JValue)
  | [], k, v => [(k, v)]
  | (k', v') :: rest, k, v =>
    if k' = k then (k, v) :: rest else (k', v') :: assocSet rest k v

/-- Association lookup. -/
def assocGet : List (String × JValue) → String → Option JValue
  | [], _ => none
  | (k', v') :: rest, k => if k' = k then some v' else assocGet rest k

/-- A canonical JS array index: a non-empty digit string without a
leading zero (except `"0"` itself).  `a["1"]` addresses element 1 of an
array; `a["01"]` is a named property. -/
def canonIdx (k : String) : Option Nat :=
  match k.data with
  | [] => none
  | c :: rest =>
    if (c :: rest).all isDigitChar && (c ≠ '0' || rest = []) then
      some (natFromChars (c :: rest))
    else none

/-- Sparse-array element write at index `n`, extending with holes. -/
def listSet (es : List (Option JValue)) (n : Nat) (x : JValue) :
    List (Option JValue) :=
  if n < es.length then es.set n (some x)
  else es ++ List.replicate (n - es.length) none ++ [some x]

/-- Property read `cur[key]` for a string key.  Reading `__proto__`
yields the (opaque, empty) prototype object; property reads on
primitives other than `__proto__` are `undefined` (string
`length`/index properties are outside the model). -/
def getProp (cur : JValue) (key : String) : Option JValue :=
  if key = "__proto__" then some (.obj [])
  else
    match cur with
    | .obj fs => assocGet fs key
    | .arr es ps =>
      match canonIdx key with
      | some n => (es.get? n).join
      | none => assocGet ps key
    | .file _ _ _ ps => assocGet ps key
    | _ => none

/-- Property write `cur[key] = x`.  A `__proto__` write goes through the
`Object.prototype.__proto__` setter and never creates an own property
(the model discards it); a write on a primitive raises the strict-mode
`TypeError`. -/
def setProp (cur : JValue) (key : String) (x : JValue) : Except Err JValue :=
  if key = "__proto__" then pure cur
  else
    match cur with
    | .obj fs => pure (.obj (assocSet fs key x))
    | .arr es ps =>
      match canonIdx key with
      | some n => pure (.arr (listSet es n x) ps)
      | none => pure (.arr es (assocSet ps key x))
    | .file f c b ps => pure (.file f c b (assocSet ps key x))
    | _ => throw .typeError

/-- Indexed read `v[n]` for a numeric index. -/
def getIdx (v : JValue) (n : Nat) : Option JValue :=
  match v with
  | .arr es _ => (es.get? n).join
  | .obj fs => assocGet fs (toString n)
  | .file _ _ _ ps => assocGet ps (toString n)
  | _ => none

/-- Indexed write `v[n] = x`. -/
def setIdx (v : JValue) (n : Nat) (x : JValue) : Except Err JValue :=
  match v with
  | .arr es ps => pure (.arr (listSet es n x) ps)
  | .obj fs => pure (.obj (assocSet fs (toString n) x))
  | .file f c b ps => pure (.file f c b (assocSet ps (toString n) x))
  | _ => throw .typeError

/-! ## Key paths and the nested-key assembler (`lib.ts`) -/

/-- `extractNestedKey`: split a key on `.`, dropping empty buffers, by
the same character loop as the source. -/
def extractNestedKeyChars : List Char → List Char → List String
  | [], buffer => if buffer ≠ [] then [⟨buffer.reverse⟩] else []
  | c :: rest, buffer =>
    if c = '.' then
      if buffer ≠ [] then ⟨buffer.reverse⟩ :: extractNestedKeyChars rest []
      else extractNestedKeyChars rest []
    else extractNestedKeyChars rest (c :: buffer)

/-- `extractNestedKey` from `lib.ts`. -/
def extractNestedKey (keyName : String) : List String :=
  extractNestedKeyChars keyName.data []

/-- The segment grammar `/^(\w+)(?:\[(\d*?)\])?$/`: a non-empty run of
word characters, optionally followed by a bracketed (possibly empty)
digit string.  Returns the key and the bracket content:
`none` = no brackets, `some none` = `[]`, `some (some n)` = `[n]`. -/
def parseSegment (seg : String) : Option (String × Option (Option Nat)) :=
  let cs := seg.data
  let w := cs.takeWhile (fun c => c.isAlpha || c.isDigit || c = '_')
  let rest := cs.drop w.length
  if w = [] then none
  else
    match rest with
    | [] => some (⟨w⟩, none)
    | '[' :: r =>
      match r.getLast? with
      | some ']' =>
        let mid := r.dropLast
        if mid.all isDigitChar then
          if mid = [] then some (⟨w⟩, some none)
          else some (⟨w⟩, some (some (natFromChars mid)))
        else none
      | _ => none
    | _ => none

/-- `current[key].push(x)`: array append; on a non-array (only reachable
through the `__proto__` prototype sink, where the result is discarded)
behaves as an append-to-props no-op carrier. -/
def pushVal (v : JValue) (x : JValue) : Except Err JValue :=
  match v with
  | .arr es ps => pure (.arr (es ++ [some x]) ps)
  | .obj fs => pure (.obj fs)
  | .file f c b ps => pure (.file f c b ps)
  | _ => throw .typeError

/-- `current[key].length && typeof last === 'object'`: the array is
non-empty and its last element is object-typed. -/
def lastIsObject (v : JValue) : Bool :=
  match v with
  | .arr es _ =>
    match es.getLast? with
    | some (some x) => typeofObject x
    | _ => false
  | _ => false

/-- `current[key][current[key].length - 1]` after the push step. -/
def lastElem (v : JValue) : Option JValue :=
  match v with
  | .arr es _ => (es.getLast?).join
  | _ => none

/-- Write back the last element of the array. -/
def setLast (v : JValue) (x : JValue) : Except Err JValue :=
  match v with
  | .arr es ps =>
    if es.length = 0 then pure (.arr es ps)
    else pure (.arr (es.set (es.length - 1) (some x)) ps)
  | .obj fs => pure (.obj fs)
  | .file f c b ps => pure (.file f c b ps)
  | _ => throw .typeError

/-- One step of `assignNestedValue`'s loop, written as structural
recursion over the remaining segments; the tree that JS mutates in place
is rebuilt by grafting the updated child back into its parent, which is
equivalent for the tree-shaped values the parsers build.  `fullPath` is
the whole path, used for the `InvalidSegment` diagnostic. -/
def assignGo (cur : JValue) (segs : List String) (fullPath : List String)
    (value : JValue) : Except Err JValue :=
  match segs with
  | [] => pure cur
  | seg :: rest =>
    match parseSegment seg with
    | none => throw (.invalidSegment seg (String.intercalate "." fullPath))
    | some (key, idx) =>
      if rest = [] then
        -- last segment
        match idx with
        | none => setProp cur key value
        | some iopt => do
          -- if (!Array.isArray(current[key])) current[key] = [];
          let cur ← if isArrayV (getProp cur key) then pure cur
                    else setProp cur key (.arr [] [])
          let av := (getProp cur key).getD (.obj [])
          match iopt with
          | some n => do
            -- current[key][N] = value
            let av' ← setIdx av n value
            setProp cur key av'
          | none => do
            -- current[key].push(value)
            let av' ← pushVal av value
            setProp cur key av'
      else
        match idx with
        | none => do
          -- if (!current[key]) current[key] = {}; current = current[key]
          let cur ← if isTruthy (getProp cur key) then pure cur
                    else setProp cur key (.obj [])
          let child := (getProp cur key).getD (.obj [])
          let child' ← assignGo child rest fullPath value
          setProp cur key child'
        | some iopt => do
          let cur ← if isArrayV (getProp cur key) then pure cur
                    else setProp cur key (.arr [] [])
          let av := (getProp cur key).getD (.obj [])
          match iopt with
          | some n => do
            -- if (!current[key][N]) current[key][N] = {}; descend
            let av ← if isTruthy (getIdx av n) then pure av
                     else setIdx av n (.obj [])
            let child := (getIdx av n).getD (.obj [])
            let child' ← assignGo child rest fullPath value
            let av' ← setIdx av n child'
            setProp cur key av'
          | none => do
            -- append-or-reuse-last
            let av ← if lastIsObject av then pure av
                     else pushVal av (.obj [])
            let child := (lastElem av).getD (.obj [])
            let child' ← assignGo child rest fullPath value
            let av' ← setLast av child'
            setProp cur key av'

/-- `assignNestedValue` from `lib.ts`. -/
def assignNestedValue (obj : JValue) (path : List String) (value : JValue) :
    Except Err JValue :=
  assignGo obj path path value

/-! ## The byte-stream counter (`lib.ts` `createByteStreamCounter`)

The transform stream adds each chunk's length to a running counter and
signals `MAX_SIZE_EXCEEDED` as soon as the counter exceeds `maxSize`,
before the chunk is delivered downstream.  In throw mode (URL-encoded,
multipart, text) the chunk is then not enqueued; in reject mode (JSON)
the promise is rejected and the chunk still flows, which cannot change
the already-settled outcome. -/

/-- One guard step: count a chunk, failing when the cumulative count
exceeds the ceiling. -/
def byteCountStep (maxSize : Nat) (bytes : Nat) (chunk : List Nat) :
    Except Err Nat :=
  let bytes := bytes + chunk.length
  if maxSize < bytes then throw .maxSizeExceeded else pure bytes

/-- Run the guard over a whole chunk sequence (throw mode), returning
the chunks delivered downstream — the unchanged input when the total
stays within the ceiling. -/
def byteCounterRun (maxSize : Nat) (bytes : Nat) :
    List (List Nat) → Except Err (List (List Nat))
  | [] => pure []
  | c :: rest => do
    let bytes ← byteCountStep maxSize bytes c
    let out ← byteCounterRun maxSize bytes rest
    pure (c :: out)

/-- Total byte count of a chunk sequence. -/
def sumLen (chunks : List (List Nat)) : Nat :=
  (chunks.map List.length).sum

/-! ## The URL-encoded parser (`parser.ts` `URLParamsParser`)

A byte-level state machine with states `KEY` and `VALUE`; each `&` emits
the buffered pair together with the incremented key counter; the pair
left in the buffers at end of stream is emitted with the counter as it
stands, *without* incrementing it. -/

inductive UPhase where
  | key
  | value
deriving DecidableEq, Repr

/-- The parser-instance state of `URLParamsParser`. -/
structure UrlState where
  phase : UPhase
  curKey : String
  curValue : String
  keyCount : Nat
deriving Repr

/-- Initial state. -/
def urlInit : UrlState := ⟨.key, "", "", 0⟩

/-- An emitted key/value pair with the key counter at emission time. -/
structure UPair where
  key : String
  value : String
  keyCount : Nat
deriving Repr

/-- One byte of `parseStream`: `=` (61) switches to `VALUE`; `&` (38)
emits and resets; anything else is appended via
`String.fromCharCode`. -/
def urlStep (st : UrlState) (b : Nat) : UrlState × Option UPair :=
  match st.phase with
  | .key =>
    if b = 61 then ({ st with phase := .value }, none)
    else if b = 38 then
      let kc := st.keyCount + 1
      (⟨.key, "", "", kc⟩, some ⟨st.curKey, st.curValue, kc⟩)
    else ({ st with curKey := st.curKey.push (Char.ofNat (b % 65536)) }, none)
  | .value =>
    if b = 38 then
      let kc := st.keyCount + 1
      (⟨.key, "", "", kc⟩, some ⟨st.curKey, st.curValue, kc⟩)
    else ({ st with curValue := st.curValue.push (Char.ofNat (b % 65536)) }, none)

/-- `decodeURIComponent`, modelled for the inputs this development
exercises: percent-free strings decode to themselves and `%XX` escapes
with a single-byte (ASCII) value are decoded; multi-byte UTF-8 escape
sequences are outside the model and malformed escapes raise `URIError`,
both reported as `none`. -/
def decodeURIComponentChars : List Char → Option (List Char)
  | [] => some []
  | '%' :: h :: l :: rest =>
    if isHexChar h && isHexChar l && hexVal h < 8 then
      match decodeURIComponentChars rest with
      | some out => some (Char.ofNat (hexVal h * 16 + hexVal l) :: out)
      | none => none
    else none
  | '%' :: _ => none
  | c :: rest =>
    match decodeURIComponentChars rest with
    | some out => some (c :: out)
    | none => none

/-- `decodeURIComponent` on strings. -/
def decodeURIComponentM (s : String) : Option String :=
  (decodeURIComponentChars s.data).map (⟨·⟩)

/-- The per-pair consumer loop body of `URLParamsParser.parse`: skip
empty keys, enforce `maxKeys`/`maxKeyLength`, reject `__proto__`
segments, enforce `maxDepth`, then cast and assign. -/
def urlProcessPair (cfg : Config) (obj : JValue) (p : UPair) :
    Except Err JValue :=
  if p.key = "" then pure obj
  else if cfg.maxKeys < p.keyCount then throw .tooManyKeys
  else if cfg.maxKeyLength < p.key.length then throw .keyTooLong
  else
    let path := extractNestedKey p.key
    if path.contains "__proto__" then throw .invalidInput
    else if cfg.maxDepth < path.length then throw .tooDeep
    else
      match decodeURIComponentM p.value with
      | none => throw .uriError
      | some dv => assignNestedValue obj path (possibleCast dv cfg).toJValue

/-- Feed the bytes of one chunk through the state machine, processing
each emitted pair immediately (the consumer runs interleaved with the
generator). -/
def urlFeedBytes (cfg : Config) (st : UrlState) (obj : JValue) :
    List Nat → Except Err (UrlState × JValue)
  | [] => pure (st, obj)
  | b :: rest => do
    let (st', emitted) := urlStep st b
    let obj' ← match emitted with
               | some p => urlProcessPair cfg obj p
               | none => pure obj
    urlFeedBytes cfg st' obj' rest

/-- Run the guarded chunk loop of `URLParamsParser.parse` (without the
end-of-stream step): the guard counts each chunk before its bytes are
handed to the state machine. -/
def urlRunChunks (cfg : Config) (bytes : Nat) (st : UrlState) (obj : JValue) :
    List (List Nat) → Except Err (Nat × UrlState × JValue)
  | [] => pure (bytes, st, obj)
  | c :: rest => do
    let bytes ← byteCountStep cfg.maxSize bytes c
    let (st', obj') ← urlFeedBytes cfg st obj c
    urlRunChunks cfg bytes st' obj' rest

/-- `URLParamsParser.parse`: run the chunks, then emit the final pair if
a non-empty key or value buffer remains — with the key counter *not*
incremented. -/
def urlParse (cfg : Config) (chunks : List (List Nat)) : Except Err JValue := do
  let (_, st, obj) ← urlRunChunks cfg 0 urlInit (.obj []) chunks
  if st.curKey ≠ "" || st.curValue ≠ "" then
    urlProcessPair cfg obj ⟨st.curKey, st.curValue, st.keyCount⟩
  else
    pure obj

/-- UTF-8-agnostic byte rendering of an ASCII string, for writing
concrete request bodies. -/
def asciiBytes (s : String) : List Nat :=
  s.data.map Char.toNat

/-! ## The JSON parser (`parser.ts` `JSONParser`)

The repository code registers `onToken`/`onValue`/`onError` handlers on
the external `@streamparser/json` tokenizer and resolves or rejects a
promise; the first settlement wins.  The tokenizer is modelled at its
interface: the input is the sequence of callback events it fires for
each written chunk, together with the chunk's byte length for the
guard. -/

/-- The token kinds the handler inspects; every other token is
`other`. -/
inductive JTok where
  | colon
  | lbrace
  | lbracket
  | rbrace
  | rbracket
  | other
deriving DecidableEq, Repr

/-- The `key` field of an `onValue` callback: a string key inside an
object, a numeric index inside an array, or `undefined` at the root. -/
inductive JKey where
  | str (s : String)
  | idx (n : Nat)
deriving DecidableEq, Repr

/-- A tokenizer callback event. -/
inductive JEvent where
  | tok (t : JTok)
  | value (key : Option JKey) (stackLen : Nat) (v : JValue)
  | err
deriving Repr

/-- The instance state mutated by `onToken`. -/
structure JState where
  keyCount : Nat
  depth : Int
deriving Repr

/-- Process one event: returns the updated state and, if this event
settles the promise, the settlement.  Mirrors the three handlers:
`onToken` counts colons against `maxKeys` and braces/brackets against
`maxDepth`; `onValue` rejects `__proto__` keys, then over-long string
keys, then resolves when the stack is empty; `onError` rejects with
`INVALID_INPUT`. -/
def jsonEventStep (cfg : Config) (st : JState) (e : JEvent) :
    JState × Option (Except Err JValue) :=
  match e with
  | .tok .colon =>
    let kc := st.keyCount + 1
    ({ st with keyCount := kc },
      if cfg.maxKeys < kc then some (throw .tooManyKeys) else none)
  | .tok .lbrace =>
    let d := st.depth + 1
    ({ st with depth := d },
      if (cfg.maxDepth : Int) < d then some (throw .tooDeep) else none)
  | .tok .lbracket =>
    let d := st.depth + 1
    ({ st with depth := d },
      if (cfg.maxDepth : Int) < d then some (throw .tooDeep) else none)
  | .tok .rbrace => ({ st with depth := st.depth - 1 }, none)
  | .tok .rbracket => ({ st with depth := st.depth - 1 }, none)
  | .tok .other => (st, none)
  | .value key stackLen v =>
    if key = some (.str "__proto__") then (st, some (throw .invalidInput))
    else
      match key with
      | some (.str s) =>
        if cfg.maxKeyLength < s.length then (st, some (throw .keyTooLong))
        else if stackLen = 0 then (st, some (pure v)) else (st, none)
      | _ => if stackLen = 0 then (st, some (pure v)) else (st, none)
  | .err => (st, some (throw .invalidInput))

/-- Scan a list of events for the first settlement. -/
def jsonEventsRun (cfg : Config) (st : JState) :
    List JEvent → JState × Option (Except Err JValue)
  | [] => (st, none)
  | e :: rest =>
    match jsonEventStep cfg st e with
    | (st', some out) => (st', some out)
    | (st', none) => jsonEventsRun cfg st' rest

/-- The chunk loop of `JSONParser.parse` over a chunked event stream:
for each chunk the guard (in reject mode) first counts its bytes, then
the tokenizer fires the chunk's events; the first settlement wins.
Returns either the final unsettled state (`Sum.inl`) or the
settlement (`Sum.inr`). -/
def jsonChunksRun (cfg : Config) (bytes : Nat) (st : JState) :
    List (Nat × List JEvent) → (Nat × JState) ⊕ (Except Err JValue)
  | [] => .inl (bytes, st)
  | (len, evs) :: rest =>
    let bytes' := bytes + len
    if cfg.maxSize < bytes' then .inr (throw .maxSizeExceeded)
    else
      match jsonEventsRun cfg st evs with
      | (_, some out) => .inr out
      | (st', none) => jsonChunksRun cfg bytes' st' rest

/-- `JSONParser.parse`: the promise's outcome; `none` means it never
settles (the `while` loop ends without a settlement and the promise
stays pending). -/
def jsonParse (cfg : Config) (chunks : List (Nat × List JEvent)) :
    Option (Except Err JValue) :=
  match jsonChunksRun cfg 0 ⟨0, 0⟩ chunks with
  | .inl _ => none
  | .inr out => some out

/-! ## The multipart parser (`parser.ts` `FormDataParser`)

The external `@exact-realty/multipart-parser` splitter is modelled at
its interface: it yields a sequence of parts, each carrying headers, an
optional (already UTF-8-decoded) body, and optionally a nested sequence
of sub-parts; when the guarded stream fails, the sequence ends with that
stream failure instead of further parts. -/

inductive MItem where
  | part (headers : List (String × String)) (body : Option String)
      (sub : Option (List MItem))
  | streamFail (e : Err)

/-- Case-normalised header lookup (the splitter exposes a `Headers`
object; inputs here use lower-case names). -/
def headerGet (hs : List (String × String)) (name : String) : Option String :=
  match hs with
  | [] => none
  | (k, v) :: rest => if k = name then some v else headerGet rest name

/-- Substring occurrence (for `key.indexOf('; filename=') !== -1`). -/
def containsSub : List Char → List Char → Bool
  | hay, needle =>
    if needle.isPrefixOf hay then true
    else
      match hay with
      | [] => false
      | _ :: rest => containsSub rest needle

/-- First index at which `needle` occurs in `hay`. -/
def firstIndexOfSub : List Char → List Char → Option Nat
  | hay, needle =>
    if needle.isPrefixOf hay then some 0
    else
      match hay with
      | [] => none
      | _ :: rest =>
        match firstIndexOfSub rest needle with
        | some i => some (i + 1)
        | none => none

/-- Index just past the last `'"'` of `cs`, if any. -/
def lastQuoteEnd (cs : List Char) : Option Nat :=
  match firstIndexOfSub cs.reverse ['"'] with
  | some j => some (cs.length - j)
  | none => none

/-- The regex `/name="(.*)"/` applied to a header value: the capture
spans from just after the first `name="` to just before the last `"`
(greedy), when such a span exists. -/
def nameCapture (h : String) : Option String :=
  let cs := h.data
  match firstIndexOfSub cs ("name=\"").data with
  | none => none
  | some i =>
    let start := i + 6
    match lastQuoteEnd cs with
    | some qend =>
      if start < qend then some ⟨(cs.drop start).take (qend - 1 - start)⟩
      else none
    | none => none

/-- The regex `/name="(.*)"; filename="(.*)"/`: the first capture is
greedy, so it extends to the last `"; filename="` that still leaves a
closing quote for the second capture. -/
def nameFilenameCapture (h : String) : Option (String × String) :=
  let cs := h.data
  match firstIndexOfSub cs ("name=\"").data with
  | none => none
  | some i =>
    let start := i + 6
    let mid := ("\"; filename=\"").data
    match lastQuoteEnd cs with
    | none => none
    | some qend =>
      let body := cs.drop start
      match firstIndexOfSub body.reverse mid.reverse with
      | none => none
      | some revJ =>
        let j := start + (body.length - revJ - mid.length)
        if start ≤ j ∧ j + mid.length < qend then
          some (⟨(cs.drop start).take (j - start)⟩,
                ⟨(cs.drop (j + mid.length)).take (qend - 1 - (j + mid.length))⟩)
        else none

/-- The mutable instance counters of `FormDataParser` (`depth`,
`keyCount`, `fileCount`), shared across recursive `inner` calls. -/
structure MState where
  depth : Nat
  keyCount : Nat
  fileCount : Nat
deriving Repr

/-- The `for await` loop body of `FormDataParser`'s recursive `inner`,
one part at a time, threading the instance counters.  A nested
sub-message re-enters `inner`: depth is incremented and checked against
`maxDepth` on entry and decremented on exit.  A stream failure yielded
by the splitter (e.g. the byte guard's `MAX_SIZE_EXCEEDED`) propagates
out of the loop.

`fuel` is a pure totality device (recursion over the nested `MItem`
tree is expressed as structural recursion on `Nat` so that the kernel
can evaluate it): each processed item consumes one unit, `none` is
returned only when the budget runs out, and any budget larger than the
number of items in the tree computes the JS semantics. -/
def mpRun (cfg : Config) : Nat → MState → JValue → List MItem →
    Option (Except Err (JValue × MState))
  | _, st, ret, [] => some (pure (ret, st))
  | _, _, _, .streamFail e :: _ => some (throw e)
  | 0, _, _, .part _ _ _ :: _ => none
  | fuel + 1, st, ret, .part headers body sub :: rest =>
    match headerGet headers "content-disposition" with
    | none => mpRun cfg fuel st ret rest
    | some key =>
      if key = "" || ¬ (("form-data").data.isPrefixOf key.data) then
        mpRun cfg fuel st ret rest
      else
        let contentType :=
          match headerGet headers "content-type" with
          | some s => if s = "" then "text/plain" else s
          | none => "text/plain"
        let ctOk :=
          match cfg.allowedContentTypes with
          | some allowed => allowed.contains contentType
          | none => true
        if ctOk = false then some (throw .invalidContentType)
        else
          let st := { st with keyCount := st.keyCount + 1 }
          if cfg.maxKeys ≤ st.keyCount then some (throw .tooManyKeys)
          else
            let isFile := containsSub key.data ("; filename=").data
            let st := if isFile then { st with fileCount := st.fileCount + 1 }
                      else st
            if cfg.maxFiles ≤ st.fileCount then some (throw .tooManyFiles)
            else
              let m :=
                if isFile then
                  (nameFilenameCapture key).map (fun p => (p.1, some p.2))
                else (nameCapture key).map (fun s => (s, (none : Option String)))
              match m with
              | none => mpRun cfg fuel st ret rest
              | some (keyName, fn) =>
                if keyName = "" then mpRun cfg fuel st ret rest
                else
                  let filename := fn.getD ""
                  if cfg.maxFilenameLength < filename.length then
                    some (throw .filenameTooLong)
                  else if keyName = "__proto__" then some (throw .invalidInput)
                  else if cfg.maxKeyLength < keyName.length then
                    some (throw .keyTooLong)
                  else
                    let bodyStep : Option (Except Err (JValue × MState)) :=
                      match sub with
                      | some items =>
                        -- body = await inner(part.parts)
                        let st := { st with depth := st.depth + 1 }
                        if cfg.maxDepth ≤ st.depth then some (throw .tooDeep)
                        else
                          match mpRun cfg fuel st (.obj []) items with
                          | none => none
                          | some (.error e) => some (throw e)
                          | some (.ok (v, st')) =>
                            some (pure (v, { st' with depth := st'.depth - 1 }))
                      | none =>
                        if isFile then
                          some (pure (match body with
                                      | some content =>
                                        JValue.file filename contentType content []
                                      | none => JValue.str "", st))
                        else
                          some (pure (match body with
                                      | some content =>
                                        (possibleCast content cfg).toJValue
                                      | none => JValue.str "", st))
                    match bodyStep with
                    | none => none
                    | some (.error e) => some (throw e)
                    | some (.ok (bodyVal, st)) =>
                      match assignNestedValue ret (extractNestedKey keyName) bodyVal with
                      | .error e => some (throw e)
                      | .ok ret' => mpRun cfg fuel st ret' rest

/-- `FormDataParser.parse`: the top-level `inner` call on the splitter's
part sequence, with a recursion budget (see `mpRun`). -/
def formDataParseF (fuel : Nat) (cfg : Config) (items : List MItem) :
    Option (Except Err JValue) :=
  let st : MState := ⟨1, 0, 0⟩
  if cfg.maxDepth ≤ st.depth then some (throw .tooDeep)
  else
    match mpRun cfg fuel st (.obj []) items with
    | none => none
    | some (.error e) => some (throw e)
    | some (.ok (v, _)) => some (pure v)

/-! ## Auxiliary notions used by the theorems -/

mutual

/-- No `__proto__` own property anywhere inside a value. -/
def noProtoV : JValue → Bool
  | .str _ => true
  | .num _ => true
  | .bool _ => true
  | .obj fs => noProtoFields fs
  | .arr es ps => noProtoElems es && noProtoFields ps
  | .file _ _ _ ps => noProtoFields ps

/-- No `__proto__` key among the fields, recursively. -/
def noProtoFields : List (String × JValue) → Bool
  | [] => true
  | (k, v) :: rest => k ≠ "__proto__" && noProtoV v && noProtoFields rest

/-- No `__proto__` own property inside any present element. -/
def noProtoElems : List (Option JValue) → Bool
  | [] => true
  | none :: rest => noProtoElems rest
  | some v :: rest => noProtoV v && noProtoElems rest

end

/-- The character list `a.a.⋯.a` with `n + 1` segments. -/
def deepNameChars : Nat → List Char
  | 0 => ['a']
  | n + 1 => 'a' :: '.' :: deepNameChars n

/-- The object chain `{a: {a: ⋯ v}}` of the given height. -/
def chainObj : Nat → JValue → JValue
  | 0, v => v
  | n + 1, v => .obj [("a", chainObj n v)]

/-- A benign baseline configuration (the documented defaults, all cast
flags off, no content-type restriction). -/
def cfgBase : Config :=
  ⟨100, 10, 1024 * 1024, 100, false, false, false, 10, 255, none⟩

/-- Baseline with number casting, as several test scenarios use. -/
def cfgNum : Config :=
  { cfgBase with castNumbers := true }

/-- Number casting together with plus conversion. -/
def cfgNumPlus : Config :=
  { cfgBase with castNumbers := true, convertPluses := true }

/-- Baseline with `maxDepth` set to `d` and `maxKeyLength` wide enough
for the `d`-deep dotted name. -/
def cfgDeep (d : Nat) : Config :=
  { cfgBase with maxDepth := d, maxKeyLength := 2 * d + 1 }

/-- Modelled from the spec (§4.5, and the `@streamparser/json`
interface): the tokenizer callback events fired while writing the
document `{"a":{"b":1}}` — tokens for both braces, both keys and both
colons, and an `onValue` event per completed value with its key and the
stack depth, the root value last, at stack depth `0`. -/
def jsonEventsAB1 : List JEvent :=
  [.tok .lbrace, .tok .other, .tok .colon,
   .tok .lbrace, .tok .other, .tok .colon, .tok .other,
   .value (some (.str "b")) 2 (.num (.finite 1 0)),
   .tok .rbrace,
   .value (some (.str "a")) 1 (.obj [("b", .num (.finite 1 0))]),
   .tok .rbrace,
   .value none 0 (.obj [("a", .obj [("b", .num (.finite 1 0))])])]

/-- Modelled from the spec (§4.5): the event stream prefix for the
document that nests a `"__proto__"` key under `n` successive `"a"`
keys, `{"a":{"a":⋯{"__proto__":1}⋯}}`, up to and including the
`onValue` event for the `__proto__` member (which settles the promise;
later events cannot change the outcome).  The second argument is the
object-stack depth at which the `__proto__` member completes. -/
def protoEvents : Nat → Nat → List JEvent
  | 0, d => [.tok .lbrace, .tok .other, .tok .colon, .tok .other,
             .value (some (.str "__proto__")) d (.num (.finite 1 0))]
  | n + 1, d => .tok .lbrace :: .tok .other :: .tok .colon :: protoEvents n d

/-! ## Lemmas: digits and decimal strings -/

theorem digitVal_digitChar48 (d : Nat) (h : d < 10) :
    digitVal (digitChar48 d) = d := by
  interval_cases d <;> decide

theorem isDigitChar_digitChar48 (d : Nat) (h : d < 10) :
    isDigitChar (digitChar48 d) = true := by
  interval_cases d <;> decide

theorem mem_natDigitChars_isDigitChar (n : Nat) :
    ∀ c ∈ natDigitChars n, isDigitChar c = true := by
  intro c hc
  simp only [natDigitChars, List.mem_map, List.mem_reverse] at hc
  obtain ⟨d, hd, rfl⟩ := hc
  exact isDigitChar_digitChar48 d (Nat.digits_lt_base (by norm_num) hd)

theorem natFromChars_append (cs ds : List Char) :
    natFromChars (cs ++ ds) =
      ds.foldl (fun a c => a * 10 + digitVal c) (natFromChars cs) := by
  simp [natFromChars, List.foldl_append]

theorem natFromChars_concat (cs : List Char) (c : Char) :
    natFromChars (cs ++ [c]) = natFromChars cs * 10 + digitVal c := by
  simp [natFromChars_append, natFromChars]

theorem natFromChars_append_zeros (cs : List Char) (k : Nat) :
    natFromChars (cs ++ List.replicate k '0') = natFromChars cs * 10 ^ k := by
  induction k with
  | zero => simp
  | succ k ih =>
    have : List.replicate (k + 1) '0' = List.replicate k '0' ++ ['0'] := by
      simp [List.replicate_succ']
    rw [this, ← List.append_assoc, natFromChars_concat, ih]
    simp [digitVal, pow_succ]
    ring

theorem natFromChars_zeros_prepend (k : Nat) (cs : List Char) :
    natFromChars (List.replicate k '0' ++ cs) = natFromChars cs := by
  induction k with
  | zero => simp
  | succ k ih =>
    simp only [List.replicate_succ, List.cons_append]
    show natFromChars (List.replicate k '0' ++ cs) = natFromChars cs
    exact ih

theorem natFromChars_map_digitChar48 (l : List Nat) (h : ∀ d ∈ l, d < 10) :
    natFromChars ((l.map digitChar48).reverse) = Nat.ofDigits 10 l := by
  induction l with
  | nil => simp [natFromChars, Nat.ofDigits]
  | cons d l ih =>
    simp only [List.map_cons, List.reverse_cons]
    rw [natFromChars_concat, ih (fun x hx => h x (List.mem_cons_of_mem _ hx)),
      digitVal_digitChar48 d (h d (List.mem_cons_self _ _)), Nat.ofDigits_cons]
    ring

theorem natFromChars_natDigitChars (n : Nat) :
    natFromChars (natDigitChars n) = n := by
  have h := natFromChars_map_digitChar48 (Nat.digits 10 n)
    (fun d hd => Nat.digits_lt_base (by norm_num) hd)
  rw [Nat.ofDigits_digits] at h
  simpa [natDigitChars] using h

theorem natDigitChars_ne_nil (n : Nat) (hn : n ≠ 0) : natDigitChars n ≠ [] := by
  simp [natDigitChars, Nat.digits_ne_nil_iff_ne_zero, hn]

theorem takeWhile_append_all {p : Char → Bool} {l₁ : List Char}
    (l₂ : List Char) (h : ∀ c ∈ l₁, p c = true) :
    (l₁ ++ l₂).takeWhile p = l₁ ++ l₂.takeWhile p := by
  induction l₁ with
  | nil => simp
  | cons c l ih =>
    simp only [List.cons_append, List.takeWhile_cons,
      h c (List.mem_cons_self _ _)]
    rw [ih (fun x hx => h x (List.mem_cons_of_mem _ hx))]
    simp

theorem takeWhile_all {p : Char → Bool} {l : List Char}
    (h : ∀ c ∈ l, p c = true) : l.takeWhile p = l := by
  have := @takeWhile_append_all p l [] h
  simpa using this

theorem dropWhile_all_not {p : Char → Bool} {l : List Char}
    (h : ∀ c ∈ l, p c = false) : l.dropWhile p = l := by
  cases l with
  | nil => rfl
  | cons c l => simp [List.dropWhile_cons, h c (List.mem_cons_self _ _)]

theorem jsTrimChars_no_space {l : List Char}
    (h : ∀ c ∈ l, isJsSpace c = false) : jsTrimChars l = l := by
  unfold jsTrimChars
  rw [dropWhile_all_not h, dropWhile_all_not (by simpa using fun c hc => h c hc),
    List.reverse_reverse]

/-! ## Lemmas: mantissa normalization -/

theorem stripTensN_not_dvd (fuel n : Nat) (e : Int) (h : n % 10 ≠ 0) :
    stripTensN fuel n e = (n, e) := by
  cases fuel <;> simp [stripTensN, h]

theorem stripTensN_pow (k : Nat) {n : Nat} (e : Int) (hn : n ≠ 0)
    (h : n % 10 ≠ 0) :
    ∀ fuel, n * 10 ^ k ≤ fuel → stripTensN fuel (n * 10 ^ k) e = (n, e + k) := by
  induction k generalizing e with
  | zero =>
    intro fuel _
    simpa using stripTensN_not_dvd fuel n e h
  | succ k ih =>
    intro fuel hfuel
    have hpos : 0 < n * 10 ^ (k + 1) := by positivity
    obtain ⟨f, rfl⟩ : ∃ f, fuel = f + 1 := by
      cases fuel with
      | zero => omega
      | succ f => exact ⟨f, rfl⟩
    have hmod : n * 10 ^ (k + 1) % 10 = 0 := by
      have : n * 10 ^ (k + 1) = n * 10 ^ k * 10 := by ring
      omega
    have hdiv : n * 10 ^ (k + 1) / 10 = n * 10 ^ k := by
      have : n * 10 ^ (k + 1) = n * 10 ^ k * 10 := by ring
      omega
    have hle : n * 10 ^ k ≤ f := by
      have h1 : 1 ≤ n * 10 ^ k := Nat.one_le_iff_ne_zero.mpr (by positivity)
      have : n * 10 ^ k * 10 ≤ f + 1 := by
        calc n * 10 ^ k * 10 = n * 10 ^ (k + 1) := by ring
        _ ≤ f + 1 := hfuel
      omega
    rw [stripTensN, if_pos hmod, hdiv, ih (e + 1) f hle]
    congr 1
    push_cast
    ring

theorem stripTensN_post : ∀ (fuel n : Nat) (e : Int), n ≠ 0 → n ≤ fuel →
    (stripTensN fuel n e).1 ≠ 0 ∧ (stripTensN fuel n e).1 % 10 ≠ 0 := by
  intro fuel
  induction fuel with
  | zero => intro n e hn h; omega
  | succ f ih =>
    intro n e hn h
    by_cases hmod : n % 10 = 0
    · rw [stripTensN, if_pos hmod]
      have hdvd := Nat.dvd_of_mod_eq_zero hmod
      have h10 : 10 * (n / 10) = n := Nat.mul_div_cancel' hdvd
      exact ih (n / 10) (e + 1) (by omega) (by omega)
    · rw [stripTensN, if_neg hmod]
      exact ⟨hn, hmod⟩

theorem int_dvd_ten_iff (m : Int) : (10 : Int) ∣ m ↔ 10 ∣ m.natAbs := by
  constructor
  · intro h
    have := Int.natAbs_dvd_natAbs.mpr h
    simpa using this
  · intro h
    have : (10 : Int) ∣ (m.natAbs : Int) := by exact_mod_cast h
    rcases Int.natAbs_eq m with he | he
    · rwa [← he] at this
    · rw [he]
      exact Dvd.dvd.neg_right this

theorem normFin_normalized (m e : Int) : Normalized (normFin m e) := by
  unfold normFin
  by_cases hm : m = 0
  · simp [hm, Normalized]
  · simp only [hm, if_false]
    have habs : m.natAbs ≠ 0 := by
      simpa using hm
    obtain ⟨h1, h2⟩ := stripTensN_post m.natAbs m.natAbs e habs le_rfl
    constructor
    · intro hzero
      exfalso
      by_cases hneg : m < 0 <;> simp [hneg] at hzero <;> omega
    · intro _
      rw [int_dvd_ten_iff]
      by_cases hneg : m < 0 <;> simp [hneg] <;> omega

theorem normFin_not_dvd {m : Int} (e : Int) (hm : m ≠ 0)
    (h : ¬ (10 : Int) ∣ m) : normFin m e = .finite m e := by
  unfold normFin
  rw [if_neg hm]
  have habs : m.natAbs % 10 ≠ 0 := by
    intro hc
    exact h ((int_dvd_ten_iff m).mpr (Nat.dvd_of_mod_eq_zero hc))
  rw [stripTensN_not_dvd _ _ _ habs]
  by_cases hneg : m < 0
  · simp only [hneg, if_true]
    congr 1
    omega
  · simp only [hneg, if_false]
    congr 1
    omega

theorem normFin_mul_pow {m : Int} (k : Nat) (e : Int) (hm : m ≠ 0)
    (h : ¬ (10 : Int) ∣ m) : normFin (m * 10 ^ k) e = .finite m (e + k) := by
  unfold normFin
  have hmk : m * 10 ^ k ≠ 0 := by positivity
  rw [if_neg hmk]
  have habs : (m * 10 ^ k).natAbs = m.natAbs * 10 ^ k := by
    simp [Int.natAbs_mul, Int.natAbs_pow]
  have hmod : m.natAbs % 10 ≠ 0 := by
    intro hc
    exact h ((int_dvd_ten_iff m).mpr (Nat.dvd_of_mod_eq_zero hc))
  have habs0 : m.natAbs ≠ 0 := by simpa using hm
  rw [habs, stripTensN_pow k e habs0 hmod _ le_rfl]
  have hsign : m * 10 ^ k < 0 ↔ m < 0 := by
    constructor
    · intro hlt
      by_contra hge
      push_neg at hge
      have : 0 ≤ m * 10 ^ k := by positivity
      omega
    · intro hlt
      have hp : (0 : Int) < 10 ^ k := by positivity
      exact mul_neg_of_neg_of_pos hlt hp
  by_cases hneg : m < 0
  · simp only [hsign, hneg, if_true]
    congr 1
    omega
  · simp only [hsign, hneg, if_false]
    congr 1
    omega

theorem normalized_zero : Normalized (.finite 0 0) :=
  ⟨fun _ => rfl, fun hc => absurd rfl hc⟩

theorem parseRadix_normalized {b : Nat} {valid : Char → Bool} {val : Char → Nat}
    {ds : List Char} {v : JSNum} (h : parseRadix b valid val ds = some v) :
    Normalized v := by
  unfold parseRadix at h
  split at h
  · cases h
    exact normFin_normalized _ _
  · cases h

theorem mkFin_normalized (neg : Bool) (mant : Nat) (e : Int) :
    Normalized (mkFin neg mant e) := by
  unfold mkFin
  exact normFin_normalized _ _

theorem parseSigned_normalized {neg : Bool} {body : List Char} {v : JSNum}
    (h : parseSigned neg body = some v) : Normalized v := by
  unfold parseSigned at h
  split at h
  · cases h
    split <;> trivial
  · match hp : parseDec body with
    | some (m, e) =>
      rw [hp] at h
      cases h
      exact mkFin_normalized _ _ _
    | none =>
      rw [hp] at h
      cases h

theorem jsStrToNumber_normalized : ∀ {s : String} {v : JSNum},
    jsStrToNumber s = some v → Normalized v := by
  intro s v h
  unfold jsStrToNumber at h
  split at h
  · cases h
    exact normalized_zero
  · split_ifs at h
    · exact parseRadix_normalized h
    · exact parseRadix_normalized h
    · exact parseRadix_normalized h
    · exact parseSigned_normalized h
  · exact parseSigned_normalized h
  · exact parseSigned_normalized h
  · exact parseSigned_normalized h

theorem digitChar48_ne_zero {d : Nat} (h0 : d ≠ 0) (h : d < 10) :
    digitChar48 d ≠ '0' := by
  interval_cases d <;> simp_all <;> decide

theorem natDigitChars_head_digit {n : Nat} (hn : n ≠ 0) :
    ∃ d ds, natDigitChars n = d :: ds ∧ isDigitChar d = true ∧ d ≠ '0' := by
  match hd : (Nat.digits 10 n).reverse with
  | [] =>
    exfalso
    have := natDigitChars_ne_nil n hn
    unfold natDigitChars at this
    rw [hd] at this
    exact this rfl
  | x :: xs =>
    have hx : x ∈ Nat.digits 10 n := by
      have : x ∈ (Nat.digits 10 n).reverse := by rw [hd]; exact List.mem_cons_self _ _
      simpa using this
    have hx10 := Nat.digits_lt_base (by norm_num) hx
    have hl : Nat.digits 10 n = xs.reverse ++ [x] := by
      rw [← List.reverse_reverse (Nat.digits 10 n), hd]
      simp
    have hx0 : x ≠ 0 := by
      have := Nat.getLast_digit_ne_zero 10 hn
      rw [List.getLast_congr _ _ hl, List.getLast_append_singleton] at this
      exact this
    refine ⟨digitChar48 x, xs.map digitChar48, ?_, isDigitChar_digitChar48 x hx10,
      digitChar48_ne_zero hx0 hx10⟩
    unfold natDigitChars
    rw [hd]
    rfl

theorem finReprChars_mem {n : Nat} {e : Int} :
    ∀ c ∈ finReprChars n e, isDigitChar c = true ∨ c = '.' := by
  intro c hc
  unfold finReprChars at hc
  split at hc
  · rcases List.mem_append.mp hc with h | h
    · exact Or.inl (mem_natDigitChars_isDigitChar n c h)
    · left
      have := List.eq_of_mem_replicate h
      subst this
      decide
  · split at hc
    · rcases List.mem_append.mp hc with h | h
      · exact Or.inl (mem_natDigitChars_isDigitChar n c (List.take_subset _ _ h))
      · rcases List.mem_cons.mp h with rfl | h
        · exact Or.inr rfl
        · exact Or.inl (mem_natDigitChars_isDigitChar n c (List.drop_subset _ _ h))
    · rcases List.mem_cons.mp hc with rfl | h
      · left; decide
      · rcases List.mem_cons.mp h with rfl | h
        · exact Or.inr rfl
        · rcases List.mem_append.mp h with h | h
          · left
            have := List.eq_of_mem_replicate h
            subst this
            decide
          · exact Or.inl (mem_natDigitChars_isDigitChar n c h)

theorem no_space_of_digit_dot {c : Char} (h : isDigitChar c = true ∨ c = '.') :
    isJsSpace c = false := by
  rcases h with h | rfl
  · simp only [isDigitChar, Bool.and_eq_true, decide_eq_true_eq] at h
    simp only [isJsSpace, Bool.or_eq_false_iff, decide_eq_false_iff_not]
    obtain ⟨h1, h2⟩ := h
    refine ⟨⟨⟨⟨⟨?_, ?_⟩, ?_⟩, ?_⟩, ?_⟩, ?_⟩ <;>
      rintro rfl <;> revert h1 h2 <;> decide
  · decide

/-! ## Lemmas: the number round trip -/

theorem parseDec_all_digits {cs : List Char} (hne : cs ≠ [])
    (h : ∀ c ∈ cs, isDigitChar c = true) :
    parseDec cs = some (natFromChars cs, 0) := by
  unfold parseDec
  simp only [takeWhile_all h, List.drop_length, hne]
  simp [hne]

theorem parseDec_frac (intDs fracDs : List Char)
    (hint : ∀ c ∈ intDs, isDigitChar c = true)
    (hfrac : ∀ c ∈ fracDs, isDigitChar c = true)
    (hne : intDs ≠ []) :
    parseDec (intDs ++ '.' :: fracDs) =
      some (natFromChars (intDs ++ fracDs), -(fracDs.length : Int)) := by
  unfold parseDec
  have ht : (intDs ++ '.' :: fracDs).takeWhile isDigitChar = intDs := by
    rw [takeWhile_append_all _ hint]
    simp [List.takeWhile_cons]
    decide
  have hd : (intDs ++ '.' :: fracDs).drop intDs.length = '.' :: fracDs := by
    have := List.drop_left intDs ('.' :: fracDs)
    simp [this]
  simp only [ht, hd, takeWhile_all hfrac, List.drop_length, parseExp, hne]
  simp [hne]

theorem finReprChars_head {n : Nat} (e : Int) (hn : n ≠ 0) :
    ∃ d rest, finReprChars n e = d :: rest ∧ isDigitChar d = true := by
  obtain ⟨d, ds, hds, hd, _⟩ := natDigitChars_head_digit hn
  unfold finReprChars
  split
  · exact ⟨d, ds ++ List.replicate e.toNat '0', by rw [hds]; rfl, hd⟩
  · split
    · rename_i hlt
      obtain ⟨j, hj⟩ : ∃ j, (natDigitChars n).length - (-e).toNat = j + 1 := by
        refine ⟨(natDigitChars n).length - (-e).toNat - 1, ?_⟩
        omega
      rw [hj, hds, List.take_succ_cons]
      exact ⟨d, _, rfl, hd⟩
    · exact ⟨'0', _, rfl, by decide⟩

theorem finReprChars_ne_infinity {n : Nat} (e : Int) (hn : n ≠ 0) :
    finReprChars n e ≠ "Infinity".data := by
  obtain ⟨d, rest, heq, hd⟩ := finReprChars_head e hn
  rw [heq]
  intro hc
  have : d = 'I' := by
    have := List.head_eq_of_cons_eq hc
    exact this
  subst this
  exact absurd hd (by decide)

theorem parseSigned_not_infinity {neg : Bool} {body : List Char}
    (h : body ≠ "Infinity".data) :
    parseSigned neg body = (parseDec body).map (fun p => mkFin neg p.1 p.2) := by
  unfold parseSigned
  rw [if_neg h]

theorem jsStrToNumber_chars_nz {d : Char} {rest : List Char}
    (hspace : ∀ c ∈ d :: rest, isJsSpace c = false)
    (hd : isDigitChar d = true) (hd0 : d ≠ '0') :
    jsStrToNumber ⟨d :: rest⟩ = parseSigned false (d :: rest) := by
  unfold jsStrToNumber
  rw [show (String.mk (d :: rest)).data = d :: rest from rfl,
    jsTrimChars_no_space hspace]
  split
  · rename_i heq
    exact absurd heq (by simp)
  · rename_i c r heq
    exfalso
    have : d = '0' := List.head_eq_of_cons_eq heq
    exact hd0 this
  · rename_i heq
    exfalso
    have : d = '+' := List.head_eq_of_cons_eq heq
    subst this
    exact absurd hd (by decide)
  · rename_i heq
    exfalso
    have : d = '-' := List.head_eq_of_cons_eq heq
    subst this
    exact absurd hd (by decide)
  · rfl

theorem jsStrToNumber_chars_zdot {xs : List Char}
    (hspace : ∀ c ∈ '0' :: '.' :: xs, isJsSpace c = false) :
    jsStrToNumber ⟨'0' :: '.' :: xs⟩ = parseSigned false ('0' :: '.' :: xs) := by
  unfold jsStrToNumber
  rw [show (String.mk ('0' :: '.' :: xs)).data = '0' :: '.' :: xs from rfl,
    jsTrimChars_no_space hspace]
  rfl

theorem jsStrToNumber_chars_neg {cs : List Char}
    (hspace : ∀ c ∈ '-' :: cs, isJsSpace c = false) :
    jsStrToNumber ⟨'-' :: cs⟩ = parseSigned true cs := by
  unfold jsStrToNumber
  rw [show (String.mk ('-' :: cs)).data = '-' :: cs from rfl,
    jsTrimChars_no_space hspace]
  rfl

theorem parseDec_finRepr_nonneg {n : Nat} (hn : n ≠ 0) (k : Nat) :
    parseDec (natDigitChars n ++ List.replicate k '0') = some (n * 10 ^ k, 0) := by
  have hall : ∀ c ∈ natDigitChars n ++ List.replicate k '0', isDigitChar c = true := by
    intro c hc
    rcases List.mem_append.mp hc with h | h
    · exact mem_natDigitChars_isDigitChar n c h
    · have := List.eq_of_mem_replicate h
      subst this
      decide
  have hne : natDigitChars n ++ List.replicate k '0' ≠ [] := by
    simp [natDigitChars_ne_nil n hn]
  rw [parseDec_all_digits hne hall, natFromChars_append_zeros, natFromChars_natDigitChars]

theorem parseDec_finRepr_negB {n : Nat} (hn : n ≠ 0) {k : Nat}
    (hk : k < (natDigitChars n).length) :
    parseDec ((natDigitChars n).take ((natDigitChars n).length - k) ++
      '.' :: (natDigitChars n).drop ((natDigitChars n).length - k)) =
      some (n, -(k : Int)) := by
  have htake : ∀ c ∈ (natDigitChars n).take ((natDigitChars n).length - k),
      isDigitChar c = true :=
    fun c hc => mem_natDigitChars_isDigitChar n c (List.take_subset _ _ hc)
  have hdrop : ∀ c ∈ (natDigitChars n).drop ((natDigitChars n).length - k),
      isDigitChar c = true :=
    fun c hc => mem_natDigitChars_isDigitChar n c (List.drop_subset _ _ hc)
  have hne : (natDigitChars n).take ((natDigitChars n).length - k) ≠ [] := by
    have h1 : (natDigitChars n).length - k ≠ 0 := by omega
    intro hc
    rcases List.take_eq_nil_iff.mp hc with h | h
    · exact h1 h
    · exact natDigitChars_ne_nil n hn h
  rw [parseDec_frac _ _ htake hdrop hne, List.take_append_drop,
    natFromChars_natDigitChars]
  have : ((natDigitChars n).drop ((natDigitChars n).length - k)).length = k := by
    rw [List.length_drop]
    omega
  rw [this]

theorem parseDec_finRepr_negC {n : Nat} (hn : n ≠ 0) {k : Nat}
    (hk : (natDigitChars n).length ≤ k) :
    parseDec ('0' :: '.' ::
        (List.replicate (k - (natDigitChars n).length) '0' ++ natDigitChars n)) =
      some (n, -(k : Int)) := by
  have hfrac : ∀ c ∈ List.replicate (k - (natDigitChars n).length) '0' ++ natDigitChars n,
      isDigitChar c = true := by
    intro c hc
    rcases List.mem_append.mp hc with h | h
    · have := List.eq_of_mem_replicate h
      subst this
      decide
    · exact mem_natDigitChars_isDigitChar n c h
  have h0 : ∀ c ∈ ['0'], isDigitChar c = true := by
    intro c hc
    rcases List.mem_singleton.mp hc with rfl
    decide
  have := parseDec_frac ['0']
    (List.replicate (k - (natDigitChars n).length) '0' ++ natDigitChars n)
    h0 hfrac (by simp)
  simp only [List.singleton_append] at this
  rw [this]
  have hm : natFromChars ('0' :: (List.replicate (k - (natDigitChars n).length) '0' ++
      natDigitChars n)) = n := by
    have : ('0' :: (List.replicate (k - (natDigitChars n).length) '0' ++ natDigitChars n)) =
        List.replicate (k - (natDigitChars n).length + 1) '0' ++ natDigitChars n := by
      simp [List.replicate_succ]
    rw [this, natFromChars_zeros_prepend, natFromChars_natDigitChars]
  rw [hm]
  congr 1
  have : (List.replicate (k - (natDigitChars n).length) '0' ++ natDigitChars n).length = k := by
    simp
    omega
  rw [this]

theorem jsStrToNumber_finRepr {n : Nat} (e : Int) (hn : n ≠ 0) :
    jsStrToNumber ⟨finReprChars n e⟩ = parseSigned false (finReprChars n e) := by
  have hspace : ∀ c ∈ finReprChars n e, isJsSpace c = false :=
    fun c hc => no_space_of_digit_dot (finReprChars_mem c hc)
  by_cases he : 0 ≤ e
  · obtain ⟨d, ds, hds, hd, hd0⟩ := natDigitChars_head_digit hn
    have hshape : finReprChars n e = d :: (ds ++ List.replicate e.toNat '0') := by
      unfold finReprChars
      rw [if_pos he, hds]
      rfl
    rw [hshape] at hspace ⊢
    exact jsStrToNumber_chars_nz hspace hd hd0
  · by_cases hlt : (-e).toNat < (natDigitChars n).length
    · obtain ⟨d, ds, hds, hd, hd0⟩ := natDigitChars_head_digit hn
      obtain ⟨j, hj⟩ : ∃ j, (natDigitChars n).length - (-e).toNat = j + 1 :=
        ⟨(natDigitChars n).length - (-e).toNat - 1, by omega⟩
      have hshape : finReprChars n e =
          d :: (ds.take j ++ '.' :: (natDigitChars n).drop (j + 1)) := by
        unfold finReprChars
        rw [if_neg he, if_pos hlt, hj, hds, List.take_succ_cons]
        rfl
      rw [hshape] at hspace ⊢
      exact jsStrToNumber_chars_nz hspace hd hd0
    · have hshape : finReprChars n e = '0' :: '.' ::
          (List.replicate ((-e).toNat - (natDigitChars n).length) '0' ++ natDigitChars n) := by
        unfold finReprChars
        rw [if_neg he, if_neg hlt]
      rw [hshape] at hspace ⊢
      exact jsStrToNumber_chars_zdot hspace

theorem parseDec_finRepr {n : Nat} (e : Int) (hn : n ≠ 0) :
    parseDec (finReprChars n e) =
      some (if 0 ≤ e then (n * 10 ^ e.toNat, 0) else (n, e)) := by
  by_cases he : 0 ≤ e
  · rw [if_pos he]
    unfold finReprChars
    rw [if_pos he]
    exact parseDec_finRepr_nonneg hn _
  · rw [if_neg he]
    unfold finReprChars
    rw [if_neg he]
    by_cases hlt : (-e).toNat < (natDigitChars n).length
    · rw [if_pos hlt, parseDec_finRepr_negB hn hlt]
      congr 1
      congr 1
      omega
    · rw [if_neg hlt, parseDec_finRepr_negC hn (by omega)]
      congr 1
      congr 1
      omega

theorem jsStrToNumber_repr {v : JSNum} (h : Normalized v) :
    jsStrToNumber (jsNumRepr v) = some v := by
  cases v with
  | inf => decide
  | negInf => decide
  | finite m e =>
    by_cases hm : m = 0
    · subst hm
      have he : e = 0 := h.1 rfl
      subst he
      decide
    · have hnd : ¬ (10 : Int) ∣ m := h.2 hm
      have hn : m.natAbs ≠ 0 := by simpa using hm
      simp only [jsNumRepr]
      rw [if_neg hm]
      by_cases hneg : m < 0
      · have hsp : ∀ c ∈ '-' :: finReprChars m.natAbs e, isJsSpace c = false := by
          intro c hc
          rcases List.mem_cons.mp hc with rfl | hc2
          · decide
          · exact no_space_of_digit_dot (finReprChars_mem c hc2)
        rw [if_pos hneg, jsStrToNumber_chars_neg hsp,
          parseSigned_not_infinity (finReprChars_ne_infinity e hn),
          parseDec_finRepr e hn]
        by_cases he : 0 ≤ e
        · rw [if_pos he]
          simp only [Option.map_some']
          unfold mkFin
          rw [if_pos rfl]
          have hcast : -((m.natAbs * 10 ^ e.toNat : Nat) : Int) = m * 10 ^ e.toNat := by
            push_cast
            rw [abs_of_neg hneg]
            ring
          rw [hcast, normFin_mul_pow e.toNat 0 hm hnd]
          congr 2
          omega
        · rw [if_neg he]
          simp only [Option.map_some']
          unfold mkFin
          rw [if_pos rfl]
          have hcast : -((m.natAbs : Nat) : Int) = m := by omega
          rw [hcast, normFin_not_dvd e hm hnd]
      · rw [if_neg hneg, jsStrToNumber_finRepr e hn,
          parseSigned_not_infinity (finReprChars_ne_infinity e hn),
          parseDec_finRepr e hn]
        by_cases he : 0 ≤ e
        · rw [if_pos he]
          simp only [Option.map_some']
          unfold mkFin
          rw [if_neg (by decide)]
          have hcast : ((m.natAbs * 10 ^ e.toNat : Nat) : Int) = m * 10 ^ e.toNat := by
            push_cast
            rw [abs_of_nonneg (by omega)]
          rw [hcast, normFin_mul_pow e.toNat 0 hm hnd]
          congr 2
          omega
        · rw [if_neg he]
          simp only [Option.map_some']
          unfold mkFin
          rw [if_neg (by decide)]
          have hcast : ((m.natAbs : Nat) : Int) = m := by omega
          rw [hcast, normFin_not_dvd e hm hnd]

/-! ## Lemmas: caster idempotence -/

theorem dropWhile_dropWhile (p : Char → Bool) (l : List Char) :
    (l.dropWhile p).dropWhile p = l.dropWhile p := by
  induction l with
  | nil => rfl
  | cons c l ih =>
    by_cases h : p c = true
    · simp [List.dropWhile_cons, h, ih]
    · simp [List.dropWhile_cons, h]

theorem stripTrailingCRLF_idem (s : String) :
    stripTrailingCRLF (stripTrailingCRLF s) = stripTrailingCRLF s := by
  unfold stripTrailingCRLF
  simp [dropWhile_dropWhile]

theorem tame_of_digit_dot {c : Char} (h : isDigitChar c = true ∨ c = '.') :
    ((c = '\r' || c = '\n') = false) ∧ isJsSpace c = false := by
  refine ⟨?_, no_space_of_digit_dot h⟩
  rcases h with h | rfl
  · simp only [Bool.or_eq_false_iff, decide_eq_false_iff_not]
    constructor <;> rintro rfl <;> exact absurd h (by decide)
  · decide

theorem repr_char_tame (n : JSNum) :
    ∀ c ∈ (jsNumRepr n).data,
      ((c = '\r' || c = '\n') = false) ∧ isJsSpace c = false := by
  cases n with
  | inf => decide
  | negInf => decide
  | finite m e =>
    by_cases hm : m = 0
    · subst hm
      have h0 : jsNumRepr (.finite 0 e) = "0" := by simp [jsNumRepr]
      rw [h0]
      decide
    · simp only [jsNumRepr, if_neg hm]
      by_cases hneg : m < 0
      · rw [if_pos hneg]
        intro c hc
        rcases List.mem_cons.mp hc with rfl | hc2
        · decide
        · exact tame_of_digit_dot (finReprChars_mem c hc2)
      · rw [if_neg hneg]
        intro c hc
        exact tame_of_digit_dot (finReprChars_mem c hc)

theorem strip_jsNumRepr (n : JSNum) :
    stripTrailingCRLF (jsNumRepr n) = jsNumRepr n := by
  unfold stripTrailingCRLF
  rw [dropWhile_all_not, List.reverse_reverse]
  intro c hc
  exact (repr_char_tame n c (by simpa using hc)).1

theorem jsNumRepr_data_ne_nil (n : JSNum) : (jsNumRepr n).data ≠ [] := by
  cases n with
  | inf => decide
  | negInf => decide
  | finite m e =>
    by_cases hm : m = 0
    · subst hm
      have h0 : jsNumRepr (.finite 0 e) = "0" := by simp [jsNumRepr]
      rw [h0]
      decide
    · have hn : m.natAbs ≠ 0 := by simpa using hm
      obtain ⟨d, rest, heq, _⟩ := finReprChars_head e hn
      simp only [jsNumRepr, if_neg hm]
      by_cases hneg : m < 0
      · rw [if_pos hneg]
        simp
      · rw [if_neg hneg]
        show finReprChars m.natAbs e ≠ []
        rw [heq]
        simp

theorem jsTrim_jsNumRepr_ne (n : JSNum) : jsTrim (jsNumRepr n) ≠ "" := by
  unfold jsTrim
  rw [jsTrimChars_no_space (fun c hc => (repr_char_tame n c hc).2)]
  intro hc
  exact jsNumRepr_data_ne_nil n (congrArg String.data hc)

theorem dropWhile_map (q : Char → Bool) (f : Char → Char)
    (hf : ∀ c, q (f c) = true → q c = true) (l : List Char) :
    ((l.dropWhile q).map f).dropWhile q = (l.dropWhile q).map f := by
  induction l with
  | nil => rfl
  | cons c l ih =>
    by_cases h : q c = true
    · simp only [List.dropWhile_cons, h, if_true]
      exact ih
    · simp only [List.dropWhile_cons, h, if_false, List.map_cons]
      have hfc : q (f c) = false := by
        cases hq : q (f c)
        · rfl
        · exact absurd (hf c hq) (by simp [h])
      simp [List.dropWhile_cons, hfc]

theorem strip_data_eq {t : String} (ht : stripTrailingCRLF t = t) :
    t.data.reverse.dropWhile (fun c => c = '\r' || c = '\n') = t.data.reverse := by
  have h1 := congrArg String.data ht
  unfold stripTrailingCRLF at h1
  simp only at h1
  have h2 := congrArg List.reverse h1
  simpa using h2

theorem plusToSpace_strip (t : String) (ht : stripTrailingCRLF t = t) :
    stripTrailingCRLF (plusToSpace t) = plusToSpace t := by
  have hf : ∀ c, ((fun c => c = '\r' || c = '\n') ((fun c => if c = '+' then ' ' else c) c)) = true →
      ((fun c => c = '\r' || c = '\n') c) = true := by
    intro c h
    by_cases hc : c = '+'
    · subst hc
      simp at h
    · simpa [hc] using h
  unfold stripTrailingCRLF plusToSpace
  simp only
  have key : ((t.data.map fun c => if c = '+' then ' ' else c).reverse.dropWhile
      fun c => c = '\r' || c = '\n') =
      (t.data.map fun c => if c = '+' then ' ' else c).reverse := by
    rw [← List.map_reverse, ← strip_data_eq ht,
      dropWhile_map _ _ hf, strip_data_eq ht]
  rw [key, List.reverse_reverse]

theorem plusToSpace_idem (t : String) :
    plusToSpace (plusToSpace t) = plusToSpace t := by
  unfold plusToSpace
  simp only [List.map_map]
  congr 1
  refine List.map_congr_left ?_
  intro c _
  show (if (if c = '+' then ' ' else c) = '+' then ' ' else (if c = '+' then ' ' else c)) =
    (if c = '+' then ' ' else c)
  by_cases hc : c = '+' <;> simp [hc]

theorem plusToSpaceL_eq_target : ∀ (l tgt : List Char), (∀ d ∈ tgt, d ≠ ' ') →
    l.map (fun c => if c = '+' then ' ' else c) = tgt → l = tgt := by
  intro l
  induction l with
  | nil =>
    intro tgt _ h
    exact h
  | cons c l ih =>
    intro tgt htgt h
    cases tgt with
    | nil => simp at h
    | cons d ds =>
      simp only [List.map_cons, List.cons.injEq] at h
      obtain ⟨h1, h2⟩ := h
      have hc : c = d := by
        by_cases hp : c = '+'
        · subst hp
          rw [if_pos rfl] at h1
          exact absurd h1.symm (htgt d (List.mem_cons_self _ _))
        · rwa [if_neg hp] at h1
      subst hc
      rw [ih ds (fun x hx => htgt x (List.mem_cons_of_mem _ hx)) h2]

theorem plusToSpace_eq_target {t target : String}
    (htgt : ∀ d ∈ target.data, d ≠ ' ') (h : plusToSpace t = target) :
    t = target := by
  have hdata := congrArg String.data h
  unfold plusToSpace at hdata
  simp only at hdata
  have hres := plusToSpaceL_eq_target t.data target.data htgt hdata
  cases t
  cases target
  exact congrArg String.mk hres

theorem possibleCast_truelit (cfg : Config) (hb : cfg.castBooleans = true) :
    possibleCast "true" cfg = .bool true := by
  unfold possibleCast
  rw [show stripTrailingCRLF "true" = "true" from rfl,
    show jsTrim "true" = "true" from rfl,
    if_neg (by decide : ¬ ("true" : String) = ""),
    show jsStrToNumber "true" = none from rfl]
  simp [hb]

theorem possibleCast_falselit (cfg : Config) (hb : cfg.castBooleans = true) :
    possibleCast "false" cfg = .bool false := by
  unfold possibleCast
  rw [show stripTrailingCRLF "false" = "false" from rfl,
    show jsTrim "false" = "false" from rfl,
    if_neg (by decide : ¬ ("false" : String) = ""),
    show jsStrToNumber "false" = none from rfl]
  simp [hb]

theorem possibleCast_num (cfg : Config) (n : JSNum) (hnorm : Normalized n)
    (hc : cfg.castNumbers = true) :
    possibleCast (jsNumRepr n) cfg = .num n := by
  unfold possibleCast
  rw [strip_jsNumRepr, if_neg (jsTrim_jsNumRepr_ne n), jsStrToNumber_repr hnorm, hc]


theorem possibleCast_stripped (s : String) (cfg : Config) :
    possibleCast s cfg = possibleCast (stripTrailingCRLF s) cfg := by
  unfold possibleCast
  rw [stripTrailingCRLF_idem]

theorem possibleCast_tailEq (u : String) (cfg : Config)
    (hu : stripTrailingCRLF u = u) (h1 : ¬ jsTrim u = "")
    (h2 : cfg.castNumbers = false ∨ jsStrToNumber u = none) :
    possibleCast u cfg = possibleCastSpecTail u cfg := by
  unfold possibleCast possibleCastSpecTail
  rw [hu, if_neg h1]
  rcases h2 with hcn | hjs
  · rw [hcn]
    cases hjs2 : jsStrToNumber u <;> simp [Bool.and_comm]
  · rw [hjs]
    simp [Bool.and_comm]

theorem possibleCast_idem_stripped (t : String) (cfg : Config)
    (ht : stripTrailingCRLF t = t)
    (hflags : cfg.castNumbers = false ∨ cfg.convertPluses = false) :
    possibleCast (scalarRepr (possibleCast t cfg)) cfg = possibleCast t cfg := by
  by_cases h1 : jsTrim t = ""
  · have hres : possibleCast t cfg = .str t := by
      unfold possibleCast
      rw [ht, if_pos h1]
    rw [hres]
    exact hres
  · by_cases hnum : cfg.castNumbers = true ∧ (jsStrToNumber t).isSome
    · obtain ⟨hcn, hsome⟩ := hnum
      obtain ⟨n, hjs⟩ := Option.isSome_iff_exists.mp hsome
      have hres : possibleCast t cfg = .num n := by
        unfold possibleCast
        rw [ht, if_neg h1, hjs, hcn]
      rw [hres]
      exact possibleCast_num cfg n (jsStrToNumber_normalized hjs) hcn
    · have h2 : cfg.castNumbers = false ∨ jsStrToNumber t = none := by
        by_cases hcn : cfg.castNumbers = true
        · right
          rcases hjs : jsStrToNumber t with _ | n
          · rfl
          · exact absurd ⟨hcn, by simp [hjs]⟩ hnum
        · left
          simpa using hcn
      have hres0 := possibleCast_tailEq t cfg ht h1 h2
      by_cases hb1 : cfg.castBooleans = true ∧ t = "true"
      · obtain ⟨hcb, rfl⟩ := hb1
        have htail : possibleCastSpecTail "true" cfg = .bool true := by
          unfold possibleCastSpecTail
          simp [hcb]
        rw [hres0, htail]
        exact possibleCast_truelit cfg hcb
      · by_cases hb2 : cfg.castBooleans = true ∧ t = "false"
        · obtain ⟨hcb, rfl⟩ := hb2
          have htail : possibleCastSpecTail "false" cfg = .bool false := by
            unfold possibleCastSpecTail
            simp [hcb]
          rw [hres0, htail]
          exact possibleCast_falselit cfg hcb
        · have hc1 : (cfg.castBooleans && decide (t = "true")) = false := by
            cases hcb : cfg.castBooleans
            · simp
            · simp only [Bool.true_and, decide_eq_false_iff_not]
              intro hteq
              exact hb1 ⟨hcb, hteq⟩
          have hc2 : (cfg.castBooleans && decide (t = "false")) = false := by
            cases hcb : cfg.castBooleans
            · simp
            · simp only [Bool.true_and, decide_eq_false_iff_not]
              intro hteq
              exact hb2 ⟨hcb, hteq⟩
          by_cases hcp : cfg.convertPluses = true
          · have hcn : cfg.castNumbers = false := by
              rcases hflags with h | h
              · exact h
              · rw [h] at hcp
                exact absurd hcp (by simp)
            have htail : possibleCastSpecTail t cfg = .str (plusToSpace t) := by
              unfold possibleCastSpecTail
              rw [if_neg (by simp [hc1]), if_neg (by simp [hc2]), if_pos hcp]
            rw [hres0, htail]
            show possibleCast (plusToSpace t) cfg = .str (plusToSpace t)
            have hw : stripTrailingCRLF (plusToSpace t) = plusToSpace t :=
              plusToSpace_strip t ht
            by_cases hwtrim : jsTrim (plusToSpace t) = ""
            · unfold possibleCast
              rw [hw, if_pos hwtrim]
            · have hres1 := possibleCast_tailEq (plusToSpace t) cfg hw hwtrim (Or.inl hcn)
              rw [hres1]
              unfold possibleCastSpecTail
              have hw1 : (cfg.castBooleans && decide (plusToSpace t = "true")) = false := by
                cases hcb : cfg.castBooleans
                · simp
                · simp only [Bool.true_and, decide_eq_false_iff_not]
                  intro hteq
                  exact hb1 ⟨hcb, plusToSpace_eq_target (by decide) hteq⟩
              have hw2 : (cfg.castBooleans && decide (plusToSpace t = "false")) = false := by
                cases hcb : cfg.castBooleans
                · simp
                · simp only [Bool.true_and, decide_eq_false_iff_not]
                  intro hteq
                  exact hb2 ⟨hcb, plusToSpace_eq_target (by decide) hteq⟩
              rw [if_neg (by simp [hw1]), if_neg (by simp [hw2]), if_pos hcp,
                plusToSpace_idem]
          · have htail : possibleCastSpecTail t cfg = .str t := by
              unfold possibleCastSpecTail
              rw [if_neg (by simp [hc1]), if_neg (by simp [hc2]), if_neg hcp]
            rw [hres0, htail]
            show possibleCast t cfg = Scalar.str t
            rw [possibleCast_tailEq t cfg ht h1 h2, htail]

theorem possibleCast_idem (s : String) (cfg : Config)
    (hflags : cfg.castNumbers = false ∨ cfg.convertPluses = false) :
    possibleCast (scalarRepr (possibleCast s cfg)) cfg = possibleCast s cfg := by
  rw [possibleCast_stripped s cfg]
  exact possibleCast_idem_stripped (stripTrailingCRLF s) cfg (stripTrailingCRLF_idem s) hflags


/-! ## Lemmas: the nested-key assembler -/

theorem assocGet_assocSet (fs : List (String × JValue)) (k : String) (v : JValue) :
    assocGet (assocSet fs k v) k = some v := by
  induction fs with
  | nil => simp [assocSet, assocGet]
  | cons p rest ih =>
    by_cases h : p.1 = k
    · simp [assocSet, assocGet, h]
    · simp [assocSet, assocGet, h, ih]

theorem assocSet_assocSet (fs : List (String × JValue)) (k : String) (v w : JValue) :
    assocSet (assocSet fs k v) k w = assocSet fs k w := by
  induction fs with
  | nil => simp [assocSet]
  | cons p rest ih =>
    by_cases h : p.1 = k
    · simp [assocSet, h]
    · simp [assocSet, h, ih]

theorem listSet_nil (n : Nat) (v : JValue) :
    listSet [] n v = List.replicate n none ++ [some v] := by
  simp [listSet]

theorem setProp_obj (fs : List (String × JValue)) (k : String) (x : JValue)
    (hk : k ≠ "__proto__") :
    setProp (.obj fs) k x = .ok (.obj (assocSet fs k x)) := by
  unfold setProp
  rw [if_neg hk]
  rfl

theorem getProp_obj (fs : List (String × JValue)) (k : String)
    (hk : k ≠ "__proto__") :
    getProp (.obj fs) k = assocGet fs k := by
  unfold getProp
  rw [if_neg hk]

theorem assign_explicit_index_fresh (fs : List (String × JValue)) (seg key : String)
    (n : Nat) (v : JValue)
    (hseg : parseSegment seg = some (key, some (some n)))
    (hk : key ≠ "__proto__")
    (hfresh : isArrayV (getProp (.obj fs) key) = false) :
    assignNestedValue (.obj fs) [seg] v =
      .ok (.obj (assocSet fs key (.arr (List.replicate n none ++ [some v]) []))) := by
  unfold assignNestedValue assignGo
  rw [hseg]
  simp only [if_pos rfl, if_true, hfresh, Bool.false_eq_true, if_false,
    setProp_obj _ _ _ hk]
  simp only [Bind.bind, Except.bind, getProp_obj _ _ hk, assocGet_assocSet,
    Option.getD_some, setIdx, listSet_nil, setProp_obj _ _ _ hk, assocSet_assocSet]
  rfl

theorem set_append_len (l : List (Option JValue)) (x y : Option JValue) :
    (l ++ [x]).set l.length y = l ++ [y] := by
  induction l with
  | nil => rfl
  | cons a l ih => simp [List.set, ih]

theorem assign_auto_push (fs : List (String × JValue)) (seg key : String)
    (rest full : List String) (v : JValue) (es : List (Option JValue))
    (ps : List (String × JValue))
    (hseg : parseSegment seg = some (key, some none))
    (hk : key ≠ "__proto__")
    (harr : getProp (.obj fs) key = some (.arr es ps))
    (hrest : rest ≠ [])
    (hlast : lastIsObject (.arr es ps) = false) :
    assignGo (.obj fs) (seg :: rest) full v =
      (match assignGo (.obj []) rest full v with
       | .error e => .error e
       | .ok c => .ok (.obj (assocSet fs key (.arr (es ++ [some c]) ps)))) := by
  cases hrec : assignGo (.obj []) rest full v with
  | error e =>
    unfold assignGo
    rw [hseg]
    simp only [if_neg hrest, Bind.bind, Except.bind, pure, Except.pure, harr,
      isArrayV, if_true, Option.getD_some, hlast, Bool.false_eq_true, if_false,
      pushVal, lastElem, List.getLast?_concat, Option.join, Option.some_bind,
      id_eq, Option.getD_some, hrec]
  | ok c =>
    unfold assignGo
    rw [hseg]
    simp only [if_neg hrest, Bind.bind, Except.bind, pure, Except.pure, harr,
      isArrayV, if_true, Option.getD_some, hlast, Bool.false_eq_true, if_false,
      pushVal, lastElem, List.getLast?_concat, Option.join, Option.some_bind,
      id_eq, Option.getD_some, hrec]
    simp only [setLast, List.length_append, List.length_cons, List.length_nil]
    have hne : es.length + (0 + 1) ≠ 0 := by omega
    rw [if_neg hne]
    have hidx : es.length + (0 + 1) - 1 = es.length := by omega
    rw [hidx, set_append_len]
    simp only [setProp_obj _ _ _ hk]
    rfl

theorem assign_auto_reuse (fs : List (String × JValue)) (seg key : String)
    (rest full : List String) (v : JValue) (es : List (Option JValue))
    (ps : List (String × JValue)) (x : JValue)
    (hseg : parseSegment seg = some (key, some none))
    (hk : key ≠ "__proto__")
    (harr : getProp (.obj fs) key = some (.arr es ps))
    (hrest : rest ≠ [])
    (hlastEl : es.getLast? = some (some x))
    (hobj : typeofObject x = true) :
    assignGo (.obj fs) (seg :: rest) full v =
      (match assignGo x rest full v with
       | .error e => .error e
       | .ok c => .ok (.obj (assocSet fs key (.arr (es.set (es.length - 1) (some c)) ps)))) := by
  have hlast : lastIsObject (.arr es ps) = true := by
    simp [lastIsObject, hlastEl, hobj]
  have hesne : es ≠ [] := by
    intro hc
    rw [hc] at hlastEl
    simp at hlastEl
  cases hrec : assignGo x rest full v with
  | error e =>
    unfold assignGo
    rw [hseg]
    simp only [if_neg hrest, Bind.bind, Except.bind, pure, Except.pure, harr,
      isArrayV, if_true, Option.getD_some, hlast, lastElem, hlastEl, Option.join,
      Option.some_bind, id_eq, Option.getD_some, hrec]
  | ok c =>
    unfold assignGo
    rw [hseg]
    simp only [if_neg hrest, Bind.bind, Except.bind, pure, Except.pure, harr,
      isArrayV, if_true, Option.getD_some, hlast, lastElem, hlastEl, Option.join,
      Option.some_bind, id_eq, Option.getD_some, hrec]
    simp only [setLast]
    have hne : es.length ≠ 0 := by
      intro hc
      exact hesne (List.eq_nil_of_length_eq_zero hc)
    rw [if_neg hne]
    simp only [setProp_obj _ _ _ hk]
    rfl

theorem bind_ok_extract {α β : Type} {x : Except Err α} {f : α → Except Err β}
    {r : β} (h : x >>= f = .ok r) : ∃ a, x = .ok a ∧ f a = .ok r := by
  cases x with
  | error e => exact absurd h (by simp [Bind.bind, Except.bind])
  | ok a => exact ⟨a, rfl, by simpa [Bind.bind, Except.bind] using h⟩

theorem assign_sub_ok {cur : JValue} {seg : String} {rest full : List String}
    {v r : JValue} (hrest : rest ≠ [])
    (h : assignGo cur (seg :: rest) full v = .ok r) :
    ∃ child r', assignGo child rest full v = .ok r' := by
  unfold assignGo at h
  cases hps : parseSegment seg with
  | none =>
    rw [hps] at h
    cases h
  | some ki =>
    obtain ⟨key, idx⟩ := ki
    rw [hps] at h
    rcases idx with _ | iopt
    · simp only [if_neg hrest] at h
      cases ht : isTruthy (getProp cur key) <;>
        simp only [ht, Bool.false_eq_true, eq_self_iff_true, if_true, if_false,
          ite_true, ite_false] at h
      · obtain ⟨y, h1, h⟩ := bind_ok_extract h
        obtain ⟨c, hrec, h2⟩ := bind_ok_extract h
        exact ⟨_, _, hrec⟩
      · obtain ⟨y, h1, h⟩ := bind_ok_extract h
        obtain ⟨c, hrec, h2⟩ := bind_ok_extract h
        exact ⟨_, _, hrec⟩
    · rcases iopt with _ | n
      · simp only [if_neg hrest] at h
        cases ha : isArrayV (getProp cur key) <;>
          simp only [ha, Bool.false_eq_true, eq_self_iff_true, if_true, if_false,
            ite_true, ite_false] at h
        · obtain ⟨y, h1, h⟩ := bind_ok_extract h
          cases hl : lastIsObject ((getProp y key).getD (JValue.obj [])) <;>
            simp only [hl, Bool.false_eq_true, eq_self_iff_true, if_true, if_false,
              ite_true, ite_false] at h
          · obtain ⟨av, h2, h⟩ := bind_ok_extract h
            obtain ⟨c, hrec, h3⟩ := bind_ok_extract h
            exact ⟨_, _, hrec⟩
          · obtain ⟨av, h2, h⟩ := bind_ok_extract h
            obtain ⟨c, hrec, h3⟩ := bind_ok_extract h
            exact ⟨_, _, hrec⟩
        · obtain ⟨y, h1, h⟩ := bind_ok_extract h
          cases hl : lastIsObject ((getProp y key).getD (JValue.obj [])) <;>
            simp only [hl, Bool.false_eq_true, eq_self_iff_true, if_true, if_false,
              ite_true, ite_false] at h
          · obtain ⟨av, h2, h⟩ := bind_ok_extract h
            obtain ⟨c, hrec, h3⟩ := bind_ok_extract h
            exact ⟨_, _, hrec⟩
          · obtain ⟨av, h2, h⟩ := bind_ok_extract h
            obtain ⟨c, hrec, h3⟩ := bind_ok_extract h
            exact ⟨_, _, hrec⟩
      · simp only [if_neg hrest] at h
        cases ha : isArrayV (getProp cur key) <;>
          simp only [ha, Bool.false_eq_true, eq_self_iff_true, if_true, if_false,
            ite_true, ite_false] at h
        · obtain ⟨y, h1, h⟩ := bind_ok_extract h
          cases hl : isTruthy (getIdx ((getProp y key).getD (JValue.obj [])) n) <;>
            simp only [hl, Bool.false_eq_true, eq_self_iff_true, if_true, if_false,
              ite_true, ite_false] at h
          · obtain ⟨av, h2, h⟩ := bind_ok_extract h
            obtain ⟨c, hrec, h3⟩ := bind_ok_extract h
            exact ⟨_, _, hrec⟩
          · obtain ⟨av, h2, h⟩ := bind_ok_extract h
            obtain ⟨c, hrec, h3⟩ := bind_ok_extract h
            exact ⟨_, _, hrec⟩
        · obtain ⟨y, h1, h⟩ := bind_ok_extract h
          cases hl : isTruthy (getIdx ((getProp y key).getD (JValue.obj [])) n) <;>
            simp only [hl, Bool.false_eq_true, eq_self_iff_true, if_true, if_false,
              ite_true, ite_false] at h
          · obtain ⟨av, h2, h⟩ := bind_ok_extract h
            obtain ⟨c, hrec, h3⟩ := bind_ok_extract h
            exact ⟨_, _, hrec⟩
          · obtain ⟨av, h2, h⟩ := bind_ok_extract h
            obtain ⟨c, hrec, h3⟩ := bind_ok_extract h
            exact ⟨_, _, hrec⟩

theorem assign_step_empty_err {seg : String} {rest full : List String}
    {v : JValue} {e : Err} (hseg : parseSegment seg ≠ none) (hrest : rest ≠ [])
    (h : assignGo (.obj []) rest full v = .error e) :
    assignGo (.obj []) (seg :: rest) full v = .error e := by
  cases hps : parseSegment seg with
  | none => exact absurd hps hseg
  | some ki =>
    obtain ⟨key, idx⟩ := ki
    unfold assignGo
    rw [hps]
    simp only [if_neg hrest]
    rcases idx with _ | iopt
    · by_cases hk : key = "__proto__"
      · simp [hk, getProp, isTruthy, h, Bind.bind, Except.bind, pure, Except.pure]
      · simp [hk, getProp, setProp, isTruthy, assocGet, assocSet, h,
          Bind.bind, Except.bind, pure, Except.pure]
    · rcases iopt with _ | n
      · by_cases hk : key = "__proto__"
        · simp [hk, getProp, setProp, isArrayV, lastIsObject, pushVal,
            lastElem, h, Bind.bind, Except.bind, pure, Except.pure]
        · simp [hk, getProp, setProp, isArrayV, lastIsObject, pushVal,
            lastElem, assocGet, assocSet, h, Bind.bind, Except.bind, pure, Except.pure]
      · by_cases hk : key = "__proto__"
        · simp [hk, getProp, setProp, isArrayV, isTruthy, getIdx, setIdx,
            assocGet, assocSet, h, Bind.bind, Except.bind, pure, Except.pure]
        · simp [hk, getProp, setProp, isArrayV, isTruthy, getIdx, setIdx,
            listSet, assocGet, assocSet, h, Bind.bind, Except.bind, pure, Except.pure]

theorem assign_invalid_from_empty :
    ∀ (p₁ : List String) (seg : String) (p₂ full : List String) (v : JValue),
    parseSegment seg = none → (∀ s ∈ p₁, parseSegment s ≠ none) →
    assignGo (.obj []) (p₁ ++ seg :: p₂) full v =
      .error (.invalidSegment seg (String.intercalate "." full)) := by
  intro p₁
  induction p₁ with
  | nil =>
    intro seg p₂ full v hseg _
    unfold assignGo
    simp [hseg, throw, throwThe, MonadExceptOf.throw]
  | cons s rest ih =>
    intro seg p₂ full v hseg hall
    have hs : parseSegment s ≠ none := hall s (List.mem_cons_self s rest)
    have hrest : ∀ t ∈ rest, parseSegment t ≠ none :=
      fun t ht => hall t (List.mem_cons_of_mem s ht)
    have hne : rest ++ seg :: p₂ ≠ [] := by
      intro hcontra
      exact absurd (List.append_eq_nil.mp hcontra).2 (by simp)
    exact assign_step_empty_err hs hne (ih seg p₂ full v hseg hrest)

theorem assign_ok_all_valid :
    ∀ (segs : List String) (cur : JValue) (full : List String) (v r : JValue),
    assignGo cur segs full v = .ok r → ∀ s ∈ segs, parseSegment s ≠ none := by
  intro segs
  induction segs with
  | nil =>
    intro cur full v r _ s hs
    exact absurd hs (List.not_mem_nil s)
  | cons seg rest ih =>
    intro cur full v r h s hs
    have hseg : parseSegment seg ≠ none := by
      intro hps
      unfold assignGo at h
      rw [hps] at h
      cases h
    rcases List.mem_cons.mp hs with hseq | hsrest
    · exact hseq ▸ hseg
    · by_cases hrest : rest = []
      · rw [hrest] at hsrest
        exact absurd hsrest (List.not_mem_nil s)
      · obtain ⟨child, r', hrec⟩ := assign_sub_ok hrest h
        exact ih child full v r' hrec s hsrest

theorem isDigitChar_digitChar {m : Nat} (h : m < 10) :
    isDigitChar (Nat.digitChar m) = true := by
  interval_cases m <;> rfl

theorem toDigitsCore_digits (f : Nat) : ∀ (n : Nat) (acc : List Char),
    (∀ c ∈ acc, isDigitChar c = true) →
    ∀ c ∈ Nat.toDigitsCore 10 f n acc, isDigitChar c = true := by
  induction f with
  | zero =>
    intro n acc hacc c hc
    exact hacc c hc
  | succ f ih =>
    intro n acc hacc c hc
    simp only [Nat.toDigitsCore] at hc
    by_cases hz : n / 10 = 0
    · rw [if_pos hz] at hc
      rcases List.mem_cons.mp hc with h1 | h2
      · rw [h1]
        exact isDigitChar_digitChar (Nat.mod_lt _ (by decide))
      · exact hacc c h2
    · rw [if_neg hz] at hc
      refine ih (n / 10) (Nat.digitChar (n % 10) :: acc) ?_ c hc
      intro d hd
      rcases List.mem_cons.mp hd with h1 | h2
      · rw [h1]
        exact isDigitChar_digitChar (Nat.mod_lt _ (by decide))
      · exact hacc d h2

theorem natToString_ne_proto (n : Nat) : toString n ≠ "__proto__" := by
  intro h
  have hd : ∀ c ∈ (toString n).data, isDigitChar c = true := by
    intro c hc
    exact toDigitsCore_digits (n + 1) n [] (by intro d hd; cases hd) c hc
  rw [h] at hd
  exact absurd (hd '_' (by decide)) (by decide)

theorem noProto_assocGet {fs : List (String × JValue)} {k : String} {v : JValue}
    (h : noProtoFields fs = true) (hg : assocGet fs k = some v) :
    noProtoV v = true := by
  induction fs with
  | nil => cases hg
  | cons p rest ih =>
    obtain ⟨k', v'⟩ := p
    simp only [noProtoFields, Bool.and_eq_true] at h
    unfold assocGet at hg
    by_cases hk : k' = k
    · rw [if_pos hk] at hg
      cases hg
      exact h.1.2
    · rw [if_neg hk] at hg
      exact ih h.2 hg

theorem noProto_elems_mem {es : List (Option JValue)} {v : JValue}
    (h : noProtoElems es = true) (hmem : some v ∈ es) : noProtoV v = true := by
  induction es with
  | nil => cases hmem
  | cons o rest ih =>
    rcases List.mem_cons.mp hmem with h1 | h2
    · rw [← h1] at h
      simp only [noProtoElems, Bool.and_eq_true] at h
      exact h.1
    · cases o with
      | none =>
        simp only [noProtoElems] at h
        exact ih h h2
      | some w =>
        simp only [noProtoElems, Bool.and_eq_true] at h
        exact ih h.2 h2

theorem noProto_elems_get {es : List (Option JValue)} {n : Nat} {v : JValue}
    (h : noProtoElems es = true) (hg : (es.get? n).join = some v) :
    noProtoV v = true := by
  cases hgn : es.get? n with
  | none => rw [hgn] at hg; cases hg
  | some o =>
    rw [hgn] at hg
    cases o with
    | none => cases hg
    | some w =>
      cases hg
      exact noProto_elems_mem h (List.get?_mem hgn)

theorem noProto_getProp {cur : JValue} {key : String} {v : JValue}
    (h : noProtoV cur = true) (hg : getProp cur key = some v) :
    noProtoV v = true := by
  unfold getProp at hg
  by_cases hk : key = "__proto__"
  · rw [if_pos hk] at hg
    cases hg
    rfl
  · rw [if_neg hk] at hg
    cases cur with
    | obj fs =>
      simp only [noProtoV] at h
      exact noProto_assocGet h hg
    | arr es ps =>
      simp only [noProtoV, Bool.and_eq_true] at h
      cases hci : canonIdx key with
      | some n =>
        rw [hci] at hg
        exact noProto_elems_get h.1 hg
      | none =>
        rw [hci] at hg
        exact noProto_assocGet h.2 hg
    | file f c b ps =>
      simp only [noProtoV] at h
      exact noProto_assocGet h hg
    | str s => cases hg
    | num m => cases hg
    | bool b => cases hg

theorem noProto_getPropD {cur : JValue} {key : String}
    (h : noProtoV cur = true) :
    noProtoV ((getProp cur key).getD (.obj [])) = true := by
  cases hg : getProp cur key with
  | none => rfl
  | some v => exact noProto_getProp h hg

theorem noProto_getIdx {cur : JValue} {n : Nat} {v : JValue}
    (h : noProtoV cur = true) (hg : getIdx cur n = some v) :
    noProtoV v = true := by
  unfold getIdx at hg
  cases cur with
  | arr es ps =>
    simp only [noProtoV, Bool.and_eq_true] at h
    exact noProto_elems_get h.1 hg
  | obj fs =>
    simp only [noProtoV] at h
    exact noProto_assocGet h hg
  | file f c b ps =>
    simp only [noProtoV] at h
    exact noProto_assocGet h hg
  | str s => cases hg
  | num m => cases hg
  | bool b => cases hg

theorem noProto_getIdxD {cur : JValue} {n : Nat}
    (h : noProtoV cur = true) :
    noProtoV ((getIdx cur n).getD (.obj [])) = true := by
  cases hg : getIdx cur n with
  | none => rfl
  | some v => exact noProto_getIdx h hg

theorem noProto_lastElemD {v : JValue} (h : noProtoV v = true) :
    noProtoV ((lastElem v).getD (.obj [])) = true := by
  cases hg : lastElem v with
  | none => rfl
  | some x =>
    cases v with
    | arr es ps =>
      simp only [lastElem] at hg
      simp only [noProtoV, Bool.and_eq_true] at h
      cases hl : es.getLast? with
      | none => rw [hl] at hg; cases hg
      | some o =>
        rw [hl] at hg
        cases o with
        | none => cases hg
        | some w =>
          cases hg
          exact noProto_elems_mem h.1 (List.mem_of_getLast?_eq_some hl)
    | obj fs => simp only [lastElem] at hg; cases hg
    | file f c b ps => simp only [lastElem] at hg; cases hg
    | str s => simp only [lastElem] at hg; cases hg
    | num m => simp only [lastElem] at hg; cases hg
    | bool b => simp only [lastElem] at hg; cases hg



theorem pure_ok_eq {α : Type} {a r : α} (h : (pure a : Except Err α) = .ok r) :
    a = r := by
  simpa [pure, Except.pure] using h

theorem noProto_empty_obj : noProtoV (.obj []) = true := by
  simp [noProtoV, noProtoFields]

theorem noProto_empty_arr : noProtoV (.arr [] []) = true := by
  simp [noProtoV, noProtoElems, noProtoFields]

theorem noProto_assocSet {fs : List (String × JValue)} {k : String} {x : JValue}
    (h : noProtoFields fs = true) (hk : k ≠ "__proto__")
    (hx : noProtoV x = true) : noProtoFields (assocSet fs k x) = true := by
  induction fs with
  | nil => simp [assocSet, noProtoFields, hk, hx]
  | cons p rest ih =>
    obtain ⟨k', v'⟩ := p
    simp only [noProtoFields, Bool.and_eq_true, decide_eq_true_eq] at h
    unfold assocSet
    by_cases hkk : k' = k
    · rw [if_pos hkk]
      simp only [noProtoFields, Bool.and_eq_true, decide_eq_true_eq]
      exact ⟨⟨hk, hx⟩, h.2⟩
    · rw [if_neg hkk]
      simp only [noProtoFields, Bool.and_eq_true, decide_eq_true_eq]
      exact ⟨⟨h.1.1, h.1.2⟩, ih h.2⟩

theorem noProtoElems_append {a b : List (Option JValue)}
    (ha : noProtoElems a = true) (hb : noProtoElems b = true) :
    noProtoElems (a ++ b) = true := by
  induction a with
  | nil => simpa using hb
  | cons o rest ih =>
    cases o with
    | none =>
      rw [List.cons_append]
      simp only [noProtoElems] at ha ⊢
      exact ih ha
    | some w =>
      rw [List.cons_append]
      simp only [noProtoElems, Bool.and_eq_true] at ha ⊢
      exact ⟨ha.1, ih ha.2⟩

theorem noProtoElems_replicate (k : Nat) :
    noProtoElems (List.replicate k (none : Option JValue)) = true := by
  induction k with
  | zero => rfl
  | succ k ih =>
    rw [List.replicate_succ]
    simpa only [noProtoElems] using ih

theorem noProto_elems_set {es : List (Option JValue)} {x : JValue}
    (h : noProtoElems es = true) (hx : noProtoV x = true) :
    ∀ n, noProtoElems (es.set n (some x)) = true := by
  induction es with
  | nil =>
    intro n
    simpa using h
  | cons o rest ih =>
    intro n
    cases n with
    | zero =>
      rw [List.set_cons_zero]
      simp only [noProtoElems, Bool.and_eq_true]
      refine ⟨hx, ?_⟩
      cases o with
      | none => simpa only [noProtoElems] using h
      | some w =>
        simp only [noProtoElems, Bool.and_eq_true] at h
        exact h.2
    | succ m =>
      rw [List.set_cons_succ]
      cases o with
      | none =>
        simp only [noProtoElems] at h ⊢
        exact ih h m
      | some w =>
        simp only [noProtoElems, Bool.and_eq_true] at h ⊢
        exact ⟨h.1, ih h.2 m⟩

theorem noProto_listSet {es : List (Option JValue)} {n : Nat} {x : JValue}
    (h : noProtoElems es = true) (hx : noProtoV x = true) :
    noProtoElems (listSet es n x) = true := by
  unfold listSet
  by_cases hlt : n < es.length
  · rw [if_pos hlt]
    exact noProto_elems_set h hx n
  · rw [if_neg hlt]
    refine noProtoElems_append (noProtoElems_append h ?_) ?_
    · exact noProtoElems_replicate _
    · simp only [noProtoElems, Bool.and_eq_true]
      exact ⟨hx, trivial⟩

theorem noProto_setProp {cur : JValue} {key : String} {x r : JValue}
    (h : noProtoV cur = true) (hx : noProtoV x = true)
    (hs : setProp cur key x = .ok r) : noProtoV r = true := by
  unfold setProp at hs
  by_cases hk : key = "__proto__"
  · rw [if_pos hk] at hs
    rw [← pure_ok_eq hs]
    exact h
  · rw [if_neg hk] at hs
    cases cur with
    | obj fs =>
      rw [← pure_ok_eq hs]
      simp only [noProtoV] at h ⊢
      exact noProto_assocSet h hk hx
    | arr es ps =>
      simp only [noProtoV, Bool.and_eq_true] at h
      cases hci : canonIdx key with
      | some n =>
        rw [hci] at hs
        rw [← pure_ok_eq hs]
        simp only [noProtoV, Bool.and_eq_true]
        exact ⟨noProto_listSet h.1 hx, h.2⟩
      | none =>
        rw [hci] at hs
        rw [← pure_ok_eq hs]
        simp only [noProtoV, Bool.and_eq_true]
        exact ⟨h.1, noProto_assocSet h.2 hk hx⟩
    | file f c b ps =>
      rw [← pure_ok_eq hs]
      simp only [noProtoV] at h ⊢
      exact noProto_assocSet h hk hx
    | str s => simp [throw, throwThe, MonadExceptOf.throw] at hs
    | num m => simp [throw, throwThe, MonadExceptOf.throw] at hs
    | bool b => simp [throw, throwThe, MonadExceptOf.throw] at hs

theorem noProto_setIdx {cur : JValue} {n : Nat} {x r : JValue}
    (h : noProtoV cur = true) (hx : noProtoV x = true)
    (hs : setIdx cur n x = .ok r) : noProtoV r = true := by
  unfold setIdx at hs
  cases cur with
  | arr es ps =>
    simp only [noProtoV, Bool.and_eq_true] at h
    rw [← pure_ok_eq hs]
    simp only [noProtoV, Bool.and_eq_true]
    exact ⟨noProto_listSet h.1 hx, h.2⟩
  | obj fs =>
    rw [← pure_ok_eq hs]
    simp only [noProtoV] at h ⊢
    exact noProto_assocSet h (natToString_ne_proto n) hx
  | file f c b ps =>
    rw [← pure_ok_eq hs]
    simp only [noProtoV] at h ⊢
    exact noProto_assocSet h (natToString_ne_proto n) hx
  | str s => simp [throw, throwThe, MonadExceptOf.throw] at hs
  | num m => simp [throw, throwThe, MonadExceptOf.throw] at hs
  | bool b => simp [throw, throwThe, MonadExceptOf.throw] at hs

theorem noProto_pushVal {cur : JValue} {x r : JValue}
    (h : noProtoV cur = true) (hx : noProtoV x = true)
    (hs : pushVal cur x = .ok r) : noProtoV r = true := by
  unfold pushVal at hs
  cases cur with
  | arr es ps =>
    simp only [noProtoV, Bool.and_eq_true] at h
    rw [← pure_ok_eq hs]
    simp only [noProtoV, Bool.and_eq_true]
    refine ⟨noProtoElems_append h.1 ?_, h.2⟩
    simp only [noProtoElems, Bool.and_eq_true]
    exact ⟨hx, trivial⟩
  | obj fs =>
    rw [← pure_ok_eq hs]
    exact h
  | file f c b ps =>
    rw [← pure_ok_eq hs]
    exact h
  | str s => simp [throw, throwThe, MonadExceptOf.throw] at hs
  | num m => simp [throw, throwThe, MonadExceptOf.throw] at hs
  | bool b => simp [throw, throwThe, MonadExceptOf.throw] at hs

theorem noProto_setLast {cur : JValue} {x r : JValue}
    (h : noProtoV cur = true) (hx : noProtoV x = true)
    (hs : setLast cur x = .ok r) : noProtoV r = true := by
  cases cur with
  | arr es ps =>
    simp only [setLast] at hs
    simp only [noProtoV, Bool.and_eq_true] at h
    by_cases hlen : es.length = 0
    · rw [if_pos hlen] at hs
      rw [← pure_ok_eq hs]
      simp only [noProtoV, Bool.and_eq_true]
      exact ⟨h.1, h.2⟩
    · rw [if_neg hlen] at hs
      rw [← pure_ok_eq hs]
      simp only [noProtoV, Bool.and_eq_true]
      exact ⟨noProto_elems_set h.1 hx _, h.2⟩
  | obj fs =>
    simp only [setLast] at hs
    rw [← pure_ok_eq hs]
    exact h
  | file f c b ps =>
    simp only [setLast] at hs
    rw [← pure_ok_eq hs]
    exact h
  | str s => simp [setLast, throw, throwThe, MonadExceptOf.throw] at hs
  | num m => simp [setLast, throw, throwThe, MonadExceptOf.throw] at hs
  | bool b => simp [setLast, throw, throwThe, MonadExceptOf.throw] at hs



theorem noProto_assignGo :
    ∀ (segs : List String) (cur : JValue) (full : List String) (v r : JValue),
    noProtoV cur = true → noProtoV v = true →
    assignGo cur segs full v = .ok r → noProtoV r = true := by
  intro segs
  induction segs with
  | nil =>
    intro cur full v r hc hv h
    unfold assignGo at h
    rw [← pure_ok_eq h]
    exact hc
  | cons seg rest ih =>
    intro cur full v r hc hv h
    unfold assignGo at h
    cases hps : parseSegment seg with
    | none =>
      rw [hps] at h
      cases h
    | some ki =>
      obtain ⟨key, idx⟩ := ki
      rw [hps] at h
      by_cases hrest : rest = []
      · simp only [if_pos hrest] at h
        rcases idx with _ | iopt
        · exact noProto_setProp hc hv h
        · rcases iopt with _ | n
          · cases hX : isArrayV (getProp cur key) <;>
              simp only [hX, Bool.false_eq_true, eq_self_iff_true, if_true,
                if_false, ite_true, ite_false] at h
            · obtain ⟨y, h1, h⟩ := bind_ok_extract h
              obtain ⟨av', h2, h3⟩ := bind_ok_extract h
              have hy := noProto_setProp hc noProto_empty_arr h1
              exact noProto_setProp hy
                (noProto_pushVal (noProto_getPropD hy) hv h2) h3
            · obtain ⟨y, h1, h⟩ := bind_ok_extract h
              obtain ⟨av', h2, h3⟩ := bind_ok_extract h
              have hy : noProtoV y = true := by
                rw [← pure_ok_eq h1]
                exact hc
              exact noProto_setProp hy
                (noProto_pushVal (noProto_getPropD hy) hv h2) h3
          · cases hX : isArrayV (getProp cur key) <;>
              simp only [hX, Bool.false_eq_true, eq_self_iff_true, if_true,
                if_false, ite_true, ite_false] at h
            · obtain ⟨y, h1, h⟩ := bind_ok_extract h
              obtain ⟨av', h2, h3⟩ := bind_ok_extract h
              have hy := noProto_setProp hc noProto_empty_arr h1
              exact noProto_setProp hy
                (noProto_setIdx (noProto_getPropD hy) hv h2) h3
            · obtain ⟨y, h1, h⟩ := bind_ok_extract h
              obtain ⟨av', h2, h3⟩ := bind_ok_extract h
              have hy : noProtoV y = true := by
                rw [← pure_ok_eq h1]
                exact hc
              exact noProto_setProp hy
                (noProto_setIdx (noProto_getPropD hy) hv h2) h3
      · simp only [if_neg hrest] at h
        rcases idx with _ | iopt
        · cases hX : isTruthy (getProp cur key) <;>
            simp only [hX, Bool.false_eq_true, eq_self_iff_true, if_true,
              if_false, ite_true, ite_false] at h
          · obtain ⟨y, h1, h⟩ := bind_ok_extract h
            obtain ⟨child', h2, h3⟩ := bind_ok_extract h
            have hy := noProto_setProp hc noProto_empty_obj h1
            exact noProto_setProp hy
              (ih _ full v _ (noProto_getPropD hy) hv h2) h3
          · obtain ⟨y, h1, h⟩ := bind_ok_extract h
            obtain ⟨child', h2, h3⟩ := bind_ok_extract h
            have hy : noProtoV y = true := by
              rw [← pure_ok_eq h1]
              exact hc
            exact noProto_setProp hy
              (ih _ full v _ (noProto_getPropD hy) hv h2) h3
        · rcases iopt with _ | n
          · cases hX : isArrayV (getProp cur key) <;>
              simp only [hX, Bool.false_eq_true, eq_self_iff_true, if_true,
                if_false, ite_true, ite_false] at h
            all_goals
              obtain ⟨y, h1, h⟩ := bind_ok_extract h
            next =>
              have hy := noProto_setProp hc noProto_empty_arr h1
              cases hL : lastIsObject ((getProp y key).getD (JValue.obj [])) <;>
                simp only [hL, Bool.false_eq_true, eq_self_iff_true, if_true,
                  if_false, ite_true, ite_false] at h
              · obtain ⟨av2, h2, h⟩ := bind_ok_extract h
                obtain ⟨child', h3, h⟩ := bind_ok_extract h
                obtain ⟨av', h4, h5⟩ := bind_ok_extract h
                have hav2 := noProto_pushVal (noProto_getPropD hy)
                  noProto_empty_obj h2
                exact noProto_setProp hy (noProto_setLast hav2
                  (ih _ full v _ (noProto_lastElemD hav2) hv h3) h4) h5
              · obtain ⟨av2, h2, h⟩ := bind_ok_extract h
                obtain ⟨child', h3, h⟩ := bind_ok_extract h
                obtain ⟨av', h4, h5⟩ := bind_ok_extract h
                have hav2 : noProtoV av2 = true := by
                  rw [← pure_ok_eq h2]
                  exact noProto_getPropD hy
                exact noProto_setProp hy (noProto_setLast hav2
                  (ih _ full v _ (noProto_lastElemD hav2) hv h3) h4) h5
            next =>
              have hy : noProtoV y = true := by
                rw [← pure_ok_eq h1]
                exact hc
              cases hL : lastIsObject ((getProp y key).getD (JValue.obj [])) <;>
                simp only [hL, Bool.false_eq_true, eq_self_iff_true, if_true,
                  if_false, ite_true, ite_false] at h
              · obtain ⟨av2, h2, h⟩ := bind_ok_extract h
                obtain ⟨child', h3, h⟩ := bind_ok_extract h
                obtain ⟨av', h4, h5⟩ := bind_ok_extract h
                have hav2 := noProto_pushVal (noProto_getPropD hy)
                  noProto_empty_obj h2
                exact noProto_setProp hy (noProto_setLast hav2
                  (ih _ full v _ (noProto_lastElemD hav2) hv h3) h4) h5
              · obtain ⟨av2, h2, h⟩ := bind_ok_extract h
                obtain ⟨child', h3, h⟩ := bind_ok_extract h
                obtain ⟨av', h4, h5⟩ := bind_ok_extract h
                have hav2 : noProtoV av2 = true := by
                  rw [← pure_ok_eq h2]
                  exact noProto_getPropD hy
                exact noProto_setProp hy (noProto_setLast hav2
                  (ih _ full v _ (noProto_lastElemD hav2) hv h3) h4) h5
          · cases hX : isArrayV (getProp cur key) <;>
              simp only [hX, Bool.false_eq_true, eq_self_iff_true, if_true,
                if_false, ite_true, ite_false] at h
            all_goals
              obtain ⟨y, h1, h⟩ := bind_ok_extract h
            next =>
              have hy := noProto_setProp hc noProto_empty_arr h1
              cases hL : isTruthy (getIdx ((getProp y key).getD (JValue.obj [])) n) <;>
                simp only [hL, Bool.false_eq_true, eq_self_iff_true, if_true,
                  if_false, ite_true, ite_false] at h
              · obtain ⟨av2, h2, h⟩ := bind_ok_extract h
                obtain ⟨child', h3, h⟩ := bind_ok_extract h
                obtain ⟨av', h4, h5⟩ := bind_ok_extract h
                have hav2 := noProto_setIdx (noProto_getPropD hy)
                  noProto_empty_obj h2
                exact noProto_setProp hy (noProto_setIdx hav2
                  (ih _ full v _ (noProto_getIdxD hav2) hv h3) h4) h5
              · obtain ⟨av2, h2, h⟩ := bind_ok_extract h
                obtain ⟨child', h3, h⟩ := bind_ok_extract h
                obtain ⟨av', h4, h5⟩ := bind_ok_extract h
                have hav2 : noProtoV av2 = true := by
                  rw [← pure_ok_eq h2]
                  exact noProto_getPropD hy
                exact noProto_setProp hy (noProto_setIdx hav2
                  (ih _ full v _ (noProto_getIdxD hav2) hv h3) h4) h5
            next =>
              have hy : noProtoV y = true := by
                rw [← pure_ok_eq h1]
                exact hc
              cases hL : isTruthy (getIdx ((getProp y key).getD (JValue.obj [])) n) <;>
                simp only [hL, Bool.false_eq_true, eq_self_iff_true, if_true,
                  if_false, ite_true, ite_false] at h
              · obtain ⟨av2, h2, h⟩ := bind_ok_extract h
                obtain ⟨child', h3, h⟩ := bind_ok_extract h
                obtain ⟨av', h4, h5⟩ := bind_ok_extract h
                have hav2 := noProto_setIdx (noProto_getPropD hy)
                  noProto_empty_obj h2
                exact noProto_setProp hy (noProto_setIdx hav2
                  (ih _ full v _ (noProto_getIdxD hav2) hv h3) h4) h5
              · obtain ⟨av2, h2, h⟩ := bind_ok_extract h
                obtain ⟨child', h3, h⟩ := bind_ok_extract h
                obtain ⟨av', h4, h5⟩ := bind_ok_extract h
                have hav2 : noProtoV av2 = true := by
                  rw [← pure_ok_eq h2]
                  exact noProto_getPropD hy
                exact noProto_setProp hy (noProto_setIdx hav2
                  (ih _ full v _ (noProto_getIdxD hav2) hv h3) h4) h5

theorem noProto_scalar (s : Scalar) : noProtoV s.toJValue = true := by
  cases s <;> simp [Scalar.toJValue, noProtoV]

theorem noProto_urlProcessPair {cfg : Config} {obj : JValue} {p : UPair}
    {r : JValue} (h : noProtoV obj = true)
    (hp : urlProcessPair cfg obj p = .ok r) : noProtoV r = true := by
  unfold urlProcessPair at hp
  by_cases h1 : p.key = ""
  · rw [if_pos h1] at hp
    rw [← pure_ok_eq hp]
    exact h
  · rw [if_neg h1] at hp
    by_cases h2 : cfg.maxKeys < p.keyCount
    · rw [if_pos h2] at hp
      cases hp
    · rw [if_neg h2] at hp
      by_cases h3 : cfg.maxKeyLength < p.key.length
      · rw [if_pos h3] at hp
        cases hp
      · rw [if_neg h3] at hp
        simp only [] at hp
        by_cases h4 : (extractNestedKey p.key).contains "__proto__"
        · simp only [h4, if_true, ite_true] at hp
          cases hp
        · simp only [h4, Bool.false_eq_true, if_false, ite_false] at hp
          by_cases h5 : cfg.maxDepth < (extractNestedKey p.key).length
          · rw [if_pos h5] at hp
            cases hp
          · rw [if_neg h5] at hp
            cases hdv : decodeURIComponentM p.value with
            | none =>
              rw [hdv] at hp
              cases hp
            | some dv =>
              rw [hdv] at hp
              exact noProto_assignGo _ _ _ _ _ h (noProto_scalar _) hp

theorem noProto_urlFeedBytes {cfg : Config} :
    ∀ (bs : List Nat) (st : UrlState) (obj : JValue) (st' : UrlState)
    (r : JValue), noProtoV obj = true →
    urlFeedBytes cfg st obj bs = .ok (st', r) → noProtoV r = true := by
  intro bs
  induction bs with
  | nil =>
    intro st obj st' r h hf
    unfold urlFeedBytes at hf
    have h1 := pure_ok_eq hf
    rw [Prod.mk.injEq] at h1
    rw [← h1.2]
    exact h
  | cons b rest ih =>
    intro st obj st' r h hf
    unfold urlFeedBytes at hf
    rcases hstep : urlStep st b with ⟨st1, emitted⟩
    rw [hstep] at hf
    cases emitted with
    | none =>
      obtain ⟨obj', h1, h2⟩ := bind_ok_extract hf
      have hobj' : noProtoV obj' = true := by
        rw [← pure_ok_eq h1]
        exact h
      exact ih _ _ _ _ hobj' h2
    | some p =>
      obtain ⟨obj', h1, h2⟩ := bind_ok_extract hf
      exact ih _ _ _ _ (noProto_urlProcessPair h h1) h2

theorem noProto_urlRunChunks {cfg : Config} :
    ∀ (chunks : List (List Nat)) (bytes : Nat) (st : UrlState) (obj : JValue)
    (bytes' : Nat) (st' : UrlState) (r : JValue), noProtoV obj = true →
    urlRunChunks cfg bytes st obj chunks = .ok (bytes', st', r) →
    noProtoV r = true := by
  intro chunks
  induction chunks with
  | nil =>
    intro bytes st obj bytes' st' r h hf
    unfold urlRunChunks at hf
    have h1 := pure_ok_eq hf
    rw [Prod.mk.injEq, Prod.mk.injEq] at h1
    rw [← h1.2.2]
    exact h
  | cons c rest ih =>
    intro bytes st obj bytes' st' r h hf
    unfold urlRunChunks at hf
    obtain ⟨b1, h1, hf⟩ := bind_ok_extract hf
    obtain ⟨so, h2, hf⟩ := bind_ok_extract hf
    obtain ⟨st1, r1⟩ := so
    exact ih _ _ _ _ _ _ (noProto_urlFeedBytes _ _ _ _ _ h h2) hf

theorem noProto_urlParse {cfg : Config} {chunks : List (List Nat)}
    {r : JValue} (h : urlParse cfg chunks = .ok r) : noProtoV r = true := by
  unfold urlParse at h
  obtain ⟨so, h1, h2⟩ := bind_ok_extract h
  obtain ⟨b1, st1, obj1⟩ := so
  have hobj : noProtoV obj1 = true :=
    noProto_urlRunChunks _ _ _ _ _ _ _ noProto_empty_obj h1
  cases hcond : decide (st1.curKey ≠ "") || decide (st1.curValue ≠ "") <;>
    simp only [hcond, Bool.false_eq_true, eq_self_iff_true, if_true, if_false,
      ite_true, ite_false] at h2
  · rw [← pure_ok_eq h2]
    exact hobj
  · exact noProto_urlProcessPair hobj h2

theorem mpRun_nil_eq (cfg : Config) (fuel : Nat) (st : MState)
    (ret : JValue) : mpRun cfg fuel st ret [] = some (pure (ret, st)) := by
  cases fuel <;> rfl

theorem mpRun_fail_eq (cfg : Config) (fuel : Nat) (st : MState) (ret : JValue)
    (e : Err) (rest : List MItem) :
    mpRun cfg fuel st ret (.streamFail e :: rest) = some (throw e) := by
  cases fuel <;> rfl

theorem mpRun_zero_part (cfg : Config) (st : MState) (ret : JValue)
    (headers : List (String × String)) (body : Option String)
    (sub : Option (List MItem)) (rest : List MItem) :
    mpRun cfg 0 st ret (.part headers body sub :: rest) = none := rfl

theorem mpRun_part_eq (cfg : Config) (fuel : Nat) (st : MState) (ret : JValue)
    (headers : List (String × String)) (body : Option String)
    (sub : Option (List MItem)) (rest : List MItem) :
    mpRun cfg (fuel + 1) st ret (.part headers body sub :: rest) =
      (
      match headerGet headers "content-disposition" with
      | none => mpRun cfg fuel st ret rest
      | some key =>
        if key = "" || ¬ (("form-data").data.isPrefixOf key.data) then
          mpRun cfg fuel st ret rest
        else
          let contentType :=
            match headerGet headers "content-type" with
            | some s => if s = "" then "text/plain" else s
            | none => "text/plain"
          let ctOk :=
            match cfg.allowedContentTypes with
            | some allowed => allowed.contains contentType
            | none => true
          if ctOk = false then some (throw .invalidContentType)
          else
            let st := { st with keyCount := st.keyCount + 1 }
            if cfg.maxKeys ≤ st.keyCount then some (throw .tooManyKeys)
            else
              let isFile := containsSub key.data ("; filename=").data
              let st := if isFile then { st with fileCount := st.fileCount + 1 }
                        else st
              if cfg.maxFiles ≤ st.fileCount then some (throw .tooManyFiles)
              else
                let m :=
                  if isFile then
                    (nameFilenameCapture key).map (fun p => (p.1, some p.2))
                  else (nameCapture key).map (fun s => (s, (none : Option String)))
                match m with
                | none => mpRun cfg fuel st ret rest
                | some (keyName, fn) =>
                  if keyName = "" then mpRun cfg fuel st ret rest
                  else
                    let filename := fn.getD ""
                    if cfg.maxFilenameLength < filename.length then
                      some (throw .filenameTooLong)
                    else if keyName = "__proto__" then some (throw .invalidInput)
                    else if cfg.maxKeyLength < keyName.length then
                      some (throw .keyTooLong)
                    else
                      let bodyStep : Option (Except Err (JValue × MState)) :=
                        match sub with
                        | some items =>
                          -- body = await inner(part.parts)
                          let st := { st with depth := st.depth + 1 }
                          if cfg.maxDepth ≤ st.depth then some (throw .tooDeep)
                          else
                            match mpRun cfg fuel st (.obj []) items with
                            | none => none
                            | some (.error e) => some (throw e)
                            | some (.ok (v, st')) =>
                              some (pure (v, { st' with depth := st'.depth - 1 }))
                        | none =>
                          if isFile then
                            some (pure (match body with
                                        | some content =>
                                          JValue.file filename contentType content []
                                        | none => JValue.str "", st))
                          else
                            some (pure (match body with
                                        | some content =>
                                          (possibleCast content cfg).toJValue
                                        | none => JValue.str "", st))
                      match bodyStep with
                      | none => none
                      | some (.error e) => some (throw e)
                      | some (.ok (bodyVal, st)) =>
                        match assignNestedValue ret (extractNestedKey keyName) bodyVal with
                        | .error e => some (throw e)
                        | .ok ret' => mpRun cfg fuel st ret' rest) := rfl

theorem throw_some_ok_elim {α : Type} {e : Err} {v : α}
    (h : some (throw e : Except Err α) = some (.ok v)) : False := by
  simp [throw, throwThe, MonadExceptOf.throw] at h

theorem noProto_mpRun {cfg : Config} :
    ∀ (fuel : Nat) (st : MState) (ret : JValue) (items : List MItem)
    (r : JValue) (st' : MState), noProtoV ret = true →
    mpRun cfg fuel st ret items = some (.ok (r, st')) → noProtoV r = true := by
  intro fuel
  induction fuel with
  | zero =>
    intro st ret items r st' h hm
    cases items with
    | nil =>
      rw [mpRun_nil_eq] at hm
      simp only [pure, Except.pure, Option.some.injEq, Except.ok.injEq,
        Prod.mk.injEq] at hm
      rw [← hm.1]
      exact h
    | cons it rest =>
      cases it with
      | streamFail e =>
        rw [mpRun_fail_eq] at hm
        simp [throw, throwThe, MonadExceptOf.throw] at hm
      | part headers body sub =>
        rw [mpRun_zero_part] at hm
        cases hm
  | succ fuel ih =>
    intro st ret items r st' h hm
    cases items with
    | nil =>
      rw [mpRun_nil_eq] at hm
      simp only [pure, Except.pure, Option.some.injEq, Except.ok.injEq,
        Prod.mk.injEq] at hm
      rw [← hm.1]
      exact h
    | cons it rest =>
      cases it with
      | streamFail e =>
        rw [mpRun_fail_eq] at hm
        simp [throw, throwThe, MonadExceptOf.throw] at hm
      | part headers body sub =>
        rw [mpRun_part_eq] at hm
        cases hcd : headerGet headers "content-disposition" with
        | none =>
          rw [hcd] at hm
          exact ih _ _ _ _ _ h hm
        | some key =>
          rw [hcd] at hm
          dsimp only [] at hm
          cases hA : (decide (key = "") ||
              decide (¬ (List.isPrefixOf
                ['f', 'o', 'r', 'm', '-', 'd', 'a', 't', 'a'] key.data = true))) <;>
            simp only [hA, Bool.false_eq_true, Bool.true_eq_false,
              eq_self_iff_true, if_true, if_false, ite_true, ite_false] at hm
          case true => exact ih _ _ _ _ _ h hm
          case false =>
          cases hB : (match cfg.allowedContentTypes with
              | some allowed =>
                allowed.contains
                  (match headerGet headers "content-type" with
                  | some s => if s = "" then "text/plain" else s
                  | none => "text/plain")
              | none => true) <;>
            simp only [hB, Bool.false_eq_true, Bool.true_eq_false,
              eq_self_iff_true, if_true, if_false, ite_true, ite_false] at hm
          case false => exact (throw_some_ok_elim hm).elim
          case true =>
          by_cases hC : cfg.maxKeys ≤ st.keyCount + 1
          · rw [if_pos hC] at hm
            exact (throw_some_ok_elim hm).elim
          · rw [if_neg hC] at hm
            cases hD : containsSub key.data
                [';', ' ', 'f', 'i', 'l', 'e', 'n', 'a', 'm', 'e', '='] <;>
              simp only [hD, Bool.false_eq_true, Bool.true_eq_false,
                eq_self_iff_true, if_true, if_false, ite_true, ite_false] at hm
            · by_cases hE : cfg.maxFiles ≤ st.fileCount
              · rw [if_pos hE] at hm
                exact (throw_some_ok_elim hm).elim
              · rw [if_neg hE] at hm
                cases hF : nameCapture key with
                | none =>
                  rw [hF] at hm
                  dsimp only [Option.map_none'] at hm
                  exact ih _ _ _ _ _ h hm
                | some kn =>
                  rw [hF] at hm
                  dsimp only [Option.map_some'] at hm
                  by_cases hG : kn = ""
                  · rw [if_pos hG] at hm
                    exact ih _ _ _ _ _ h hm
                  · rw [if_neg hG] at hm
                    rw [if_neg (by simp)] at hm
                    by_cases hI : kn = "__proto__"
                    · rw [if_pos hI] at hm
                      exact (throw_some_ok_elim hm).elim
                    · rw [if_neg hI] at hm
                      by_cases hJ : cfg.maxKeyLength < kn.length
                      · rw [if_pos hJ] at hm
                        exact (throw_some_ok_elim hm).elim
                      · rw [if_neg hJ] at hm
                        cases sub with
                        | none =>
                          dsimp only [pure, Except.pure] at hm
                          cases body with
                          | none =>
                            dsimp only [] at hm
                            cases hL : assignNestedValue ret
                                (extractNestedKey kn) (JValue.str "") with
                            | error e =>
                              rw [hL] at hm
                              exact (throw_some_ok_elim hm).elim
                            | ok ret' =>
                              rw [hL] at hm
                              exact ih _ _ _ _ _
                                (noProto_assignGo _ _ _ _ _ h (by simp [noProtoV]) hL) hm
                          | some content =>
                            dsimp only [] at hm
                            cases hL : assignNestedValue ret
                                (extractNestedKey kn)
                                (possibleCast content cfg).toJValue with
                            | error e =>
                              rw [hL] at hm
                              exact (throw_some_ok_elim hm).elim
                            | ok ret' =>
                              rw [hL] at hm
                              exact ih _ _ _ _ _
                                (noProto_assignGo _ _ _ _ _ h (noProto_scalar _) hL) hm
                        | some items =>
                          dsimp only [] at hm
                          by_cases hK : cfg.maxDepth ≤ st.depth + 1
                          · rw [if_pos hK] at hm
                            dsimp only [throw, throwThe, MonadExceptOf.throw] at hm
                            exact (throw_some_ok_elim hm).elim
                          · rw [if_neg hK] at hm
                            cases hrec : mpRun cfg fuel
                                { depth := st.depth + 1, keyCount := st.keyCount + 1,
                                  fileCount := st.fileCount }
                                (JValue.obj []) items with
                            | none =>
                              rw [hrec] at hm
                              cases hm
                            | some exc =>
                              rw [hrec] at hm
                              cases exc with
                              | error e =>
                                dsimp only [throw, throwThe, MonadExceptOf.throw] at hm
                                exact (throw_some_ok_elim hm).elim
                              | ok p =>
                                obtain ⟨v, st3⟩ := p
                                dsimp only [pure, Except.pure] at hm
                                have hv := ih _ _ _ _ _ noProto_empty_obj hrec
                                cases hL : assignNestedValue ret
                                    (extractNestedKey kn) v with
                                | error e =>
                                  rw [hL] at hm
                                  exact (throw_some_ok_elim hm).elim
                                | ok ret' =>
                                  rw [hL] at hm
                                  exact ih _ _ _ _ _
                                    (noProto_assignGo _ _ _ _ _ h hv hL) hm
            · by_cases hE : cfg.maxFiles ≤ st.fileCount + 1
              · rw [if_pos hE] at hm
                exact (throw_some_ok_elim hm).elim
              · rw [if_neg hE] at hm
                cases hF : nameFilenameCapture key with
                | none =>
                  rw [hF] at hm
                  dsimp only [Option.map_none'] at hm
                  exact ih _ _ _ _ _ h hm
                | some p =>
                  obtain ⟨kn, fname⟩ := p
                  rw [hF] at hm
                  dsimp only [Option.map_some', Option.getD_some] at hm
                  by_cases hG : kn = ""
                  · rw [if_pos hG] at hm
                    exact ih _ _ _ _ _ h hm
                  · rw [if_neg hG] at hm
                    by_cases hH : cfg.maxFilenameLength < fname.length
                    · rw [if_pos hH] at hm
                      exact (throw_some_ok_elim hm).elim
                    · rw [if_neg hH] at hm
                      by_cases hI : kn = "__proto__"
                      · rw [if_pos hI] at hm
                        exact (throw_some_ok_elim hm).elim
                      · rw [if_neg hI] at hm
                        by_cases hJ : cfg.maxKeyLength < kn.length
                        · rw [if_pos hJ] at hm
                          exact (throw_some_ok_elim hm).elim
                        · rw [if_neg hJ] at hm
                          cases sub with
                          | none =>
                            dsimp only [pure, Except.pure] at hm
                            cases body with
                            | none =>
                              dsimp only [] at hm
                              cases hL : assignNestedValue ret
                                  (extractNestedKey kn) (JValue.str "") with
                              | error e =>
                                rw [hL] at hm
                                exact (throw_some_ok_elim hm).elim
                              | ok ret' =>
                                rw [hL] at hm
                                exact ih _ _ _ _ _
                                  (noProto_assignGo _ _ _ _ _ h (by simp [noProtoV]) hL) hm
                            | some content =>
                              dsimp only [] at hm
                              cases hL : assignNestedValue ret
                                  (extractNestedKey kn)
                                  (JValue.file fname
                                    (match headerGet headers "content-type" with
                                    | some s => if s = "" then "text/plain" else s
                                    | none => "text/plain")
                                    content []) with
                              | error e =>
                                rw [hL] at hm
                                exact (throw_some_ok_elim hm).elim
                              | ok ret' =>
                                rw [hL] at hm
                                exact ih _ _ _ _ _
                                  (noProto_assignGo _ _ _ _ _ h
                                    (by simp [noProtoV, noProtoFields]) hL) hm
                          | some items =>
                            dsimp only [] at hm
                            by_cases hK : cfg.maxDepth ≤ st.depth + 1
                            · rw [if_pos hK] at hm
                              dsimp only [throw, throwThe, MonadExceptOf.throw] at hm
                              exact (throw_some_ok_elim hm).elim
                            · rw [if_neg hK] at hm
                              cases hrec : mpRun cfg fuel
                                  { depth := st.depth + 1, keyCount := st.keyCount + 1,
                                    fileCount := st.fileCount + 1 }
                                  (JValue.obj []) items with
                              | none =>
                                rw [hrec] at hm
                                cases hm
                              | some exc =>
                                rw [hrec] at hm
                                cases exc with
                                | error e =>
                                  dsimp only [throw, throwThe, MonadExceptOf.throw] at hm
                                  exact (throw_some_ok_elim hm).elim
                                | ok q =>
                                  obtain ⟨v, st3⟩ := q
                                  dsimp only [pure, Except.pure] at hm
                                  have hv := ih _ _ _ _ _ noProto_empty_obj hrec
                                  cases hL : assignNestedValue ret
                                      (extractNestedKey kn) v with
                                  | error e =>
                                    rw [hL] at hm
                                    exact (throw_some_ok_elim hm).elim
                                  | ok ret' =>
                                    rw [hL] at hm
                                    exact ih _ _ _ _ _
                                      (noProto_assignGo _ _ _ _ _ h hv hL) hm

theorem noProto_formDataParseF {fuel : Nat} {cfg : Config} {items : List MItem}
    {v : JValue} (h : formDataParseF fuel cfg items = some (.ok v)) :
    noProtoV v = true := by
  unfold formDataParseF at h
  dsimp only [] at h
  by_cases hd : cfg.maxDepth ≤ 1
  · rw [if_pos hd] at h
    exact (throw_some_ok_elim h).elim
  · rw [if_neg hd] at h
    cases hrec : mpRun cfg fuel ⟨1, 0, 0⟩ (.obj []) items with
    | none =>
      rw [hrec] at h
      cases h
    | some exc =>
      rw [hrec] at h
      cases exc with
      | error e =>
        dsimp only [throw, throwThe, MonadExceptOf.throw] at h
        exact (throw_some_ok_elim h).elim
      | ok q =>
        obtain ⟨v', st'⟩ := q
        dsimp only [pure, Except.pure] at h
        have hv := noProto_mpRun _ _ _ _ _ _ noProto_empty_obj hrec
        simp only [Option.some.injEq, Except.ok.injEq] at h
        rw [← h]
        exact hv

theorem sumLen_cons (c : List Nat) (rest : List (List Nat)) :
    sumLen (c :: rest) = c.length + sumLen rest := by
  simp [sumLen]

theorem byteCountStep_ok {maxSize bytes : Nat} {c : List Nat} {b' : Nat}
    (h : byteCountStep maxSize bytes c = .ok b') :
    b' = bytes + c.length ∧ bytes + c.length ≤ maxSize := by
  unfold byteCountStep at h
  dsimp only [] at h
  by_cases hlt : maxSize < bytes + c.length
  · rw [if_pos hlt] at h
    cases h
  · rw [if_neg hlt] at h
    exact ⟨(pure_ok_eq h).symm, by omega⟩

theorem byteCountStep_ok_of_le {maxSize bytes : Nat} {c : List Nat}
    (h : bytes + c.length ≤ maxSize) :
    byteCountStep maxSize bytes c = .ok (bytes + c.length) := by
  unfold byteCountStep
  dsimp only []
  rw [if_neg (by omega)]
  rfl

theorem byteCountStep_err_of_lt {maxSize bytes : Nat} {c : List Nat}
    (h : maxSize < bytes + c.length) :
    byteCountStep maxSize bytes c = .error .maxSizeExceeded := by
  unfold byteCountStep
  dsimp only []
  rw [if_pos h]
  rfl

theorem byteCounterRun_ok {maxSize : Nat} :
    ∀ (chunks : List (List Nat)) (bytes : Nat),
    bytes + sumLen chunks ≤ maxSize →
    byteCounterRun maxSize bytes chunks = .ok chunks := by
  intro chunks
  induction chunks with
  | nil =>
    intro bytes h
    rfl
  | cons c rest ih =>
    intro bytes h
    rw [sumLen_cons] at h
    unfold byteCounterRun
    rw [byteCountStep_ok_of_le (by omega)]
    simp only [Bind.bind, Except.bind]
    rw [ih (bytes + c.length) (by omega)]
    rfl

theorem byteCounterRun_err {maxSize : Nat} :
    ∀ (chunks : List (List Nat)) (bytes : Nat), bytes ≤ maxSize →
    maxSize < bytes + sumLen chunks →
    byteCounterRun maxSize bytes chunks = .error .maxSizeExceeded := by
  intro chunks
  induction chunks with
  | nil =>
    intro bytes hle hlt
    rw [sumLen] at hlt
    simp at hlt
    omega
  | cons c rest ih =>
    intro bytes hle hlt
    rw [sumLen_cons] at hlt
    unfold byteCounterRun
    by_cases hc : maxSize < bytes + c.length
    · rw [byteCountStep_err_of_lt hc]
      rfl
    · rw [byteCountStep_ok_of_le (by omega)]
      simp only [Bind.bind, Except.bind]
      rw [ih (bytes + c.length) (by omega) (by omega)]

theorem urlRunChunks_ok_size {cfg : Config} :
    ∀ (chunks : List (List Nat)) (bytes : Nat) (st : UrlState) (obj : JValue)
    (out : Nat × UrlState × JValue), bytes ≤ cfg.maxSize →
    urlRunChunks cfg bytes st obj chunks = .ok out →
    bytes + sumLen chunks ≤ cfg.maxSize := by
  intro chunks
  induction chunks with
  | nil =>
    intro bytes st obj out hle _
    rw [sumLen]
    simpa using hle
  | cons c rest ih =>
    intro bytes st obj out hle h
    rw [sumLen_cons]
    unfold urlRunChunks at h
    obtain ⟨b1, h1, h⟩ := bind_ok_extract h
    obtain ⟨hb1, hlen⟩ := byteCountStep_ok h1
    obtain ⟨so, h2, h⟩ := bind_ok_extract h
    obtain ⟨st1, r1⟩ := so
    have hrec := ih b1 st1 r1 out (by omega) h
    omega

theorem urlParse_ok_size {cfg : Config} {chunks : List (List Nat)}
    {r : JValue} (h : urlParse cfg chunks = .ok r) :
    sumLen chunks ≤ cfg.maxSize := by
  unfold urlParse at h
  obtain ⟨so, h1, _⟩ := bind_ok_extract h
  have := urlRunChunks_ok_size chunks 0 urlInit (.obj []) so
    (Nat.zero_le _) h1
  omega

theorem jsonChunksRun_cons (cfg : Config) (bytes : Nat) (st : JState)
    (len : Nat) (evs : List JEvent) (rest : List (Nat × List JEvent)) :
    jsonChunksRun cfg bytes st ((len, evs) :: rest) =
      if cfg.maxSize < bytes + len then .inr (throw .maxSizeExceeded)
      else
        match jsonEventsRun cfg st evs with
        | (_, some out) => .inr out
        | (st', none) => jsonChunksRun cfg (bytes + len) st' rest := rfl

theorem jsonChunksRun_append {cfg : Config} :
    ∀ (a b : List (Nat × List JEvent)) (bytes : Nat) (st : JState),
    jsonChunksRun cfg bytes st (a ++ b) =
      match jsonChunksRun cfg bytes st a with
      | .inl (bytes', st') => jsonChunksRun cfg bytes' st' b
      | .inr out => .inr out := by
  intro a
  induction a with
  | nil =>
    intro b bytes st
    rfl
  | cons c rest ih =>
    intro b bytes st
    obtain ⟨len, evs⟩ := c
    rw [List.cons_append, jsonChunksRun_cons, jsonChunksRun_cons]
    by_cases hs : cfg.maxSize < bytes + len
    · rw [if_pos hs, if_pos hs]
    · rw [if_neg hs, if_neg hs]
      cases hrun : jsonEventsRun cfg st evs with
      | mk st1 out =>
        cases out with
        | none =>
          dsimp only []
          exact ih b (bytes + len) st1
        | some o =>
          dsimp only []

theorem json_guard_settles {cfg : Config} {a : List (Nat × List JEvent)}
    {bytes : Nat} {st : JState} {len : Nat} {evs : List JEvent}
    {rest : List (Nat × List JEvent)}
    (ha : jsonChunksRun cfg 0 ⟨0, 0⟩ a = .inl (bytes, st))
    (hsz : cfg.maxSize < bytes + len) :
    jsonParse cfg (a ++ (len, evs) :: rest) =
      some (.error .maxSizeExceeded) := by
  unfold jsonParse
  rw [jsonChunksRun_append, ha]
  dsimp only []
  rw [jsonChunksRun_cons, if_pos hsz]
  rfl

theorem mpRun_streamFail_not_ok {cfg : Config} :
    ∀ (fuel : Nat) (st : MState) (ret : JValue) (ps : List MItem) (e : Err)
    (r : JValue) (st' : MState),
    mpRun cfg fuel st ret (ps ++ [.streamFail e]) = some (.ok (r, st')) →
    False := by
  intro fuel
  induction fuel with
  | zero =>
    intro st ret ps e r st' hm
    cases ps with
    | nil =>
      rw [List.nil_append, mpRun_fail_eq] at hm
      exact throw_some_ok_elim hm
    | cons it rest =>
      cases it with
      | streamFail e2 =>
        rw [List.cons_append, mpRun_fail_eq] at hm
        exact throw_some_ok_elim hm
      | part headers body sub =>
        rw [List.cons_append, mpRun_zero_part] at hm
        cases hm
  | succ fuel ih =>
    intro st ret ps e r st' hm
    cases ps with
    | nil =>
      rw [List.nil_append, mpRun_fail_eq] at hm
      exact throw_some_ok_elim hm
    | cons it rest =>
      cases it with
      | streamFail e2 =>
        rw [List.cons_append, mpRun_fail_eq] at hm
        exact throw_some_ok_elim hm
      | part headers body sub =>
        rw [List.cons_append] at hm
        rw [mpRun_part_eq] at hm
        cases hcd : headerGet headers "content-disposition" with
        | none =>
          rw [hcd] at hm
          exact ih _ _ _ _ _ _ hm
        | some key =>
          rw [hcd] at hm
          dsimp only [] at hm
          cases hA : (decide (key = "") ||
              decide (¬ (List.isPrefixOf
                ['f', 'o', 'r', 'm', '-', 'd', 'a', 't', 'a'] key.data = true))) <;>
            simp only [hA, Bool.false_eq_true, Bool.true_eq_false,
              eq_self_iff_true, if_true, if_false, ite_true, ite_false] at hm
          case true => exact ih _ _ _ _ _ _ hm
          case false =>
          cases hB : (match cfg.allowedContentTypes with
              | some allowed =>
                allowed.contains
                  (match headerGet headers "content-type" with
                  | some s => if s = "" then "text/plain" else s
                  | none => "text/plain")
              | none => true) <;>
            simp only [hB, Bool.false_eq_true, Bool.true_eq_false,
              eq_self_iff_true, if_true, if_false, ite_true, ite_false] at hm
          case false => exact (throw_some_ok_elim hm).elim
          case true =>
          by_cases hC : cfg.maxKeys ≤ st.keyCount + 1
          · rw [if_pos hC] at hm
            exact throw_some_ok_elim hm
          · rw [if_neg hC] at hm
            cases hD : containsSub key.data
                [';', ' ', 'f', 'i', 'l', 'e', 'n', 'a', 'm', 'e', '='] <;>
              simp only [hD, Bool.false_eq_true, Bool.true_eq_false,
                eq_self_iff_true, if_true, if_false, ite_true, ite_false] at hm
            · by_cases hE : cfg.maxFiles ≤ st.fileCount
              · rw [if_pos hE] at hm
                exact throw_some_ok_elim hm
              · rw [if_neg hE] at hm
                cases hF : nameCapture key with
                | none =>
                  rw [hF] at hm
                  dsimp only [Option.map_none'] at hm
                  exact ih _ _ _ _ _ _ hm
                | some kn =>
                  rw [hF] at hm
                  dsimp only [Option.map_some'] at hm
                  by_cases hG : kn = ""
                  · rw [if_pos hG] at hm
                    exact ih _ _ _ _ _ _ hm
                  · rw [if_neg hG] at hm
                    rw [if_neg (by simp)] at hm
                    by_cases hI : kn = "__proto__"
                    · rw [if_pos hI] at hm
                      exact throw_some_ok_elim hm
                    · rw [if_neg hI] at hm
                      by_cases hJ : cfg.maxKeyLength < kn.length
                      · rw [if_pos hJ] at hm
                        exact throw_some_ok_elim hm
                      · rw [if_neg hJ] at hm
                        cases sub with
                        | none =>
                          dsimp only [pure, Except.pure] at hm
                          cases body with
                          | none =>
                            dsimp only [] at hm
                            cases hL : assignNestedValue ret
                                (extractNestedKey kn) (JValue.str "") with
                            | error e =>
                              rw [hL] at hm
                              exact throw_some_ok_elim hm
                            | ok ret' =>
                              rw [hL] at hm
                              exact ih _ _ _ _ _ _ hm
                          | some content =>
                            dsimp only [] at hm
                            cases hL : assignNestedValue ret
                                (extractNestedKey kn)
                                (possibleCast content cfg).toJValue with
                            | error e =>
                              rw [hL] at hm
                              exact throw_some_ok_elim hm
                            | ok ret' =>
                              rw [hL] at hm
                              exact ih _ _ _ _ _ _ hm
                        | some items =>
                          dsimp only [] at hm
                          by_cases hK : cfg.maxDepth ≤ st.depth + 1
                          · rw [if_pos hK] at hm
                            dsimp only [throw, throwThe, MonadExceptOf.throw] at hm
                            exact throw_some_ok_elim hm
                          · rw [if_neg hK] at hm
                            cases hrec : mpRun cfg fuel
                                { depth := st.depth + 1, keyCount := st.keyCount + 1,
                                  fileCount := st.fileCount }
                                (JValue.obj []) items with
                            | none =>
                              rw [hrec] at hm
                              cases hm
                            | some exc =>
                              rw [hrec] at hm
                              cases exc with
                              | error e =>
                                dsimp only [throw, throwThe, MonadExceptOf.throw] at hm
                                exact throw_some_ok_elim hm
                              | ok p =>
                                obtain ⟨v, st3⟩ := p
                                dsimp only [pure, Except.pure] at hm
                                cases hL : assignNestedValue ret
                                    (extractNestedKey kn) v with
                                | error e =>
                                  rw [hL] at hm
                                  exact throw_some_ok_elim hm
                                | ok ret' =>
                                  rw [hL] at hm
                                  exact ih _ _ _ _ _ _ hm
            · by_cases hE : cfg.maxFiles ≤ st.fileCount + 1
              · rw [if_pos hE] at hm
                exact throw_some_ok_elim hm
              · rw [if_neg hE] at hm
                cases hF : nameFilenameCapture key with
                | none =>
                  rw [hF] at hm
                  dsimp only [Option.map_none'] at hm
                  exact ih _ _ _ _ _ _ hm
                | some p =>
                  obtain ⟨kn, fname⟩ := p
                  rw [hF] at hm
                  dsimp only [Option.map_some', Option.getD_some] at hm
                  by_cases hG : kn = ""
                  · rw [if_pos hG] at hm
                    exact ih _ _ _ _ _ _ hm
                  · rw [if_neg hG] at hm
                    by_cases hH : cfg.maxFilenameLength < fname.length
                    · rw [if_pos hH] at hm
                      exact throw_some_ok_elim hm
                    · rw [if_neg hH] at hm
                      by_cases hI : kn = "__proto__"
                      · rw [if_pos hI] at hm
                        exact throw_some_ok_elim hm
                      · rw [if_neg hI] at hm
                        by_cases hJ : cfg.maxKeyLength < kn.length
                        · rw [if_pos hJ] at hm
                          exact throw_some_ok_elim hm
                        · rw [if_neg hJ] at hm
                          cases sub with
                          | none =>
                            dsimp only [pure, Except.pure] at hm
                            cases body with
                            | none =>
                              dsimp only [] at hm
                              cases hL : assignNestedValue ret
                                  (extractNestedKey kn) (JValue.str "") with
                              | error e =>
                                rw [hL] at hm
                                exact throw_some_ok_elim hm
                              | ok ret' =>
                                rw [hL] at hm
                                exact ih _ _ _ _ _ _ hm
                            | some content =>
                              dsimp only [] at hm
                              cases hL : assignNestedValue ret
                                  (extractNestedKey kn)
                                  (JValue.file fname
                                    (match headerGet headers "content-type" with
                                    | some s => if s = "" then "text/plain" else s
                                    | none => "text/plain")
                                    content []) with
                              | error e =>
                                rw [hL] at hm
                                exact throw_some_ok_elim hm
                              | ok ret' =>
                                rw [hL] at hm
                                exact ih _ _ _ _ _ _ hm
                          | some items =>
                            dsimp only [] at hm
                            by_cases hK : cfg.maxDepth ≤ st.depth + 1
                            · rw [if_pos hK] at hm
                              dsimp only [throw, throwThe, MonadExceptOf.throw] at hm
                              exact throw_some_ok_elim hm
                            · rw [if_neg hK] at hm
                              cases hrec : mpRun cfg fuel
                                  { depth := st.depth + 1, keyCount := st.keyCount + 1,
                                    fileCount := st.fileCount + 1 }
                                  (JValue.obj []) items with
                              | none =>
                                rw [hrec] at hm
                                cases hm
                              | some exc =>
                                rw [hrec] at hm
                                cases exc with
                                | error e =>
                                  dsimp only [throw, throwThe, MonadExceptOf.throw] at hm
                                  exact throw_some_ok_elim hm
                                | ok q =>
                                  obtain ⟨v, st3⟩ := q
                                  dsimp only [pure, Except.pure] at hm
                                  cases hL : assignNestedValue ret
                                      (extractNestedKey kn) v with
                                  | error e =>
                                    rw [hL] at hm
                                    exact throw_some_ok_elim hm
                                  | ok ret' =>
                                    rw [hL] at hm
                                    exact ih _ _ _ _ _ _ hm

theorem formDataParseF_streamFail_not_ok {fuel : Nat} {cfg : Config}
    {ps : List MItem} {e : Err} {v : JValue}
    (h : formDataParseF fuel cfg (ps ++ [.streamFail e]) = some (.ok v)) :
    False := by
  unfold formDataParseF at h
  dsimp only [] at h
  by_cases hd : cfg.maxDepth ≤ 1
  · rw [if_pos hd] at h
    exact throw_some_ok_elim h
  · rw [if_neg hd] at h
    cases hrec : mpRun cfg fuel ⟨1, 0, 0⟩ (.obj []) (ps ++ [.streamFail e]) with
    | none =>
      rw [hrec] at h
      cases h
    | some exc =>
      rw [hrec] at h
      cases exc with
      | error e2 =>
        dsimp only [throw, throwThe, MonadExceptOf.throw] at h
        exact throw_some_ok_elim h
      | ok q =>
        obtain ⟨v', st'⟩ := q
        exact mpRun_streamFail_not_ok fuel _ _ ps e v' st' hrec

theorem urlProcessPair_proto {cfg : Config} {obj : JValue} {p : UPair}
    (hk : p.key ≠ "") (hkc : ¬ cfg.maxKeys < p.keyCount)
    (hkl : ¬ cfg.maxKeyLength < p.key.length)
    (hproto : (extractNestedKey p.key).contains "__proto__" = true) :
    urlProcessPair cfg obj p = .error .invalidInput := by
  unfold urlProcessPair
  rw [if_neg hk, if_neg hkc, if_neg hkl]
  dsimp only []
  rw [hproto]
  rfl

theorem formDataParseF_proto (body : Option String) :
    formDataParseF 100 cfgBase
      [.part [("content-disposition", "form-data; name=\"__proto__\"")]
        body none] = some (.error .invalidInput) := rfl

theorem urlParse_proto_pair :
    urlParse cfgBase [asciiBytes "a.__proto__.b=1"] = .error .invalidInput ∧
    urlParse cfgBase [asciiBytes "__proto__=a"] = .error .invalidInput := by
  exact ⟨rfl, rfl⟩



theorem jsonEventsRun_cons (cfg : Config) (st : JState) (e : JEvent)
    (rest : List JEvent) :
    jsonEventsRun cfg st (e :: rest) =
      match jsonEventStep cfg st e with
      | (st', some out) => (st', some out)
      | (st', none) => jsonEventsRun cfg st' rest := rfl

theorem jsonRun_lbrace {cfg : Config} {kc : Nat} {dep : Int}
    (rest : List JEvent) (h : ¬ ((cfg.maxDepth : Int) < dep + 1)) :
    jsonEventsRun cfg ⟨kc, dep⟩ (.tok .lbrace :: rest) =
      jsonEventsRun cfg ⟨kc, dep + 1⟩ rest := by
  rw [jsonEventsRun_cons]
  simp only [jsonEventStep, if_neg h]

theorem jsonRun_other (cfg : Config) (st : JState) (rest : List JEvent) :
    jsonEventsRun cfg st (.tok .other :: rest) =
      jsonEventsRun cfg st rest := rfl

theorem jsonRun_colon {cfg : Config} {kc : Nat} {dep : Int}
    (rest : List JEvent) (h : ¬ (cfg.maxKeys < kc + 1)) :
    jsonEventsRun cfg ⟨kc, dep⟩ (.tok .colon :: rest) =
      jsonEventsRun cfg ⟨kc + 1, dep⟩ rest := by
  rw [jsonEventsRun_cons]
  simp only [jsonEventStep, if_neg h]

theorem jsonRun_proto (cfg : Config) (st : JState) (d : Nat) (v : JValue)
    (rest : List JEvent) :
    jsonEventsRun cfg st (.value (some (.str "__proto__")) d v :: rest) =
      (st, some (throw .invalidInput)) := by
  rw [jsonEventsRun_cons]
  simp only [jsonEventStep, eq_self_iff_true, if_true]

theorem jsonEventsRun_proto {cfg : Config} :
    ∀ (n kc : Nat) (dep : Int) (d : Nat),
    kc + (n + 1) ≤ cfg.maxKeys → dep + (n + 1) ≤ (cfg.maxDepth : Int) →
    (jsonEventsRun cfg ⟨kc, dep⟩ (protoEvents n d)).2 =
      some (throw .invalidInput) := by
  intro n
  induction n with
  | zero =>
    intro kc dep d hk hd
    rw [protoEvents, jsonRun_lbrace _ (by omega), jsonRun_other,
      jsonRun_colon _ (by omega), jsonRun_other, jsonRun_proto]
  | succ n ih =>
    intro kc dep d hk hd
    rw [protoEvents, jsonRun_lbrace _ (by omega), jsonRun_other,
      jsonRun_colon _ (by omega)]
    exact ih (kc + 1) (dep + 1) d (by omega) (by omega)

theorem jsonParse_proto {cfg : Config} {n L d : Nat}
    (hk : n + 1 ≤ cfg.maxKeys) (hd : (n : Int) + 1 ≤ (cfg.maxDepth : Int))
    (hs : L ≤ cfg.maxSize) :
    jsonParse cfg [(L, protoEvents n d)] = some (.error .invalidInput) := by
  unfold jsonParse
  rw [jsonChunksRun_cons, if_neg (by omega : ¬ cfg.maxSize < 0 + L)]
  cases hrun : jsonEventsRun cfg ⟨0, 0⟩ (protoEvents n d) with
  | mk st1 out =>
    have h2 := @jsonEventsRun_proto cfg n 0 0 d (by omega) (by omega)
    rw [hrun] at h2
    dsimp only [] at h2
    subst h2
    rfl

theorem formDataParseF_depth1 {cfg : Config} (h : cfg.maxDepth ≤ 1)
    (fuel : Nat) (items : List MItem) :
    formDataParseF fuel cfg items = some (.error .tooDeep) := by
  unfold formDataParseF
  dsimp only []
  rw [if_pos h]
  rfl

theorem formDataParseF_nested_depth2 :
    formDataParseF 100 { cfgBase with maxDepth := 2 }
      [.part [("content-disposition", "form-data; name=\"a\"")] none
        (some [.part [("content-disposition", "form-data; name=\"b\"")]
          (some "1") none])] = some (.error .tooDeep) := rfl

theorem deepNameChars_length (d : Nat) :
    (deepNameChars d).length = 2 * d + 1 := by
  induction d with
  | zero => rfl
  | succ d ih =>
    rw [deepNameChars]
    simp only [List.length_cons, ih]
    omega

theorem extract_deep (d : Nat) :
    extractNestedKey ⟨deepNameChars d⟩ = List.replicate (d + 1) "a" := by
  have gen : ∀ n, extractNestedKeyChars (deepNameChars n) [] =
      List.replicate (n + 1) "a" := by
    intro n
    induction n with
    | zero => rfl
    | succ n ih =>
      rw [deepNameChars]
      show extractNestedKeyChars ('.' :: deepNameChars n) ['a'] =
        List.replicate (n + 1 + 1) "a"
      rw [List.replicate_succ]
      show "a" :: extractNestedKeyChars (deepNameChars n) [] =
        "a" :: List.replicate (n + 1) "a"
      rw [ih]
  exact gen d

theorem assign_chain {v : JValue} : ∀ (n : Nat) (full : List String),
    assignGo (.obj []) (List.replicate (n + 1) "a") full v =
      .ok (chainObj (n + 1) v) := by
  intro n
  induction n with
  | zero =>
    intro full
    rfl
  | succ n ih =>
    intro full
    rw [List.replicate_succ]
    unfold assignGo
    rw [show parseSegment "a" = some ("a", none) from rfl]
    dsimp only []
    rw [if_neg (by simp : ¬ (List.replicate (n + 1) "a" = []))]
    rw [show isTruthy (getProp (JValue.obj []) "a") = false from rfl]
    simp only [Bool.false_eq_true, if_false, ite_false, Bind.bind, Except.bind,
      pure, Except.pure]
    rw [show setProp (JValue.obj []) "a" (JValue.obj []) =
      .ok (.obj [("a", .obj [])]) from rfl]
    dsimp only []
    rw [show (getProp (JValue.obj [("a", JValue.obj [])]) "a").getD
      (JValue.obj []) = JValue.obj [] from rfl]
    rw [ih full]
    rw [show chainObj (n + 1 + 1) v = .obj [("a", chainObj (n + 1) v)] from rfl]
    rfl



theorem mpRun_single_flat {cfg : Config} {fuel : Nat} {st : MState}
    {ret : JValue} {key name : String} {body : Option String}
    (h1 : (decide (key = "") ||
      decide (¬ (List.isPrefixOf
        ['f', 'o', 'r', 'm', '-', 'd', 'a', 't', 'a'] key.data = true))) = false)
    (hct : cfg.allowedContentTypes = none)
    (hmk : ¬ cfg.maxKeys ≤ st.keyCount + 1)
    (hisf : containsSub key.data
      [';', ' ', 'f', 'i', 'l', 'e', 'n', 'a', 'm', 'e', '='] = false)
    (hmf : ¬ cfg.maxFiles ≤ st.fileCount)
    (hnc : nameCapture key = some name)
    (hne : ¬ name = "")
    (hnp : ¬ name = "__proto__")
    (hnl : ¬ cfg.maxKeyLength < name.length) :
    mpRun cfg (fuel + 1) st ret
      [.part [("content-disposition", key)] body none] =
      match assignNestedValue ret (extractNestedKey name)
          (match body with
           | some content => (possibleCast content cfg).toJValue
           | none => JValue.str "") with
      | .error e => some (throw e)
      | .ok ret' =>
        some (pure (ret',
          ⟨st.depth, st.keyCount + 1, st.fileCount⟩)) := by
  rw [mpRun_part_eq]
  rw [show headerGet [("content-disposition", key)] "content-disposition" =
    some key from rfl]
  dsimp only []
  rw [h1]
  simp only [Bool.false_eq_true, if_false, ite_false]
  rw [hct]
  dsimp only []
  simp only [Bool.true_eq_false, if_false, ite_false]
  rw [if_neg hmk]
  rw [hisf]
  simp only [Bool.false_eq_true, if_false, ite_false]
  rw [if_neg hmf]
  rw [hnc]
  dsimp only [Option.map_some']
  rw [if_neg hne]
  rw [if_neg (by simp : ¬ cfg.maxFilenameLength < ((none : Option String).getD "").length)]
  rw [if_neg hnp, if_neg hnl]
  dsimp only [pure, Except.pure]
  simp only [mpRun_nil_eq]
  rfl



theorem firstIndexOfSub_head_hit {hay needle : List Char}
    (h : needle.isPrefixOf hay = true) :
    firstIndexOfSub hay needle = some 0 := by
  unfold firstIndexOfSub
  rw [if_pos h]

theorem firstIndexOfSub_head_miss {c : Char} {rest needle : List Char}
    (h : needle.isPrefixOf (c :: rest) = false) :
    firstIndexOfSub (c :: rest) needle =
      match firstIndexOfSub rest needle with
      | some i => some (i + 1)
      | none => none := by
  conv_lhs => unfold firstIndexOfSub
  rw [if_neg (by simp [h])]

theorem firstIndexOfSub_wrap (tail : List Char) :
    firstIndexOfSub (("form-data; name=\"").data ++ tail)
      (("name=\"").data) = some 11 := by
  rw [show ("form-data; name=\"").data ++ tail =
    'f' :: 'o' :: 'r' :: 'm' :: '-' :: 'd' :: 'a' :: 't' :: 'a' :: ';' :: ' ' ::
    ('n' :: 'a' :: 'm' :: 'e' :: '=' :: '"' :: tail) from rfl]
  rw [firstIndexOfSub_head_miss (by simp [List.isPrefixOf])]
  rw [firstIndexOfSub_head_miss (by simp [List.isPrefixOf])]
  rw [firstIndexOfSub_head_miss (by simp [List.isPrefixOf])]
  rw [firstIndexOfSub_head_miss (by simp [List.isPrefixOf])]
  rw [firstIndexOfSub_head_miss (by simp [List.isPrefixOf])]
  rw [firstIndexOfSub_head_miss (by simp [List.isPrefixOf])]
  rw [firstIndexOfSub_head_miss (by simp [List.isPrefixOf])]
  rw [firstIndexOfSub_head_miss (by simp [List.isPrefixOf])]
  rw [firstIndexOfSub_head_miss (by simp [List.isPrefixOf])]
  rw [firstIndexOfSub_head_miss (by simp [List.isPrefixOf])]
  rw [firstIndexOfSub_head_miss (by simp [List.isPrefixOf])]
  rw [firstIndexOfSub_head_hit (by simp [List.isPrefixOf])]

theorem lastQuoteEnd_wrap (name : String) :
    lastQuoteEnd (("form-data; name=\"").data ++ (name.data ++ ['"'])) =
      some (name.length + 18) := by
  unfold lastQuoteEnd
  rw [show (("form-data; name=\"").data ++ (name.data ++ ['"'])).reverse =
    '"' :: (name.data.reverse ++ ("form-data; name=\"").data.reverse) from by
      simp]
  rw [firstIndexOfSub_head_hit (by simp [List.isPrefixOf])]
  dsimp only []
  congr 1
  rw [List.length_append, List.length_append]
  rw [show ("form-data; name=\"").data.length = 17 from rfl]
  rw [show (['"'] : List Char).length = 1 from rfl]
  rw [show name.data.length = name.length from rfl]
  omega

theorem nameCapture_wrap (name : String) :
    nameCapture ("form-data; name=\"" ++ name ++ "\"") = some name := by
  unfold nameCapture
  dsimp only []
  rw [String.data_append, String.data_append]
  rw [show ("\"" : String).data = ['"'] from rfl]
  rw [List.append_assoc]
  rw [firstIndexOfSub_wrap]
  dsimp only []
  rw [lastQuoteEnd_wrap]
  dsimp only []
  rw [if_pos (by omega : 11 + 6 < name.length + 18)]
  rw [show (11 + 6 : Nat) =
    (['f', 'o', 'r', 'm', '-', 'd', 'a', 't', 'a', ';', ' ', 'n', 'a', 'm',
      'e', '=', '"'] : List Char).length from rfl]
  rw [List.drop_left]
  rw [show name.length + 18 - 1 -
      (['f', 'o', 'r', 'm', '-', 'd', 'a', 't', 'a', ';', ' ', 'n', 'a', 'm',
        'e', '=', '"'] : List Char).length = name.length from by
      rw [show (['f', 'o', 'r', 'm', '-', 'd', 'a', 't', 'a', ';', ' ', 'n',
        'a', 'm', 'e', '=', '"'] : List Char).length = 17 from rfl]
      omega]
  rw [show name.length = name.data.length from rfl]
  rw [List.take_left]



theorem containsSub_wrap (tail : List Char) :
    containsSub (("form-data; name=\"").data ++ tail)
      [';', ' ', 'f', 'i', 'l', 'e', 'n', 'a', 'm', 'e', '='] =
    containsSub tail [';', ' ', 'f', 'i', 'l', 'e', 'n', 'a', 'm', 'e', '='] :=
  rfl

theorem containsSub_no_semi :
    ∀ (cs : List Char), (∀ c ∈ cs, ¬ c = ';') →
    containsSub cs [';', ' ', 'f', 'i', 'l', 'e', 'n', 'a', 'm', 'e', '='] =
      false := by
  intro cs
  induction cs with
  | nil =>
    intro _
    rfl
  | cons c rest ih =>
    intro h
    have hc : ¬ c = ';' := h c (List.mem_cons_self _ _)
    have hp : List.isPrefixOf
        [';', ' ', 'f', 'i', 'l', 'e', 'n', 'a', 'm', 'e', '=']
        (c :: rest) = false := by
      simp only [List.isPrefixOf]
      rw [beq_eq_false_iff_ne.mpr (Ne.symm hc)]
      rw [Bool.false_and]
    unfold containsSub
    rw [if_neg (by simp [hp])]
    dsimp only []
    exact ih (fun d hd => h d (List.mem_cons_of_mem _ hd))

theorem deepName_no_semi (d : Nat) :
    ∀ c ∈ deepNameChars d, ¬ c = ';' := by
  induction d with
  | zero =>
    intro c hc
    rw [deepNameChars] at hc
    rcases List.mem_singleton.mp hc with rfl
    decide
  | succ d ih =>
    intro c hc
    rw [deepNameChars] at hc
    rcases List.mem_cons.mp hc with rfl | hc2
    · decide
    · rcases List.mem_cons.mp hc2 with rfl | hc3
      · decide
      · exact ih c hc3

theorem wrap_ne_empty (name : String) :
    ¬ ("form-data; name=\"" ++ name ++ "\"") = "" := by
  intro h
  have h2 := congrArg String.data h
  simp [String.data_append] at h2

theorem wrap_starts_formdata (name : String) :
    List.isPrefixOf ['f', 'o', 'r', 'm', '-', 'd', 'a', 't', 'a']
      ("form-data; name=\"" ++ name ++ "\"").data = true := by
  rw [String.data_append, String.data_append,
    show ("\"" : String).data = ['"'] from rfl, List.append_assoc]
  simp [List.isPrefixOf]

theorem wrap_cond_false (name : String) :
    (decide (("form-data; name=\"" ++ name ++ "\"") = "") ||
      decide (¬ (List.isPrefixOf ['f', 'o', 'r', 'm', '-', 'd', 'a', 't', 'a']
        ("form-data; name=\"" ++ name ++ "\"").data = true))) = false := by
  rw [decide_eq_false (wrap_ne_empty name)]
  rw [Bool.false_or]
  rw [decide_eq_false (by simp [wrap_starts_formdata name])]

theorem wrap_no_filename (name : String)
    (h : ∀ c ∈ name.data, ¬ c = ';') :
    containsSub ("form-data; name=\"" ++ name ++ "\"").data
      [';', ' ', 'f', 'i', 'l', 'e', 'n', 'a', 'm', 'e', '='] = false := by
  rw [String.data_append, String.data_append,
    show ("\"" : String).data = ['"'] from rfl, List.append_assoc]
  rw [containsSub_wrap]
  apply containsSub_no_semi
  intro c hc
  rcases List.mem_append.mp hc with h1 | h2
  · exact h c h1
  · rcases List.mem_singleton.mp h2 with rfl
    decide

theorem deepName_ne_empty (d : Nat) :
    ¬ ((⟨deepNameChars d⟩ : String) = "") := by
  intro h
  have h2 := congrArg String.data h
  cases d <;> simp [deepNameChars] at h2

theorem deepName_ne_proto (d : Nat) :
    ¬ ((⟨deepNameChars d⟩ : String) = "__proto__") := by
  intro h
  have h2 := congrArg String.data h
  cases d <;> simp [deepNameChars] at h2

theorem deepName_length (d : Nat) :
    ((⟨deepNameChars d⟩ : String)).length = 2 * d + 1 := by
  show (deepNameChars d).length = 2 * d + 1
  exact deepNameChars_length d



theorem formDataParseF_deep_flat (fuel d : Nat) (hd : 2 ≤ d) :
    formDataParseF (fuel + 1) (cfgDeep d)
      [.part [("content-disposition",
        "form-data; name=\"" ++ (⟨deepNameChars d⟩ : String) ++ "\"")]
        (some "v") none] =
      some (.ok (chainObj (d + 1) (.str "v"))) := by
  unfold formDataParseF
  dsimp only []
  rw [if_neg (show ¬ (cfgDeep d).maxDepth ≤ 1 from by
    dsimp only [cfgDeep, cfgBase]
    omega)]
  rw [mpRun_single_flat (wrap_cond_false _) rfl
    (by dsimp only [cfgDeep, cfgBase]; decide)
    (wrap_no_filename _ (deepName_no_semi d))
    (by dsimp only [cfgDeep, cfgBase]; decide)
    (nameCapture_wrap _)
    (deepName_ne_empty d)
    (deepName_ne_proto d)
    (by
      rw [deepName_length d]
      dsimp only [cfgDeep, cfgBase]
      omega)]
  rw [show assignNestedValue (JValue.obj [])
      (extractNestedKey ⟨deepNameChars d⟩)
      (match some "v" with
       | some content => (possibleCast content (cfgDeep d)).toJValue
       | none => JValue.str "") =
      .ok (chainObj (d + 1) (.str "v")) from by
    dsimp only []
    rw [show (possibleCast "v" (cfgDeep d)).toJValue = JValue.str "v" from rfl]
    rw [extract_deep d]
    exact assign_chain d _]
  rfl



theorem castTail_eq (t : String) (cfg : Config) :
    (if t = "true" && cfg.castBooleans then Scalar.bool true
     else if t = "false" && cfg.castBooleans then Scalar.bool false
     else if cfg.convertPluses then Scalar.str (plusToSpace t)
     else Scalar.str t) = possibleCastSpecTail t cfg := by
  unfold possibleCastSpecTail
  cases hb : cfg.castBooleans <;>
    by_cases ht : t = "true" <;>
      by_cases hf : t = "false" <;>
        simp [hb, ht, hf]

theorem possibleCast_amended_eq (value : String) (cfg : Config) :
    possibleCast value cfg = possibleCastSpecAmended value cfg := by
  unfold possibleCast possibleCastSpecAmended
  by_cases he : jsTrim (stripTrailingCRLF value) = ""
  · rw [if_pos he, if_pos he]
  · rw [if_neg he, if_neg he]
    cases hn : jsStrToNumber (stripTrailingCRLF value) with
    | some n =>
      cases hc : cfg.castNumbers <;> dsimp only []
      · exact castTail_eq _ cfg
      · rfl
    | none =>
      dsimp only []
      exact castTail_eq _ cfg

theorem urlRunChunks_ok_bytes {cfg : Config} :
    ∀ (chunks : List (List Nat)) (bytes : Nat) (st : UrlState) (obj : JValue)
    (bytes' : Nat) (st' : UrlState) (obj' : JValue),
    urlRunChunks cfg bytes st obj chunks = .ok (bytes', st', obj') →
    bytes' = bytes + sumLen chunks := by
  intro chunks
  induction chunks with
  | nil =>
    intro bytes st obj bytes' st' obj' h
    have h1 := pure_ok_eq h
    rw [Prod.mk.injEq, Prod.mk.injEq] at h1
    rw [sumLen, ← h1.1]
    simp
  | cons c rest ih =>
    intro bytes st obj bytes' st' obj' h
    rw [sumLen_cons]
    unfold urlRunChunks at h
    obtain ⟨b1, h1, h⟩ := bind_ok_extract h
    obtain ⟨hb1, _⟩ := byteCountStep_ok h1
    obtain ⟨so, h2, h⟩ := bind_ok_extract h
    obtain ⟨st1, o1⟩ := so
    have := ih b1 st1 o1 bytes' st' obj' h
    omega

theorem urlRunChunks_append_err {cfg : Config} :
    ∀ (a : List (List Nat)) (bs : List (List Nat)) (bytes : Nat)
    (st : UrlState) (obj : JValue) (bytes' : Nat) (st' : UrlState)
    (obj' : JValue) (err : Err),
    urlRunChunks cfg bytes st obj a = .ok (bytes', st', obj') →
    urlRunChunks cfg bytes' st' obj' bs = .error err →
    urlRunChunks cfg bytes st obj (a ++ bs) = .error err := by
  intro a
  induction a with
  | nil =>
    intro bs bytes st obj bytes' st' obj' err h1 h2
    have h3 := pure_ok_eq h1
    rw [Prod.mk.injEq, Prod.mk.injEq] at h3
    rw [List.nil_append, h3.1, h3.2.1, h3.2.2]
    exact h2
  | cons c rest ih =>
    intro bs bytes st obj bytes' st' obj' err h1 h2
    rw [List.cons_append]
    unfold urlRunChunks at h1 ⊢
    obtain ⟨b1, hb, h1⟩ := bind_ok_extract h1
    obtain ⟨so, hf, h1⟩ := bind_ok_extract h1
    obtain ⟨st1, o1⟩ := so
    rw [hb]
    simp only [Bind.bind, Except.bind]
    rw [hf]
    exact ih bs b1 st1 o1 bytes' st' obj' err h1 h2

theorem urlParse_guard_exact {cfg : Config} {pre : List (List Nat)}
    {bytes : Nat} {st : UrlState} {obj : JValue} {c : List Nat}
    {rest : List (List Nat)}
    (hpre : urlRunChunks cfg 0 urlInit (.obj []) pre = .ok (bytes, st, obj))
    (hsz : cfg.maxSize < sumLen pre + c.length) :
    urlParse cfg (pre ++ c :: rest) = .error .maxSizeExceeded := by
  have hb := urlRunChunks_ok_bytes pre 0 urlInit (.obj []) bytes st obj hpre
  have hrun : urlRunChunks cfg 0 urlInit (.obj []) (pre ++ c :: rest) =
      .error .maxSizeExceeded := by
    refine urlRunChunks_append_err pre (c :: rest) 0 urlInit (.obj [])
      bytes st obj .maxSizeExceeded hpre ?_
    unfold urlRunChunks
    rw [byteCountStep_err_of_lt (by omega)]
    rfl
  unfold urlParse
  rw [hrun]
  rfl



theorem mpRun_fail_exact {cfg : Config} :
    ∀ (fuel : Nat) (st : MState) (ret : JValue) (ps : List MItem) (e : Err)
    (r : JValue) (st' : MState),
    mpRun cfg fuel st ret ps = some (.ok (r, st')) →
    mpRun cfg fuel st ret (ps ++ [.streamFail e]) = some (.error e) := by
  intro fuel
  induction fuel with
  | zero =>
    intro st ret ps e r st' hm
    cases ps with
    | nil =>
      rw [List.nil_append, mpRun_fail_eq]
      rfl
    | cons it rest =>
      cases it with
      | streamFail e2 =>
        rw [mpRun_fail_eq] at hm
        exact (throw_some_ok_elim hm).elim
      | part headers body sub =>
        rw [mpRun_zero_part] at hm
        cases hm
  | succ fuel ih =>
    intro st ret ps e r st' hm
    cases ps with
    | nil =>
      rw [List.nil_append, mpRun_fail_eq]
      rfl
    | cons it rest =>
      cases it with
      | streamFail e2 =>
        rw [mpRun_fail_eq] at hm
        exact (throw_some_ok_elim hm).elim
      | part headers body sub =>
        rw [mpRun_part_eq] at hm
        rw [List.cons_append, mpRun_part_eq]
        cases hcd : headerGet headers "content-disposition" with
        | none =>
          rw [hcd] at hm
          exact ih _ _ _ _ _ _ hm
        | some key =>
          rw [hcd] at hm
          dsimp only [] at hm ⊢
          cases hA : (decide (key = "") ||
              decide (¬ (List.isPrefixOf
                ['f', 'o', 'r', 'm', '-', 'd', 'a', 't', 'a'] key.data = true))) <;>
            simp only [hA, Bool.false_eq_true, Bool.true_eq_false,
              eq_self_iff_true, if_true, if_false, ite_true, ite_false] at hm ⊢
          case true => exact ih _ _ _ _ _ _ hm
          case false =>
          cases hB : (match cfg.allowedContentTypes with
              | some allowed =>
                allowed.contains
                  (match headerGet headers "content-type" with
                  | some s => if s = "" then "text/plain" else s
                  | none => "text/plain")
              | none => true) <;>
            simp only [hB, Bool.false_eq_true, Bool.true_eq_false,
              eq_self_iff_true, if_true, if_false, ite_true, ite_false] at hm
          case false => exact (throw_some_ok_elim hm).elim
          case true =>
          by_cases hC : cfg.maxKeys ≤ st.keyCount + 1
          · rw [if_pos hC] at hm
            exact (throw_some_ok_elim hm).elim
          · rw [if_neg hC] at hm ⊢
            cases hD : containsSub key.data
                [';', ' ', 'f', 'i', 'l', 'e', 'n', 'a', 'm', 'e', '='] <;>
              simp only [hD, Bool.false_eq_true, Bool.true_eq_false,
                eq_self_iff_true, if_true, if_false, ite_true, ite_false] at hm ⊢
            · by_cases hE : cfg.maxFiles ≤ st.fileCount
              · rw [if_pos hE] at hm
                exact (throw_some_ok_elim hm).elim
              · rw [if_neg hE] at hm ⊢
                cases hF : nameCapture key with
                | none =>
                  rw [hF] at hm
                  dsimp only [Option.map_none'] at hm ⊢
                  exact ih _ _ _ _ _ _ hm
                | some kn =>
                  rw [hF] at hm
                  dsimp only [Option.map_some'] at hm ⊢
                  by_cases hG : kn = ""
                  · rw [if_pos hG] at hm ⊢
                    exact ih _ _ _ _ _ _ hm
                  · rw [if_neg hG] at hm ⊢
                    rw [if_neg (by simp)] at hm ⊢
                    by_cases hI : kn = "__proto__"
                    · rw [if_pos hI] at hm
                      exact (throw_some_ok_elim hm).elim
                    · rw [if_neg hI] at hm ⊢
                      by_cases hJ : cfg.maxKeyLength < kn.length
                      · rw [if_pos hJ] at hm
                        exact (throw_some_ok_elim hm).elim
                      · rw [if_neg hJ] at hm ⊢
                        cases sub with
                        | none =>
                          dsimp only [pure, Except.pure] at hm ⊢
                          cases body with
                          | none =>
                            dsimp only [] at hm ⊢
                            cases hL : assignNestedValue ret
                                (extractNestedKey kn) (JValue.str "") with
                            | error e =>
                              rw [hL] at hm
                              exact (throw_some_ok_elim hm).elim
                            | ok ret' =>
                              rw [hL] at hm
                              exact ih _ _ _ _ _ _ hm
                          | some content =>
                            dsimp only [] at hm ⊢
                            cases hL : assignNestedValue ret
                                (extractNestedKey kn)
                                (possibleCast content cfg).toJValue with
                            | error e =>
                              rw [hL] at hm
                              exact (throw_some_ok_elim hm).elim
                            | ok ret' =>
                              rw [hL] at hm
                              exact ih _ _ _ _ _ _ hm
                        | some items =>
                          dsimp only [] at hm ⊢
                          by_cases hK : cfg.maxDepth ≤ st.depth + 1
                          · rw [if_pos hK] at hm
                            dsimp only [throw, throwThe, MonadExceptOf.throw] at hm
                            exact (throw_some_ok_elim hm).elim
                          · rw [if_neg hK] at hm ⊢
                            cases hrec : mpRun cfg fuel
                                { depth := st.depth + 1, keyCount := st.keyCount + 1,
                                  fileCount := st.fileCount }
                                (JValue.obj []) items with
                            | none =>
                              rw [hrec] at hm
                              cases hm
                            | some exc =>
                              rw [hrec] at hm
                              cases exc with
                              | error e =>
                                dsimp only [throw, throwThe, MonadExceptOf.throw] at hm
                                exact (throw_some_ok_elim hm).elim
                              | ok p =>
                                obtain ⟨v, st3⟩ := p
                                dsimp only [pure, Except.pure] at hm ⊢
                                cases hL : assignNestedValue ret
                                    (extractNestedKey kn) v with
                                | error e =>
                                  rw [hL] at hm
                                  exact (throw_some_ok_elim hm).elim
                                | ok ret' =>
                                  rw [hL] at hm
                                  exact ih _ _ _ _ _ _ hm
            · by_cases hE : cfg.maxFiles ≤ st.fileCount + 1
              · rw [if_pos hE] at hm
                exact (throw_some_ok_elim hm).elim
              · rw [if_neg hE] at hm ⊢
                cases hF : nameFilenameCapture key with
                | none =>
                  rw [hF] at hm
                  dsimp only [Option.map_none'] at hm ⊢
                  exact ih _ _ _ _ _ _ hm
                | some p =>
                  obtain ⟨kn, fname⟩ := p
                  rw [hF] at hm
                  dsimp only [Option.map_some', Option.getD_some] at hm ⊢
                  by_cases hG : kn = ""
                  · rw [if_pos hG] at hm ⊢
                    exact ih _ _ _ _ _ _ hm
                  · rw [if_neg hG] at hm ⊢
                    by_cases hH : cfg.maxFilenameLength < fname.length
                    · rw [if_pos hH] at hm
                      exact (throw_some_ok_elim hm).elim
                    · rw [if_neg hH] at hm ⊢
                      by_cases hI : kn = "__proto__"
                      · rw [if_pos hI] at hm
                        exact (throw_some_ok_elim hm).elim
                      · rw [if_neg hI] at hm ⊢
                        by_cases hJ : cfg.maxKeyLength < kn.length
                        · rw [if_pos hJ] at hm
                          exact (throw_some_ok_elim hm).elim
                        · rw [if_neg hJ] at hm ⊢
                          cases sub with
                          | none =>
                            dsimp only [pure, Except.pure] at hm ⊢
                            cases body with
                            | none =>
                              dsimp only [] at hm ⊢
                              cases hL : assignNestedValue ret
                                  (extractNestedKey kn) (JValue.str "") with
                              | error e =>
                                rw [hL] at hm
                                exact (throw_some_ok_elim hm).elim
                              | ok ret' =>
                                rw [hL] at hm
                                exact ih _ _ _ _ _ _ hm
                            | some content =>
                              dsimp only [] at hm ⊢
                              cases hL : assignNestedValue ret
                                  (extractNestedKey kn)
                                  (JValue.file fname
                                    (match headerGet headers "content-type" with
                                    | some s => if s = "" then "text/plain" else s
                                    | none => "text/plain")
                                    content []) with
                              | error e =>
                                rw [hL] at hm
                                exact (throw_some_ok_elim hm).elim
                              | ok ret' =>
                                rw [hL] at hm
                                exact ih _ _ _ _ _ _ hm
                          | some items =>
                            dsimp only [] at hm ⊢
                            by_cases hK : cfg.maxDepth ≤ st.depth + 1
                            · rw [if_pos hK] at hm
                              dsimp only [throw, throwThe, MonadExceptOf.throw] at hm
                              exact (throw_some_ok_elim hm).elim
                            · rw [if_neg hK] at hm ⊢
                              cases hrec : mpRun cfg fuel
                                  { depth := st.depth + 1, keyCount := st.keyCount + 1,
                                    fileCount := st.fileCount + 1 }
                                  (JValue.obj []) items with
                              | none =>
                                rw [hrec] at hm
                                cases hm
                              | some exc =>
                                rw [hrec] at hm
                                cases exc with
                                | error e =>
                                  dsimp only [throw, throwThe, MonadExceptOf.throw] at hm
                                  exact (throw_some_ok_elim hm).elim
                                | ok q =>
                                  obtain ⟨v, st3⟩ := q
                                  dsimp only [pure, Except.pure] at hm ⊢
                                  cases hL : assignNestedValue ret
                                      (extractNestedKey kn) v with
                                  | error e =>
                                    rw [hL] at hm
                                    exact (throw_some_ok_elim hm).elim
                                  | ok ret' =>
                                    rw [hL] at hm
                                    exact ih _ _ _ _ _ _ hm



theorem formDataParseF_fail_exact {fuel : Nat} {cfg : Config}
    {ps : List MItem} {e : Err} {v : JValue}
    (h : formDataParseF fuel cfg ps = some (.ok v)) :
    formDataParseF fuel cfg (ps ++ [.streamFail e]) = some (.error e) := by
  unfold formDataParseF at h ⊢
  dsimp only [] at h ⊢
  by_cases hd : cfg.maxDepth ≤ 1
  · rw [if_pos hd] at h
    exact (throw_some_ok_elim h).elim
  · rw [if_neg hd] at h ⊢
    cases hrec : mpRun cfg fuel ⟨1, 0, 0⟩ (.obj []) ps with
    | none =>
      rw [hrec] at h
      cases h
    | some exc =>
      rw [hrec] at h
      cases exc with
      | error e2 =>
        dsimp only [throw, throwThe, MonadExceptOf.throw] at h
        exact (throw_some_ok_elim h).elim
      | ok q =>
        obtain ⟨v', st'⟩ := q
        rw [mpRun_fail_exact fuel ⟨1, 0, 0⟩ (.obj []) ps e v' st' hrec]
        rfl

/-! ## The claims -/

/-- Claim C1 (amended): a `__proto__` object key settles the JSON parse
with `INVALID_INPUT` at any nesting depth within the configured limits;
a URL-encoded pair whose dotted path contains a `__proto__` segment
fails with `INVALID_INPUT` once it passes the earlier per-pair guards,
and concrete parses reject such bodies; a multipart field whose whole
name is `__proto__` fails with `INVALID_INPUT` (a `__proto__` that is
merely a segment of a dotted multipart name is not rejected — see the
counterexample); and no successful URL-encoded or multipart parse
result carries a `__proto__` own property at any level. -/
theorem proto_rejected_amended :
    (∀ (cfg : Config) (n L d : Nat), n + 1 ≤ cfg.maxKeys →
      (n : Int) + 1 ≤ (cfg.maxDepth : Int) → L ≤ cfg.maxSize →
      jsonParse cfg [(L, protoEvents n d)] = some (.error .invalidInput)) ∧
    (∀ (cfg : Config) (obj : JValue) (p : UPair), p.key ≠ "" →
      ¬ cfg.maxKeys < p.keyCount → ¬ cfg.maxKeyLength < p.key.length →
      (extractNestedKey p.key).contains "__proto__" = true →
      urlProcessPair cfg obj p = .error .invalidInput) ∧
    (urlParse cfgBase [asciiBytes "a.__proto__.b=1"] = .error .invalidInput ∧
      urlParse cfgBase [asciiBytes "__proto__=a"] = .error .invalidInput) ∧
    (∀ body : Option String, formDataParseF 100 cfgBase
      [.part [("content-disposition", "form-data; name=\"__proto__\"")]
        body none] = some (.error .invalidInput)) ∧
    (∀ (cfg : Config) (chunks : List (List Nat)) (r : JValue),
      urlParse cfg chunks = .ok r → noProtoV r = true) ∧
    (∀ (fuel : Nat) (cfg : Config) (items : List MItem) (v : JValue),
      formDataParseF fuel cfg items = some (.ok v) → noProtoV v = true) :=
  ⟨fun _ _ _ _ hk hd hs => jsonParse_proto hk hd hs,
   fun _ _ _ h1 h2 h3 h4 => urlProcessPair_proto h1 h2 h3 h4,
   urlParse_proto_pair,
   formDataParseF_proto,
   fun _ _ _ h => noProto_urlParse h,
   fun _ _ _ _ h => noProto_formDataParseF h⟩

theorem proto_rejected_amended_witness :
    jsonParse cfgBase [(5, protoEvents 1 0)] = some (.error .invalidInput) ∧
    urlProcessPair cfgBase (.obj []) ⟨"a.__proto__", "1", 0⟩ =
      .error .invalidInput ∧
    noProtoV (.obj [("a", .str "1")]) = true ∧
    noProtoV (.obj []) = true :=
  ⟨proto_rejected_amended.1 cfgBase 1 5 0 (by decide) (by decide) (by decide),
   proto_rejected_amended.2.1 cfgBase (.obj []) ⟨"a.__proto__", "1", 0⟩
     (by decide) (by decide) (by decide) (by decide),
   proto_rejected_amended.2.2.2.2.1 cfgBase [asciiBytes "a=1"]
     (.obj [("a", .str "1")]) rfl,
   proto_rejected_amended.2.2.2.2.2 100 cfgBase []
     (.obj []) rfl⟩

/-- Counterexample to C1 as stated: a `__proto__` segment inside a
dotted multipart field name is not rejected — the parse succeeds (the
write itself is swallowed by the `__proto__` setter, leaving `{a: {}}`). -/
theorem multipart_proto_segment_not_rejected :
    formDataParseF 100 cfgBase
      [.part [("content-disposition", "form-data; name=\"a.__proto__\"")]
        (some "x") none] = some (.ok (.obj [("a", .obj [])])) := rfl



/-- Claim C2 (amended): the byte-stream counter delivers every chunk
unchanged when the cumulative total stays within the ceiling and fails
with `MAX_SIZE_EXCEEDED` as soon as the total exceeds it; a URL-encoded
parse succeeds only for bodies within the ceiling, and fails with
`MAX_SIZE_EXCEEDED` at exactly the first chunk that makes the
cumulative count exceed it, whenever the preceding chunks parsed
without error; a multipart parse never succeeds once the guarded
stream has failed, and when the preceding parts parsed successfully it
fails with exactly the guard's error; and a JSON parse that has not
settled before an exceeding chunk arrives settles with
`MAX_SIZE_EXCEEDED` (a document that resolves in an earlier chunk can
still succeed past the ceiling — see the counterexample). -/
theorem size_guard_amended :
    (∀ (maxSize : Nat) (chunks : List (List Nat)),
      sumLen chunks ≤ maxSize →
      byteCounterRun maxSize 0 chunks = .ok chunks) ∧
    (∀ (maxSize : Nat) (chunks : List (List Nat)), maxSize < sumLen chunks →
      byteCounterRun maxSize 0 chunks = .error .maxSizeExceeded) ∧
    (∀ (cfg : Config) (chunks : List (List Nat)) (r : JValue),
      urlParse cfg chunks = .ok r → sumLen chunks ≤ cfg.maxSize) ∧
    (∀ (cfg : Config) (pre : List (List Nat)) (bytes : Nat) (st : UrlState)
      (obj : JValue) (c : List Nat) (rest : List (List Nat)),
      urlRunChunks cfg 0 urlInit (.obj []) pre = .ok (bytes, st, obj) →
      cfg.maxSize < sumLen pre + c.length →
      urlParse cfg (pre ++ c :: rest) = .error .maxSizeExceeded) ∧
    (∀ (fuel : Nat) (cfg : Config) (ps : List MItem) (e : Err) (v : JValue),
      formDataParseF fuel cfg (ps ++ [.streamFail e]) = some (.ok v) →
      False) ∧
    (∀ (fuel : Nat) (cfg : Config) (ps : List MItem) (e : Err) (v : JValue),
      formDataParseF fuel cfg ps = some (.ok v) →
      formDataParseF fuel cfg (ps ++ [.streamFail e]) = some (.error e)) ∧
    (∀ (cfg : Config) (a : List (Nat × List JEvent)) (bytes : Nat)
      (st : JState) (len : Nat) (evs : List JEvent)
      (rest : List (Nat × List JEvent)),
      jsonChunksRun cfg 0 ⟨0, 0⟩ a = .inl (bytes, st) →
      cfg.maxSize < bytes + len →
      jsonParse cfg (a ++ (len, evs) :: rest) =
        some (.error .maxSizeExceeded)) :=
  ⟨fun m chunks h => byteCounterRun_ok chunks 0 (by simpa using h),
   fun m chunks h => byteCounterRun_err chunks 0 (Nat.zero_le _) (by simpa using h),
   fun _ _ _ h => urlParse_ok_size h,
   fun _ _ _ _ _ _ _ hpre hsz => urlParse_guard_exact hpre hsz,
   fun _ _ _ _ _ h => formDataParseF_streamFail_not_ok h,
   fun _ _ _ _ _ h => formDataParseF_fail_exact h,
   fun _ _ _ _ _ _ _ ha hsz => json_guard_settles ha hsz⟩

theorem size_guard_amended_witness :
    byteCounterRun 2 0 [[7], [9]] = .ok [[7], [9]] ∧
    byteCounterRun 1 0 [[7], [9]] = .error .maxSizeExceeded ∧
    sumLen [asciiBytes "a=1"] ≤ cfgBase.maxSize ∧
    urlParse { cfgBase with maxSize := 2 } ([] ++ [37, 38, 39] :: []) =
      .error .maxSizeExceeded ∧
    formDataParseF 100 cfgBase ([] ++ [.streamFail .maxSizeExceeded]) ≠
      some (.ok (.obj [])) ∧
    formDataParseF 100 cfgBase ([] ++ [.streamFail .maxSizeExceeded]) =
      some (.error .maxSizeExceeded) ∧
    jsonParse { cfgBase with maxSize := 2 } ([] ++ (3, []) :: []) =
      some (.error .maxSizeExceeded) :=
  ⟨size_guard_amended.1 2 [[7], [9]] (by decide),
   size_guard_amended.2.1 1 [[7], [9]] (by decide),
   size_guard_amended.2.2.1 cfgBase [asciiBytes "a=1"] (.obj [("a", .str "1")])
     rfl,
   size_guard_amended.2.2.2.1 { cfgBase with maxSize := 2 } [] 0 urlInit
     (.obj []) [37, 38, 39] [] rfl (by decide),
   fun h => size_guard_amended.2.2.2.2.1 100 cfgBase [] .maxSizeExceeded
     (.obj []) h,
   size_guard_amended.2.2.2.2.2.1 100 cfgBase [] .maxSizeExceeded
     (.obj []) rfl,
   size_guard_amended.2.2.2.2.2.2 { cfgBase with maxSize := 2 } [] 0 ⟨0, 0⟩ 3
     [] [] rfl (by decide)⟩

/-- Counterexample to C2 as stated: a chunked JSON body one byte over
the ceiling still succeeds when the document resolves in an earlier
chunk — the promise settles with the value before the guard fires. -/
theorem json_resolves_past_ceiling :
    jsonParse { cfgBase with maxSize := 2 }
      [(2, [.tok .lbrace, .tok .rbrace, .value none 0 (.obj [])]),
       (1, [.err])] = some (.ok (.obj [])) ∧
    ({ cfgBase with maxSize := 2 } : Config).maxSize < 2 + 1 :=
  ⟨rfl, by decide⟩

/-- Claim C3, the code's actual behaviour: with `maxKeys = 1` the body
`a=1&b=2` (two pairs, no trailing `&`) parses successfully, because the
pair flushed at end of stream is emitted without incrementing the key
counter. -/
theorem url_final_pair_uncounted :
    urlParse { cfgBase with maxKeys := 1 } [asciiBytes "a=1&b=2"] =
      .ok (.obj [("a", .str "1"), ("b", .str "2")]) := rfl

/-- Claim C4: the input `a.b=1` (as `{"a":{"b":1}}` for JSON, key path
`a.b` for URL-encoded, field name `a.b` for multipart) fails with
`TOO_DEEP` at `maxDepth = 1` and succeeds at `maxDepth = 2`, for all
three parsers. -/
theorem depth_boundary_all_parsers :
    jsonParse { cfgBase with maxDepth := 1 } [(13, jsonEventsAB1)] =
      some (.error .tooDeep) ∧
    jsonParse { cfgBase with maxDepth := 2 } [(13, jsonEventsAB1)] =
      some (.ok (.obj [("a", .obj [("b", .num (.finite 1 0))])])) ∧
    urlParse { cfgBase with maxDepth := 1 } [asciiBytes "a.b=1"] =
      .error .tooDeep ∧
    urlParse { cfgBase with maxDepth := 2 } [asciiBytes "a.b=1"] =
      .ok (.obj [("a", .obj [("b", .str "1")])]) ∧
    formDataParseF 100 { cfgBase with maxDepth := 1 }
      [.part [("content-disposition", "form-data; name=\"a.b\"")]
        (some "1") none] = some (.error .tooDeep) ∧
    formDataParseF 100 { cfgBase with maxDepth := 2 }
      [.part [("content-disposition", "form-data; name=\"a.b\"")]
        (some "1") none] =
      some (.ok (.obj [("a", .obj [("b", .str "1")])])) :=
  ⟨rfl, rfl, rfl, rfl, rfl, rfl⟩



/-- Claim C5 (amended): the caster applies exactly the ordered
algorithm — strip one trailing CR/LF run; if the result trims to empty
return the stripped value itself (which may be non-empty whitespace);
else if `castNumbers` is set and `Number(value)` is not `NaN`
(including the infinities) return the number; else the boolean step,
then the plus step, then the identity, mutually exclusive in that
order. -/
theorem cast_algorithm_amended (value : String) (cfg : Config) :
    possibleCast value cfg = possibleCastSpecAmended value cfg :=
  possibleCast_amended_eq value cfg

/-- Counterexample to C5 as stated: the specified algorithm (empty
string on trim-empty, only finite numbers cast) differs from the code
at `"Infinity"` (the code casts it, it is not finite) and at `" "` (the
code returns the whitespace itself, not the empty string). -/
theorem cast_spec_divergent :
    possibleCast "Infinity" cfgNum = .num .inf ∧
    possibleCastSpec "Infinity" cfgNum = .str "Infinity" ∧
    possibleCast " " cfgBase = .str " " ∧
    possibleCastSpec " " cfgBase = .str "" :=
  ⟨rfl, rfl, rfl, rfl⟩

/-- Claim C6 (amended): an intermediate `name[]` segment uses
append-or-reuse-last semantics, where "reuse" applies whenever the last
element is object-typed in the JS sense (objects, sequences and `File`
objects alike — see the counterexample for a `File`): if the sequence
is empty or its last element is not object-typed a fresh container is
pushed and descended into, otherwise the existing last element is
descended into; and the `an_object.cat[].meow` / `an_object.cat[2].meow`
example produces `[{meow: "meow?"}, <hole>, {meow: "meow!"}]`. -/
theorem append_or_reuse_amended :
    (∀ (fs : List (String × JValue)) (seg key : String)
      (rest full : List String) (v : JValue) (es : List (Option JValue))
      (ps : List (String × JValue)),
      parseSegment seg = some (key, some none) → key ≠ "__proto__" →
      getProp (.obj fs) key = some (.arr es ps) → rest ≠ [] →
      lastIsObject (.arr es ps) = false →
      assignGo (.obj fs) (seg :: rest) full v =
        (match assignGo (.obj []) rest full v with
         | .error e => .error e
         | .ok c => .ok (.obj (assocSet fs key (.arr (es ++ [some c]) ps))))) ∧
    (∀ (fs : List (String × JValue)) (seg key : String)
      (rest full : List String) (v : JValue) (es : List (Option JValue))
      (ps : List (String × JValue)) (x : JValue),
      parseSegment seg = some (key, some none) → key ≠ "__proto__" →
      getProp (.obj fs) key = some (.arr es ps) → rest ≠ [] →
      es.getLast? = some (some x) → typeofObject x = true →
      assignGo (.obj fs) (seg :: rest) full v =
        (match assignGo x rest full v with
         | .error e => .error e
         | .ok c => .ok (.obj (assocSet fs key
             (.arr (es.set (es.length - 1) (some c)) ps))))) ∧
    ((assignNestedValue (.obj []) (extractNestedKey "an_object.cat[].meow")
        (.str "meow?") >>= fun o1 =>
      assignNestedValue o1 (extractNestedKey "an_object.cat[2].meow")
        (.str "meow!")) =
      .ok (.obj [("an_object", .obj [("cat", .arr
        [some (.obj [("meow", .str "meow?")]), none,
         some (.obj [("meow", .str "meow!")])] [])])])) :=
  ⟨fun fs seg key rest full v es ps h1 h2 h3 h4 h5 =>
    assign_auto_push fs seg key rest full v es ps h1 h2 h3 h4 h5,
   fun fs seg key rest full v es ps x h1 h2 h3 h4 h5 h6 =>
    assign_auto_reuse fs seg key rest full v es ps x h1 h2 h3 h4 h5 h6,
   rfl⟩

theorem append_or_reuse_amended_witness :
    assignGo (.obj [("k", .arr [] [])]) ["k[]", "x"] ["k[]", "x"]
      (.str "1") =
      (match assignGo (.obj []) ["x"] ["k[]", "x"] (.str "1") with
       | .error e => .error e
       | .ok c => .ok (.obj (assocSet [("k", .arr [] [])] "k"
           (.arr ([] ++ [some c]) [])))) ∧
    assignGo (.obj [("k", .arr [some (.obj [])] [])]) ["k[]", "x"]
      ["k[]", "x"] (.str "1") =
      (match assignGo (.obj []) ["x"] ["k[]", "x"] (.str "1") with
       | .error e => .error e
       | .ok c => .ok (.obj (assocSet [("k", .arr [some (.obj [])] [])] "k"
           (.arr (([some (JValue.obj [])] : List (Option JValue)).set
             (([some (JValue.obj [])] : List (Option JValue)).length - 1)
             (some c)) [])))) :=
  ⟨append_or_reuse_amended.1 [("k", .arr [] [])] "k[]" "k" ["x"] ["k[]", "x"]
     (.str "1") [] [] (by decide) (by decide) (by rfl) (by decide) (by rfl),
   append_or_reuse_amended.2.1 [("k", .arr [some (.obj [])] [])] "k[]" "k"
     ["x"] ["k[]", "x"] (.str "1") [some (.obj [])] [] (.obj [])
     (by decide) (by decide) (by rfl) (by decide) (by rfl) (by rfl)⟩

/-- Counterexample to C6 as stated: a `File` is not a container, yet the
assembler reuses it — the property lands on the `File` object instead of
a freshly pushed container. -/
theorem file_reused_as_container :
    assignNestedValue (.obj [("k", .arr [some (.file "f.txt" "text/plain"
      "data" [])] [])]) (extractNestedKey "k[].x") (.str "1") =
      .ok (.obj [("k", .arr [some (.file "f.txt" "text/plain" "data"
        [("x", .str "1")])] [])]) := rfl



/-- Claim C7: `foo[1]="3"` with `castNumbers = true` into an empty root
yields a sequence of length 2 with a hole at index 0 and the number 3
at index 1; in general an explicit numeric index on a fresh key places
the value at exactly that index with lower indices left as holes. -/
theorem explicit_index_sparse :
    assignNestedValue (.obj []) (extractNestedKey "foo[1]")
      ((possibleCast "3" cfgNum).toJValue) =
      .ok (.obj [("foo", .arr [none, some (.num (.finite 3 0))] [])]) ∧
    (∀ (fs : List (String × JValue)) (seg key : String) (n : Nat)
      (v : JValue),
      parseSegment seg = some (key, some (some n)) → key ≠ "__proto__" →
      isArrayV (getProp (.obj fs) key) = false →
      assignNestedValue (.obj fs) [seg] v =
        .ok (.obj (assocSet fs key
          (.arr (List.replicate n none ++ [some v]) [])))) :=
  ⟨rfl, fun fs seg key n v h1 h2 h3 =>
    assign_explicit_index_fresh fs seg key n v h1 h2 h3⟩

theorem explicit_index_sparse_witness :
    assignNestedValue (.obj []) ["bar[2]"] (.str "x") =
      .ok (.obj (assocSet [] "bar"
        (.arr (List.replicate 2 none ++ [some (.str "x")]) []))) :=
  explicit_index_sparse.2 [] "bar[2]" "bar" 2 (.str "x")
    (by decide) (by decide) (by rfl)

/-- Claim C8: a path segment that fails the
`identifier`/`identifier[index?]` grammar makes the assignment fail with
the `InvalidSegment` diagnostic naming the segment and the full dotted
path, and no further segments are processed: a successful assignment has
only grammatical segments, a first ungrammatical segment (after any
prefix of grammatical ones, from the parsers' empty root) produces
exactly that error, and the repository's own `c.[].d` example yields
the documented message. -/
theorem invalid_segment_fatal :
    (∀ (segs : List String) (cur : JValue) (full : List String)
      (v r : JValue), assignGo cur segs full v = .ok r →
      ∀ s ∈ segs, parseSegment s ≠ none) ∧
    (∀ (p₁ : List String) (seg : String) (p₂ full : List String)
      (v : JValue), parseSegment seg = none →
      (∀ s ∈ p₁, parseSegment s ≠ none) →
      assignGo (.obj []) (p₁ ++ seg :: p₂) full v =
        .error (.invalidSegment seg (String.intercalate "." full))) ∧
    assignNestedValue (.obj []) (extractNestedKey "c.[].d") (.str "3") =
      .error (.invalidSegment "[]" "c.[].d") :=
  ⟨assign_ok_all_valid, assign_invalid_from_empty, rfl⟩

theorem invalid_segment_fatal_witness :
    assignGo (.obj []) (["a"] ++ "[]" :: ["d"]) ["a", "[]", "d"]
      (.str "1") =
      .error (.invalidSegment "[]" (String.intercalate "." ["a", "[]", "d"])) ∧
    (∀ s ∈ ["a"], parseSegment s ≠ none) :=
  ⟨invalid_segment_fatal.2.1 ["a"] "[]" ["d"] ["a", "[]", "d"] (.str "1")
     (by decide)
     (by
       intro s hs
       rw [List.mem_singleton] at hs
       subst hs
       decide),
   invalid_segment_fatal.1 ["a"] (.obj []) ["a"] (.str "1")
     (.obj [("a", .str "1")]) rfl⟩

/-- Claim C9 (amended): the caster is idempotent on the string
re-representation of its result for every configuration in which
`castNumbers` and `convertPluses` are not both enabled (with both
enabled it is not — see the counterexample). -/
theorem cast_idempotent_amended (s : String) (cfg : Config)
    (hflags : cfg.castNumbers = false ∨ cfg.convertPluses = false) :
    possibleCast (scalarRepr (possibleCast s cfg)) cfg =
      possibleCast s cfg :=
  possibleCast_idem s cfg hflags

theorem cast_idempotent_amended_witness :
    (cfgNum.castNumbers = false ∨ cfgNum.convertPluses = false) ∧
    possibleCast (scalarRepr (possibleCast "1.5" cfgNum)) cfgNum =
      possibleCast "1.5" cfgNum :=
  ⟨Or.inr rfl, cast_idempotent_amended "1.5" cfgNum (Or.inr rfl)⟩

/-- Counterexample to C9 as stated: with both `castNumbers` and
`convertPluses` enabled, `"1+"` first becomes the string `"1 "`, whose
re-cast is the number 1 — casting twice differs from casting once. -/
theorem cast_not_idempotent :
    possibleCast (scalarRepr (possibleCast "1+" cfgNumPlus)) cfgNumPlus ≠
      possibleCast "1+" cfgNumPlus := by
  decide

/-- Claim C10: in the multipart parser `maxDepth` bounds only the
nesting of multipart sub-messages: with `maxDepth ≤ 1` every parse
fails with `TOO_DEEP` on entry, a nested sub-message at `maxDepth = 2`
fails with `TOO_DEEP`, and for every `maxDepth = d ≥ 2` a flat part
whose field name splits into `d + 1` dotted segments (more than
`maxDepth`) is still assigned successfully — the dotted-path length is
never compared against `maxDepth`. -/
theorem multipart_depth_scope :
    (∀ (cfg : Config), cfg.maxDepth ≤ 1 → ∀ (fuel : Nat)
      (items : List MItem),
      formDataParseF fuel cfg items = some (.error .tooDeep)) ∧
    formDataParseF 100 { cfgBase with maxDepth := 2 }
      [.part [("content-disposition", "form-data; name=\"a\"")] none
        (some [.part [("content-disposition", "form-data; name=\"b\"")]
          (some "1") none])] = some (.error .tooDeep) ∧
    (∀ (fuel d : Nat), 2 ≤ d →
      formDataParseF (fuel + 1) (cfgDeep d)
        [.part [("content-disposition",
          "form-data; name=\"" ++ (⟨deepNameChars d⟩ : String) ++ "\"")]
          (some "v") none] = some (.ok (chainObj (d + 1) (.str "v")))) :=
  ⟨fun _ h fuel items => formDataParseF_depth1 h fuel items,
   formDataParseF_nested_depth2,
   fun fuel d hd => formDataParseF_deep_flat fuel d hd⟩

theorem multipart_depth_scope_witness :
    formDataParseF 5 { cfgBase with maxDepth := 1 } [] =
      some (.error .tooDeep) ∧
    formDataParseF 1 (cfgDeep 3)
      [.part [("content-disposition",
        "form-data; name=\"" ++ (⟨deepNameChars 3⟩ : String) ++ "\"")]
        (some "v") none] = some (.ok (chainObj 4 (.str "v"))) :=
  ⟨multipart_depth_scope.1 { cfgBase with maxDepth := 1 } (by decide) 5 [],
   multipart_depth_scope.2.2 0 3 (by decide)⟩

end Bodyguard
